import Mathlib

/-!
# Minesweeper: board engine and session controller

A shallow embedding of `my-app/src/utils/minesweeper.js` (board engine) and of the
click handlers of `my-app/src/App.js` (session controller), followed by the theorems
that settle the behavioural claims of the specification.

Conventions of the embedding

* A JavaScript array of arrays of cell objects is a `List (List Cell)`.
* Indexing `board[r]` / `board[r][c]` with a negative or too large index yields
  `undefined`; this is `cellAt ... = none`.
* Reading a property of `undefined` throws a `TypeError`; functions that can throw
  return `Option`, and `none` is the thrown error.
* In-place assignment to a field of the object stored at `board[r][c]` is
  `updateCell board r c f`.
* `Math.random` is replaced by an explicit table of index draws, one per loop index
  of `shuffle`.
-/

namespace Minesweeper

/-! ## Data model -/

/-- The cell object built by `makeCell`. -/
structure Cell where
  row : Int
  col : Int
  isMine : Bool
  isRevealed : Bool
  isFlagged : Bool
  neighbor : Nat
deriving DecidableEq, Repr

/-- A board is an array of rows, each row an array of cells. -/
abbrev Board := List (List Cell)

/-- `makeCell(row, col)`. -/
def makeCell (row col : Int) : Cell :=
  { row := row, col := col, isMine := false, isRevealed := false, isFlagged := false,
    neighbor := 0 }

/-- `createEmptyBoard(rows, cols)`. -/
def createEmptyBoard (rows cols : Nat) : Board :=
  (List.range rows).map fun (r : Nat) => (List.range cols).map fun (c : Nat) => makeCell r c

/-- The constant `OFFSETS`. -/
def OFFSETS : List (Int × Int) :=
  [(-1, -1), (-1, 0), (-1, 1), (0, -1), (0, 1), (1, -1), (1, 0), (1, 1)]

/-- The value of `board[r] && board[r][c]`: the cell object when both indices are in
range, `none` when either lookup is `undefined`. -/
def cellAt {α : Type} (board : List (List α)) (r c : Int) : Option α :=
  if r < 0 ∨ c < 0 then none else (board[r.toNat]?).bind fun row => row[c.toNat]?

/-- In-place update of the object stored at `board[r][c]` (no effect when there is no
such object). -/
def updateCell {α : Type} (board : List (List α)) (r c : Int) (f : α → α) : List (List α) :=
  if r < 0 ∨ c < 0 then board else List.modify (List.modify f c.toNat) r.toNat board

/-- `forEachNeighbor(board, r, c, fn)`. The callback may mutate the board it walks, so
the loop threads a state `σ` and reads the current board out of it with `boardOf`. -/
def forEachNeighbor {σ : Type} (boardOf : σ → Board) (r c : Int)
    (fn : σ → Cell → Int → Int → σ) (init : σ) : σ :=
  OFFSETS.foldl
    (fun s d =>
      match cellAt (boardOf s) (r + d.1) (c + d.2) with
      | some n => fn s n (r + d.1) (c + d.2)
      | none => s)
    init

/-! ## Mine placement -/

/-- Index draws of `shuffle`: `draw i` is the value of `(Math.random() * (i + 1)) | 0`
at loop index `i`, an integer in `0..i`. -/
abbrev Draws := (i : Nat) → Fin (i + 1)

/-- The destructuring swap `[arr[i], arr[j]] = [arr[j], arr[i]]`. -/
def swapAt {α : Type} (arr : List α) (i j : Nat) : List α :=
  match arr[i]?, arr[j]? with
  | some x, some y => (arr.set i y).set j x
  | _, _ => arr

/-- The loop of `shuffle` from index `i` down to `1`. -/
def shuffleFrom {α : Type} (draw : Draws) : Nat → List α → List α
  | 0, arr => arr
  | i + 1, arr => shuffleFrom draw i (swapAt arr (i + 1) (draw (i + 1)).val)

/-- `shuffle(arr)`. -/
def shuffle {α : Type} (draw : Draws) (arr : List α) : List α :=
  shuffleFrom draw (arr.length - 1) arr

/-- The string key of a position; two integer positions have the same key exactly when
they are equal, so the key is the pair itself. -/
def key (r c : Int) : Int × Int := (r, c)

/-- The set `banned` of `lazyPlaceMinesAfterFirstClick`. -/
def bannedKeys (next : Board) (clickR clickC : Int) : List (Int × Int) :=
  forEachNeighbor (fun _ => next) clickR clickC
    (fun banned n _ _ => banned ++ [key n.row n.col]) [key clickR clickC]

/-- The array `coords` of `lazyPlaceMinesAfterFirstClick` before shuffling. -/
def eligibleCoords (rows cols : Nat) (banned : List (Int × Int)) : List (Int × Int) :=
  (List.range rows).flatMap fun (r : Nat) =>
    (List.range cols).filterMap fun (c : Nat) =>
      if banned.contains (key r c) then none else some ((r : Int), (c : Int))

/-- The loop `next[r][c].isMine = true` over the chosen coordinates. -/
def placeMines : Board → List (Int × Int) → Option Board
  | next, [] => some next
  | next, p :: rest =>
    match cellAt next p.1 p.2 with
    | none => none
    | some _ => placeMines (updateCell next p.1 p.2 fun x => { x with isMine := true }) rest

/-- The counter of `recalcNeighbors` for one cell. -/
def countMineNeighbors (board : Board) (r c : Int) : Nat :=
  forEachNeighbor (fun _ => board) r c (fun cnt n _ _ => if n.isMine then cnt + 1 else cnt) 0

/-- The body of the loops of `recalcNeighbors` for the cell object at `board[i][j]`. -/
def recalcCell (board : Board) (p : Nat × Nat) : Board :=
  match cellAt board p.1 p.2 with
  | none => board
  | some cell =>
    if cell.isMine then updateCell board p.1 p.2 fun x => { x with neighbor := 0 }
    else
      let cnt := countMineNeighbors board cell.row cell.col
      updateCell board p.1 p.2 fun x => { x with neighbor := cnt }

/-- All index pairs of a board, row by row. -/
def allPositions (board : Board) : List (Nat × Nat) :=
  (List.range board.length).flatMap fun (i : Nat) =>
    (List.range (board[i]?.getD []).length).map fun (j : Nat) => (i, j)

/-- `recalcNeighbors(board)`. -/
def recalcNeighbors (board : Board) : Board :=
  (allPositions board).foldl recalcCell board

/-- `lazyPlaceMinesAfterFirstClick(board, clickR, clickC, mines)`. -/
def lazyPlaceMinesAfterFirstClick (draw : Draws) (board : Board) (clickR clickC : Int)
    (mines : Nat) : Option Board :=
  match board with
  | [] => none
  | row0 :: _ =>
    let rows := board.length
    let cols := row0.length
    let next := board
    let banned := bannedKeys next clickR clickC
    let coords := shuffle draw (eligibleCoords rows cols banned)
    (placeMines next (coords.take mines)).map recalcNeighbors

/-! ## Reveal engine -/

/-- The result object of `revealCascade`. -/
structure RevealResult where
  nextBoard : Board
  exploded : Bool
deriving DecidableEq, Repr

/-- The closure `push` of `revealCascade`, applied to the cell object stored at
`next[r][c]`. The state is the board `next` and the work queue. -/
def push (s : Board × List Cell) (cell : Cell) (r c : Int) : Board × List Cell :=
  if !cell.isRevealed && !cell.isFlagged then
    (updateCell s.1 r c fun x => { x with isRevealed := true },
      if cell.neighbor = 0 then s.2 ++ [{ cell with isRevealed := true }] else s.2)
  else s

/-- The callback handed to `forEachNeighbor` inside the loop of `revealCascade`. -/
def revealNeighbor (s : Board × List Cell) (n : Cell) (nr nc : Int) : Board × List Cell :=
  if !n.isRevealed && !n.isFlagged && !n.isMine then
    (updateCell s.1 nr nc fun x => { x with isRevealed := true },
      if n.neighbor = 0 then s.2 ++ [{ n with isRevealed := true }] else s.2)
  else s

/-- The loop `while (queue.length)` of `revealCascade`; every iteration costs one unit
of fuel, and `none` means the fuel ran out before the queue was empty. -/
def cascadeLoop : Nat → Board → List Cell → Option Board
  | _, next, [] => some next
  | 0, _, _ :: _ => none
  | fuel + 1, next, cur :: queue =>
    let s := forEachNeighbor (fun s => s.1) cur.row cur.col revealNeighbor (next, queue)
    cascadeLoop fuel s.1 s.2

/-- `revealCascade(board, r, c)`. The loop is given one unit of fuel per cell of the
board. -/
def revealCascade (board : Board) (r c : Int) : Option RevealResult :=
  let next := board
  match cellAt next r c with
  | none => none
  | some start =>
    if start.isFlagged || start.isRevealed then
      some { nextBoard := next, exploded := false }
    else if start.isMine then
      some { nextBoard := updateCell next r c fun x => { x with isRevealed := true },
             exploded := true }
    else
      let s := push (next, []) start r c
      (cascadeLoop board.flatten.length s.1 s.2).map fun b =>
        { nextBoard := b, exploded := false }

/-! ## Flags and win detection -/

/-- The result object of `toggleFlagAt`. -/
structure ToggleResult where
  nextBoard : Board
  changed : Bool
deriving DecidableEq, Repr

/-- `toggleFlagAt(board, r, c)`. -/
def toggleFlagAt (board : Board) (r c : Int) : Option ToggleResult :=
  let next := board
  match cellAt next r c with
  | none => none
  | some cell =>
    if cell.isRevealed then some { nextBoard := next, changed := false }
    else
      some { nextBoard := updateCell next r c fun x => { x with isFlagged := !x.isFlagged },
             changed := true }

/-- `countFlags(board)`. -/
def countFlags (board : Board) : Nat :=
  board.foldl (fun cnt row => row.foldl (fun cnt cell => if cell.isFlagged then cnt + 1 else cnt) cnt) 0

/-- The counters `(revealedSafe, totalSafe)` of `checkWinCondition` after one cell. -/
def winStep (acc : Nat × Nat) (cell : Cell) : Nat × Nat :=
  if !cell.isMine then (if cell.isRevealed then acc.1 + 1 else acc.1, acc.2 + 1) else acc

/-- `checkWinCondition(board, totalMines)`. -/
def checkWinCondition (board : Board) (_totalMines : Int) : Bool :=
  let acc := board.foldl (fun acc row => row.foldl winStep acc) (0, 0)
  acc.1 == acc.2

/-! ## Session controller -/

/-- The game status string. -/
inductive Status where
  | ready
  | playing
  | won
  | lost
deriving DecidableEq, Repr

/-- The React state of `App` that the handlers read and write. -/
structure Session where
  board : Board
  status : Status
  firstClickDone : Bool
  flagsLeft : Int
deriving DecidableEq, Repr

/-- A difficulty preset. -/
structure Difficulty where
  rows : Nat
  cols : Nat
  mines : Nat
deriving DecidableEq, Repr

/-- The three entries of `DIFFICULTIES`. -/
def DIFFICULTIES : List Difficulty :=
  [{ rows := 9, cols := 9, mines := 10 }, { rows := 16, cols := 16, mines := 40 },
   { rows := 16, cols := 30, mines := 99 }]

/-- `resetGame(level)`: the state of a new game. -/
def resetGame (d : Difficulty) : Session :=
  { board := createEmptyBoard d.rows d.cols, status := Status.ready, firstClickDone := false,
    flagsLeft := d.mines }

/-- The board `exposed` built on explosion: every mine revealed. -/
def exposeMines (board : Board) : Board :=
  board.map fun row => row.map fun cell => if cell.isMine then { cell with isRevealed := true } else cell

/-- The board `autoFlagged` built on a win: every mine flagged. -/
def autoFlag (board : Board) : Board :=
  board.map fun row => row.map fun cell => if cell.isMine then { cell with isFlagged := true } else cell

/-- The tail of `handleOpen` and `handleChord` after the reveal: explosion, win or
continue. -/
def settle (mines : Nat) (s : Session) (nextBoard : Board) (exploded : Bool) : Session :=
  if exploded then { s with board := exposeMines nextBoard, status := Status.lost }
  else if checkWinCondition nextBoard mines then
    { s with board := autoFlag nextBoard, status := Status.won, flagsLeft := 0 }
  else { s with board := nextBoard, flagsLeft := (mines : Int) - countFlags nextBoard }

/-- `handleOpen(r, c)` as a function of the current state; `mines` is the mine count of
the selected difficulty. -/
def handleOpen (mines : Nat) (draw : Draws) (s : Session) (r c : Int) : Option Session :=
  if s.status = Status.won ∨ s.status = Status.lost then some s
  else
    let start : Option (Board × Session) :=
      if !s.firstClickDone then
        (lazyPlaceMinesAfterFirstClick draw s.board r c mines).map fun w =>
          (w, { s with firstClickDone := true, status := Status.playing })
      else some (s.board, s)
    match start with
    | none => none
    | some (workingBoard, s1) =>
      match cellAt workingBoard r c with
      | none => none
      | some cell =>
        if cell.isRevealed || cell.isFlagged then some s1
        else
          match revealCascade workingBoard r c with
          | none => none
          | some res => some (settle mines s1 res.nextBoard res.exploded)

/-- `handleFlag(r, c)` as a function of the current state. -/
def handleFlag (mines : Nat) (s : Session) (r c : Int) : Option Session :=
  if s.status = Status.won ∨ s.status = Status.lost then some s
  else
    match toggleFlagAt s.board r c with
    | none => none
    | some res =>
      if !res.changed then some s
      else some { s with board := res.nextBoard, flagsLeft := (mines : Int) - countFlags res.nextBoard }

/-- The constant `around` of `cellNeighborFlags`. -/
def around : List (Int × Int) :=
  [(-1, -1), (-1, 0), (-1, 1), (0, -1), (0, 1), (1, -1), (1, 0), (1, 1)]

/-- `cellNeighborFlags(b, r, c)`. -/
def cellNeighborFlags (b : Board) (r c : Int) : Nat :=
  around.foldl
    (fun (cnt : Nat) d =>
      match cellAt b (r + d.1) (c + d.2) with
      | some n => if n.isFlagged then cnt + 1 else cnt
      | none => cnt)
    0

/-- The constant `ds` of `getNeighborsPos`. -/
def ds : List (Int × Int) :=
  [(-1, -1), (-1, 0), (-1, 1), (0, -1), (0, 1), (1, -1), (1, 0), (1, 1)]

/-- `getNeighborsPos(board, r, c)`: the in-range neighbour positions, in offset order. -/
def getNeighborsPos (board : Board) (r c : Int) : List (Int × Int) :=
  ds.foldl
    (fun (res : List (Int × Int)) d =>
      match cellAt board (r + d.1) (c + d.2) with
      | some _ => res ++ [(r + d.1, c + d.2)]
      | none => res)
    []

/-- The callback of `neighbors.forEach` in `handleChord`; the state is the pair of the
variables `working` and `exploded`. -/
def chordStep (s : Board × Bool) (p : Int × Int) : Option (Board × Bool) :=
  match cellAt s.1 p.1 p.2 with
  | none => none
  | some target =>
    if !target.isRevealed && !target.isFlagged then
      match revealCascade s.1 p.1 p.2 with
      | none => none
      | some res => some (res.nextBoard, if res.exploded then true else s.2)
    else some s

/-- The loop `neighbors.forEach` of `handleChord`. -/
def chordLoop : Board × Bool → List (Int × Int) → Option (Board × Bool)
  | s, [] => some s
  | s, p :: rest =>
    match chordStep s p with
    | none => none
    | some s2 => chordLoop s2 rest

/-- `handleChord(r, c)` as a function of the current state. -/
def handleChord (mines : Nat) (s : Session) (r c : Int) : Option Session :=
  if s.status ≠ Status.playing then some s
  else
    match cellAt s.board r c with
    | none => none
    | some cell =>
      if !cell.isRevealed || cell.neighbor != cellNeighborFlags s.board r c then some s
      else
        match chordLoop (s.board, false) (getNeighborsPos s.board r c) with
        | none => none
        | some (working, exploded) => some (settle mines s working exploded)

/-- A player action: open with the shuffle draws it would consume, flag, or chord. -/
inductive Action where
  | openCell (draw : Draws) (r c : Int)
  | flagCell (r c : Int)
  | chordCell (r c : Int)

/-- The handler that an action invokes. -/
def act (mines : Nat) (s : Session) : Action → Option Session
  | Action.openCell draw r c => handleOpen mines draw s r c
  | Action.flagCell r c => handleFlag mines s r c
  | Action.chordCell r c => handleChord mines s r c

/-- A sequence of actions, each applied to the state left by the previous one. -/
def runActions (mines : Nat) : Session → List Action → Option Session
  | s, [] => some s
  | s, a :: rest =>
    match act mines s a with
    | none => none
    | some s2 => runActions mines s2 rest

/-- The session states reached from a new game of difficulty `d` by open, flag and chord
actions. -/
inductive Reachable (d : Difficulty) : Session → Prop where
  | start : Reachable d (resetGame d)
  | step (s s2 : Session) (a : Action) :
      Reachable d s → act d.mines s a = some s2 → Reachable d s2

/-- The first entry of `DIFFICULTIES`. -/
def beginner : Difficulty :=
  { rows := 9, cols := 9, mines := 10 }

/-! ## Vocabulary of the specification -/

/-- The positions of a `rows × cols` board, row by row. -/
def grid (rows cols : Nat) : List (List (Int × Int)) :=
  (List.range rows).map fun (r : Nat) => (List.range cols).map fun (c : Nat) => ((r : Int), (c : Int))

/-- A board of the data model: `rows` rows of `cols` cells, each cell holding its own
position in its `row` and `col` fields. -/
def WellFormed (rows cols : Nat) (board : Board) : Prop :=
  board.map (List.map fun cell => (cell.row, cell.col)) = grid rows cols

instance (rows cols : Nat) (board : Board) : Decidable (WellFormed rows cols board) :=
  inferInstanceAs (Decidable (board.map (List.map fun cell => (cell.row, cell.col)) = grid rows cols))

/-- No cell of the board is a mine. -/
def NoMines (board : Board) : Prop :=
  ∀ row ∈ board, ∀ cell ∈ row, cell.isMine = false

instance (board : Board) : Decidable (NoMines board) :=
  inferInstanceAs (Decidable (∀ row ∈ board, ∀ cell ∈ row, cell.isMine = false))

/-- The number of cells with `isMine = true`. -/
def mineCount (board : Board) : Nat :=
  board.flatten.countP fun cell => cell.isMine

/-- Position `(i, j)` is one of the eight grid-adjacent positions of `(r, c)`. -/
def IsNeighbor (r c i j : Int) : Prop :=
  (i - r, j - c) ∈ OFFSETS

instance (r c i j : Int) : Decidable (IsNeighbor r c i j) :=
  inferInstanceAs (Decidable ((i - r, j - c) ∈ OFFSETS))

/-- The safe zone of a click at `(r, c)`: the clicked position and its neighbours. -/
def InSafeZone (r c i j : Int) : Prop :=
  (i = r ∧ j = c) ∨ IsNeighbor r c i j

instance (r c i j : Int) : Decidable (InSafeZone r c i j) :=
  inferInstanceAs (Decidable ((i = r ∧ j = c) ∨ IsNeighbor r c i j))

/-- The number of positions of a `rows × cols` board outside the safe zone of `(r, c)`. -/
def eligibleCount (rows cols : Nat) (r c : Int) : Nat :=
  (grid rows cols).flatten.countP fun p => decide (¬ InSafeZone r c p.1 p.2)

/-- The number of in-range neighbours of `(i, j)` that are mines. -/
def mineNeighbors (board : Board) (i j : Int) : Nat :=
  OFFSETS.countP fun d => (cellAt board (i + d.1) (j + d.2)).any fun n => n.isMine

/-- The cell `x` after its `neighbor` field has been recomputed against `board`. -/
def recount (board : Board) (x : Cell) : Cell :=
  { x with neighbor := if x.isMine then 0 else mineNeighbors board x.row x.col }

/-- A table of draws used in the worked examples: index `i` draws `i / 2`. -/
def halfDraws : Draws := fun i => ⟨i / 2, Nat.lt_succ_of_le (Nat.div_le_self i 2)⟩

/-- A flagged, unrevealed mine at position `(0, 0)`, used in the worked examples. -/
def flaggedMine : Cell :=
  { row := 0, col := 0, isMine := true, isRevealed := false, isFlagged := true, neighbor := 0 }

/-- A hidden mine at position `(0, 1)`, used in the worked examples. -/
def hiddenMine : Cell :=
  { row := 0, col := 1, isMine := true, isRevealed := false, isFlagged := false, neighbor := 0 }

/-- A one-row board: a flagged mine and a blank cell. -/
def flaggedBoard : Board := [[flaggedMine, makeCell 0 1]]

/-- A one-row board: a blank cell and a hidden mine. -/
def minedBoard : Board := [[makeCell 0 0, hiddenMine]]

/-- What win detection can observe of a cell: whether it is a mine and, for a safe cell
only, whether it is revealed. Flags, counts, and the reveal state of mines are erased. -/
def safeView (x : Cell) : Bool × Bool :=
  (x.isMine, x.isMine || x.isRevealed)

/-- Board `next` is board `board` with the same shape in which some cells that were
unrevealed, unflagged and not mines have had `isRevealed` set, and nothing else differs. -/
def RevealsOnly (board next : Board) : Prop :=
  next.map List.length = board.map List.length ∧
  ∀ i j, cellAt next i j = cellAt board i j ∨
    ∃ x, cellAt board i j = some x ∧ x.isRevealed = false ∧ x.isFlagged = false ∧
      x.isMine = false ∧ cellAt next i j = some { x with isRevealed := true }

/-- The number of cells that are not revealed. -/
def unrevealedCount (board : Board) : Nat :=
  board.flatten.countP fun x => !x.isRevealed

/-- The body of the loop of `forEachNeighbor` when the callback is `revealNeighbor`. -/
def neighborStep (r c : Int) (s : Board × List Cell) (d : Int × Int) : Board × List Cell :=
  match cellAt s.1 (r + d.1) (c + d.2) with
  | some n => revealNeighbor s n (r + d.1) (c + d.2)
  | none => s

/-- No cell of the board is a mine or flagged, and every stored neighbour count is 0. -/
def Plain (board : Board) : Prop :=
  ∀ row ∈ board, ∀ x ∈ row, x.isMine = false ∧ x.isFlagged = false ∧ x.neighbor = 0

instance (board : Board) : Decidable (Plain board) :=
  inferInstanceAs (Decidable (∀ row ∈ board, ∀ x ∈ row,
    x.isMine = false ∧ x.isFlagged = false ∧ x.neighbor = 0))

/-- No cell of the board is revealed. -/
def NoneRevealed (board : Board) : Prop :=
  ∀ row ∈ board, ∀ x ∈ row, x.isRevealed = false

instance (board : Board) : Decidable (NoneRevealed board) :=
  inferInstanceAs (Decidable (∀ row ∈ board, ∀ x ∈ row, x.isRevealed = false))

/-- Invariant of the cascade loop on a plain board: every revealed cell either still
waits in the queue or has all its in-range neighbours revealed. -/
def Frontier (b : Board) (q : List Cell) : Prop :=
  ∀ i j x, cellAt b i j = some x → x.isRevealed = true →
    (∃ y ∈ q, y.row = i ∧ y.col = j) ∨
    ∀ d ∈ OFFSETS, ∀ z, cellAt b (i + d.1) (j + d.2) = some z → z.isRevealed = true

/-- The session states reached from a new game of difficulty `d` by flag actions only. -/
inductive FlagReachable (d : Difficulty) : Session → Prop where
  | start : FlagReachable d (resetGame d)
  | flag (s s2 : Session) (r c : Int) :
      FlagReachable d s → handleFlag d.mines s r c = some s2 → FlagReachable d s2

/-- The cell with its flag removed. -/
def unflag (x : Cell) : Cell :=
  { x with isFlagged := false }

/-- A lost session on the one-row board with a hidden mine, used in the worked examples. -/
def lostSession : Session :=
  { board := minedBoard, status := Status.lost, firstClickDone := true, flagsLeft := 1 }

/-- The beginner game after one flag action at `(0, 0)`: status Ready, no mine placed. -/
def flaggedStart : Session :=
  { board := updateCell (createEmptyBoard 9 9) 0 0 fun x => { x with isFlagged := true },
    status := Status.ready, firstClickDone := false, flagsLeft := 9 }

/-- The session `flaggedStart` with the first-click marker set and status Playing, its
board untouched. -/
def flaggedStarted : Session :=
  { flaggedStart with firstClickDone := true, status := Status.playing }

/-- The number of in-range neighbours of `(i, j)` that are flagged. -/
def flaggedNeighbors (board : Board) (i j : Int) : Nat :=
  OFFSETS.countP fun d => (cellAt board (i + d.1) (j + d.2)).any fun n => n.isFlagged

/-- The actions of a beginner game that leave the revealed blank cell `(1, 8)` next to
the unrevealed, unflagged cell `(0, 8)`: flag `(0, 8)`, open `(4, 4)`, unflag `(0, 8)`. -/
def blankChordActions : List Action :=
  [Action.flagCell 0 8, Action.openCell halfDraws 4 4, Action.flagCell 0 8]

/-- The session reached by `blankChordActions`. -/
def blankChordState : Session :=
  (runActions beginner.mines (resetGame beginner) blankChordActions).getD (resetGame beginner)

/-- Board `next` is board `board` with the same shape in which some cells that were
unrevealed and unflagged have had `isRevealed` set, and nothing else differs. -/
def OpensOnly (board next : Board) : Prop :=
  next.map List.length = board.map List.length ∧
  ∀ i j, cellAt next i j = cellAt board i j ∨
    ∃ x, cellAt board i j = some x ∧ x.isRevealed = false ∧ x.isFlagged = false ∧
      cellAt next i j = some { x with isRevealed := true }

/-- The cell is a mine that is neither revealed nor flagged. -/
def Cell.isHiddenMine (x : Cell) : Bool :=
  x.isMine && !x.isRevealed && !x.isFlagged

/-- A 3 × 3 board with a flagged mine in the corner `(0, 0)`, true neighbour counts, and
the centre cell (count 1) revealed. -/
def chordBoard : Board :=
  updateCell
    (recalcNeighbors
      (updateCell (createEmptyBoard 3 3) 0 0 fun x => { x with isMine := true, isFlagged := true }))
    1 1 fun x => { x with isRevealed := true }

/-- A session in play on `chordBoard`. -/
def chordSession : Session :=
  { board := chordBoard, status := Status.playing, firstClickDone := true, flagsLeft := 0 }

/-- No mine of the board is revealed and no revealed cell is flagged. -/
def Tidy (b : Board) : Prop :=
  ∀ i j x, cellAt b i j = some x →
    (x.isMine = true → x.isRevealed = false) ∧ (x.isRevealed = true → x.isFlagged = false)

/-- Every mine is revealed, and a cell that is both revealed and flagged is a mine. -/
def Exposed (b : Board) : Prop :=
  ∀ i j x, cellAt b i j = some x →
    (x.isMine = true → x.isRevealed = true) ∧
    (x.isRevealed = true → x.isFlagged = true → x.isMine = true)

/-- Every mine is flagged. -/
def MinesFlagged (b : Board) : Prop :=
  ∀ i j x, cellAt b i j = some x → x.isMine = true → x.isFlagged = true

/-- The invariant of the sessions reached from a new game of difficulty `d`. -/
def SessionInv (d : Difficulty) (s : Session) : Prop :=
  (s.firstClickDone = false →
    s.status = Status.ready ∧ s.board.map (List.map unflag) = createEmptyBoard d.rows d.cols) ∧
  (s.status = Status.ready → s.firstClickDone = false) ∧
  (s.status ≠ Status.lost → Tidy s.board) ∧
  (s.status = Status.won → MinesFlagged s.board) ∧
  (s.status = Status.lost → Exposed s.board)

/-- The action opens a mine that is neither revealed nor flagged: the open action aims at
one, or the chord action passes its gate next to one. -/
def RevealsMine (s : Session) : Action → Prop
  | Action.openCell _ r c => ∃ x, cellAt s.board r c = some x ∧ x.isHiddenMine = true
  | Action.flagCell _ _ => False
  | Action.chordCell r c =>
    ∃ cell, cellAt s.board r c = some cell ∧ cell.isRevealed = true ∧
      cell.neighbor = flaggedNeighbors s.board r c ∧
      ∃ d ∈ OFFSETS, ∃ x, cellAt s.board (r + d.1) (c + d.2) = some x ∧ x.isHiddenMine = true

/-- The actions of a beginner game that end in a loss with a flagged mine: open `(4, 4)`,
flag the mine at `(0, 0)`, open the mine at `(0, 1)`. -/
def lossActions : List Action :=
  [Action.openCell halfDraws 4 4, Action.flagCell 0 0, Action.openCell halfDraws 0 1]

/-- The session reached by `lossActions`. -/
def lossState : Session :=
  (runActions beginner.mines (resetGame beginner) lossActions).getD (resetGame beginner)

/-- The draws that `shuffle` can read on an array of length `n`: one value in `0..i` for
each index `i < n` (the draw at index 0 has the single value 0 and is never read). -/
abbrev DrawSeq (n : Nat) := (i : Fin n) → Fin (i.val + 1)

/-- A table of draws that holds the given sequence below `n`. -/
def DrawSeq.toDraws {n : Nat} (seq : DrawSeq n) : Draws :=
  fun i => if h : i < n then seq ⟨i, h⟩ else 0

/-- The region opened by a cascade from `(r, c)` on `board`: the least set of positions
that holds `(r, c)` and, with every position whose stored neighbour count is 0, each of
its in-range neighbours that is unrevealed, unflagged and not a mine. -/
inductive InRegion (board : Board) (r c : Int) : Int → Int → Prop where
  | start : InRegion board r c r c
  | step (i j : Int) (d : Int × Int) (x y : Cell) :
      InRegion board r c i j → cellAt board i j = some x → x.neighbor = 0 → d ∈ OFFSETS →
      cellAt board (i + d.1) (j + d.2) = some y → y.isRevealed = false →
      y.isFlagged = false → y.isMine = false → InRegion board r c (i + d.1) (j + d.2)

/-- The cell can be opened by the cascade: unrevealed, unflagged and not a mine. -/
def Cell.isOpenable (x : Cell) : Prop :=
  x.isRevealed = false ∧ x.isFlagged = false ∧ x.isMine = false

/-- Invariant of the cascade loop against the input board `b0`: every cell changed so
far lies in the region, every queued cell is a region cell with count 0, and every
changed cell with count 0 either still waits in the queue or has had all its openable
neighbours changed. -/
def RegionInv (b0 : Board) (r c : Int) (b : Board) (q : List Cell) : Prop :=
  RevealsOnly b0 b ∧
  (∀ i j, cellAt b i j ≠ cellAt b0 i j → InRegion b0 r c i j) ∧
  (∀ y ∈ q, InRegion b0 r c y.row y.col ∧
    ∃ x0, cellAt b0 y.row y.col = some x0 ∧ x0.neighbor = 0) ∧
  (∀ i j x0, cellAt b0 i j = some x0 → cellAt b i j ≠ cellAt b0 i j → x0.neighbor = 0 →
    (∃ y ∈ q, y.row = i ∧ y.col = j) ∨
    ∀ d ∈ OFFSETS, ∀ y0, cellAt b0 (i + d.1) (j + d.2) = some y0 → y0.isOpenable →
      cellAt b (i + d.1) (j + d.2) ≠ cellAt b0 (i + d.1) (j + d.2))

/-- The function `push` of `revealCascade` with a log: the third component lists, in
order, the positions of the cells handed to `queue.push`. -/
def pushLog (s : (Board × List Cell) × List (Int × Int)) (cell : Cell) (r c : Int) :
    (Board × List Cell) × List (Int × Int) :=
  if !cell.isRevealed && !cell.isFlagged then
    ((updateCell s.1.1 r c fun x => { x with isRevealed := true },
      if cell.neighbor = 0 then s.1.2 ++ [{ cell with isRevealed := true }] else s.1.2),
      if cell.neighbor = 0 then s.2 ++ [(r, c)] else s.2)
  else s

/-- The callback of the loop of `revealCascade` with the same log of `queue.push`. -/
def revealNeighborLog (s : (Board × List Cell) × List (Int × Int)) (n : Cell) (nr nc : Int) :
    (Board × List Cell) × List (Int × Int) :=
  if !n.isRevealed && !n.isFlagged && !n.isMine then
    ((updateCell s.1.1 nr nc fun x => { x with isRevealed := true },
      if n.neighbor = 0 then s.1.2 ++ [{ n with isRevealed := true }] else s.1.2),
      if n.neighbor = 0 then s.2 ++ [(nr, nc)] else s.2)
  else s

/-- The loop of `revealCascade` with the log of `queue.push` and a counter of the
`queue.shift()` calls; `none` means the fuel ran out before the queue was empty. -/
def cascadeLoopLog : Nat → Board → List Cell → List (Int × Int) → Nat →
    Option (Board × List (Int × Int) × Nat)
  | _, next, [], pushed, shifts => some (next, pushed, shifts)
  | 0, _, _ :: _, _, _ => none
  | fuel + 1, next, cur :: queue, pushed, shifts =>
    let s := forEachNeighbor (fun s => s.1.1) cur.row cur.col revealNeighborLog
      ((next, queue), pushed)
    cascadeLoopLog fuel s.1.1 s.1.2 s.2 (shifts + 1)

/-- The call `revealCascade(board, r, c)` with its log: the result, the positions of the
cells handed to `queue.push` in order, and the number of `queue.shift()` calls. -/
def revealCascadeLog (board : Board) (r c : Int) :
    Option (RevealResult × List (Int × Int) × Nat) :=
  let next := board
  match cellAt next r c with
  | none => none
  | some start =>
    if start.isFlagged || start.isRevealed then
      some ({ nextBoard := next, exploded := false }, [], 0)
    else if start.isMine then
      some ({ nextBoard := updateCell next r c fun x => { x with isRevealed := true },
              exploded := true }, [], 0)
    else
      let s := pushLog ((next, []), []) start r c
      (cascadeLoopLog board.flatten.length s.1.1 s.1.2 s.2 0).map fun t =>
        ({ nextBoard := t.1, exploded := false }, t.2.1, t.2.2)

/-- The body of the loop of `forEachNeighbor` when the callback is `revealNeighborLog`. -/
def neighborStepLog (r c : Int) (s : (Board × List Cell) × List (Int × Int))
    (d : Int × Int) : (Board × List Cell) × List (Int × Int) :=
  match cellAt s.1.1 (r + d.1) (c + d.2) with
  | some n => revealNeighborLog s n (r + d.1) (c + d.2)
  | none => s

/-- The invariant of the logged loop over the input board `b0`: only safe cells were
opened, no position was pushed twice, every pushed position was unrevealed in the
input and is revealed now, the pushes are the shifts plus the queue, and every push
used up an unrevealed cell. -/
def LogInv (b0 : Board) (s : (Board × List Cell) × List (Int × Int)) (shifts : Nat) : Prop :=
  RevealsOnly b0 s.1.1 ∧ s.2.Nodup ∧
  (∀ p ∈ s.2, ∃ x, cellAt b0 p.1 p.2 = some x ∧ x.isRevealed = false ∧
    cellAt s.1.1 p.1 p.2 = some { x with isRevealed := true }) ∧
  shifts + s.1.2.length = s.2.length ∧
  unrevealedCount s.1.1 + s.2.length ≤ unrevealedCount b0

/-! ## Reading and writing cells -/

theorem cellAt_updateCell {α : Type} (b : List (List α)) (r c : Int) (f : α → α) (i j : Int) :
    cellAt (updateCell b r c f) i j =
      if i = r ∧ j = c then (cellAt b i j).map f else cellAt b i j := by
  unfold updateCell cellAt
  by_cases hrc : r < 0 ∨ c < 0
  · rw [if_pos hrc]
    by_cases hij : i = r ∧ j = c
    · obtain ⟨rfl, rfl⟩ := hij
      simp [hrc]
    · rw [if_neg hij]
  · rw [if_neg hrc]
    by_cases hneg : i < 0 ∨ j < 0
    · simp [hneg]
    · rw [if_neg hneg, List.getElem?_modify]
      have hri : r.toNat = i.toNat ↔ i = r := by omega
      have hcj : c.toNat = j.toNat ↔ j = c := by omega
      cases hb : b[i.toNat]? with
      | none => simp
      | some row =>
        by_cases h1 : i = r
        · subst h1
          simp only [Option.map_eq_map, Option.map_some', if_true, Option.some_bind, true_and]
          rw [List.getElem?_modify]
          by_cases h2 : j = c
          · subst h2; simp [hneg]
          · have : ¬ c.toNat = j.toNat := fun h => h2 (hcj.mp h)
            simp [h2, this, hneg]
        · have : ¬ r.toNat = i.toNat := fun h => h1 (hri.mp h)
          simp [h1, this, hneg]

theorem cellAt_map {α β : Type} (g : α → β) (b : List (List α)) (i j : Int) :
    cellAt (b.map (List.map g)) i j = (cellAt b i j).map g := by
  unfold cellAt
  by_cases h : i < 0 ∨ j < 0
  · simp [h]
  · simp only [h, if_false, List.getElem?_map]
    cases b[i.toNat]? with
    | none => rfl
    | some row => simp

theorem map_updateCell {α β : Type} (g : α → β) (f : α → α) (hf : ∀ x, g (f x) = g x)
    (b : List (List α)) (r c : Int) :
    (updateCell b r c f).map (List.map g) = b.map (List.map g) := by
  unfold updateCell
  split_ifs
  · rfl
  · apply List.ext_getElem?
    intro n
    simp only [List.getElem?_map, List.getElem?_modify]
    cases b[n]? with
    | none => rfl
    | some row =>
      by_cases h : r.toNat = n
      · simp only [h, if_true, Option.map_eq_map, Option.map_some']
        congr 1
        apply List.ext_getElem?
        intro m
        simp only [List.getElem?_map, List.getElem?_modify]
        cases row[m]? with
        | none => rfl
        | some x => by_cases h2 : c.toNat = m <;> simp [h2, hf]
      · simp [h]

theorem shape_updateCell {α : Type} (b : List (List α)) (r c : Int) (f : α → α) :
    (updateCell b r c f).map List.length = b.map List.length := by
  have h := map_updateCell (fun _ => ()) f (fun _ => rfl) b r c
  have key : ∀ l : List (List α), l.map List.length = (l.map (List.map fun _ => ())).map List.length := by
    intro l; simp
  rw [key, h, ← key]

theorem cellAt_grid (rows cols : Nat) (i j : Int) :
    cellAt (grid rows cols) i j =
      if 0 ≤ i ∧ i < rows ∧ 0 ≤ j ∧ j < cols then some (i, j) else none := by
  unfold cellAt grid
  by_cases h : i < 0 ∨ j < 0
  · rw [if_pos h, if_neg (by omega)]
  · rw [if_neg h]
    by_cases hi : i.toNat < rows
    · by_cases hj : j.toNat < cols
      · rw [if_pos (by omega)]
        simp [List.getElem?_map, List.getElem?_range, hi, hj]
        omega
      · rw [if_neg (by omega)]
        simp [List.getElem?_map, List.getElem?_range, hi, hj]
        omega
    · rw [if_neg (by omega)]
      have hn : (List.range rows)[i.toNat]? = none := by
        rw [List.getElem?_eq_none_iff, List.length_range]; omega
      simp [List.getElem?_map, hn]

theorem WellFormed.pos {rows cols : Nat} {b : Board} (h : WellFormed rows cols b)
    {i j : Int} {cell : Cell} (hc : cellAt b i j = some cell) :
    cell.row = i ∧ cell.col = j ∧ 0 ≤ i ∧ i < rows ∧ 0 ≤ j ∧ j < cols := by
  have h1 := cellAt_map (fun cell : Cell => (cell.row, cell.col)) b i j
  rw [show b.map (List.map fun cell => (cell.row, cell.col)) = grid rows cols from h,
    cellAt_grid, hc] at h1
  by_cases hr : 0 ≤ i ∧ i < rows ∧ 0 ≤ j ∧ j < cols
  · rw [if_pos hr] at h1
    simp only [Option.map_some', Option.some.injEq, Prod.mk.injEq] at h1
    exact ⟨h1.1.symm, h1.2.symm, hr⟩
  · rw [if_neg hr] at h1
    simp at h1

theorem WellFormed.exists_cell {rows cols : Nat} {b : Board} (h : WellFormed rows cols b)
    {i j : Int} (hi0 : 0 ≤ i) (hi : i < rows) (hj0 : 0 ≤ j) (hj : j < cols) :
    ∃ cell, cellAt b i j = some cell := by
  have h1 := cellAt_map (fun cell : Cell => (cell.row, cell.col)) b i j
  rw [show b.map (List.map fun cell => (cell.row, cell.col)) = grid rows cols from h,
    cellAt_grid, if_pos ⟨hi0, hi, hj0, hj⟩] at h1
  cases hc : cellAt b i j with
  | none => rw [hc] at h1; simp at h1
  | some cell => exact ⟨cell, rfl⟩

theorem WellFormed.shape {rows cols : Nat} {b : Board} (h : WellFormed rows cols b) :
    b.map List.length = List.replicate rows cols := by
  have h1 : (b.map (List.map fun cell : Cell => (cell.row, cell.col))).map List.length
      = (grid rows cols).map List.length := by rw [show _ = grid rows cols from h]
  simp only [List.map_map] at h1
  have h2 : (List.length ∘ List.map fun cell : Cell => (cell.row, cell.col)) = List.length := by
    funext l; simp
  rw [h2] at h1
  rw [h1]
  unfold grid
  apply List.ext_getElem?
  intro n
  by_cases hn : n < rows
  · simp [List.getElem?_map, List.getElem?_range, List.getElem?_replicate, hn]
  · have hn2 : (List.range rows)[n]? = none := by
      rw [List.getElem?_eq_none_iff, List.length_range]; omega
    simp [List.getElem?_map, List.getElem?_replicate, hn, hn2]

theorem WellFormed.length {rows cols : Nat} {b : Board} (h : WellFormed rows cols b) :
    b.length = rows := by
  have := congrArg List.length h.shape
  simpa using this

theorem WellFormed.row_length {rows cols : Nat} {b : Board} (h : WellFormed rows cols b)
    {row : List Cell} (hr : row ∈ b) : row.length = cols := by
  have h1 : row.length ∈ b.map List.length := List.mem_map_of_mem _ hr
  rw [h.shape] at h1
  exact (List.mem_replicate.mp h1).2

theorem WellFormed.updateCell {rows cols : Nat} {b : Board} (h : WellFormed rows cols b)
    (r c : Int) (f : Cell → Cell) (hf : ∀ x, (f x).row = x.row ∧ (f x).col = x.col) :
    WellFormed rows cols (updateCell b r c f) := by
  unfold WellFormed
  rw [map_updateCell (fun cell : Cell => (cell.row, cell.col)) f
    (fun x => by simp [(hf x).1, (hf x).2])]
  exact h

theorem wellFormed_createEmptyBoard (rows cols : Nat) :
    WellFormed rows cols (createEmptyBoard rows cols) := by
  unfold WellFormed createEmptyBoard grid makeCell
  simp [List.map_map, Function.comp_def]

/-! ## The shuffle returns a permutation -/

theorem swapAt_perm {α : Type} (arr : List α) (i j : Nat) : (swapAt arr i j).Perm arr := by
  classical
  unfold swapAt
  cases hi : arr[i]? with
  | none => exact List.Perm.refl _
  | some x =>
    cases hj : arr[j]? with
    | none => exact List.Perm.refl _
    | some y =>
      obtain ⟨hil, hix⟩ := List.getElem?_eq_some_iff.mp hi
      obtain ⟨hjl, hjy⟩ := List.getElem?_eq_some_iff.mp hj
      show ((arr.set i y).set j x).Perm arr
      rw [List.perm_iff_count]
      intro a
      have hjl2 : j < (arr.set i y).length := by simpa using hjl
      rw [List.count_set _ _ _ _ hjl2, List.count_set _ _ _ _ hil]
      have hxm : x ∈ arr := hix ▸ List.getElem_mem hil
      have hym : y ∈ arr := hjy ▸ List.getElem_mem hjl
      have hxc : 0 < arr.count x := List.count_pos_iff.mpr hxm
      have hyc : 0 < arr.count y := List.count_pos_iff.mpr hym
      rw [List.getElem_set]
      by_cases hij : i = j
      · subst hij
        have hxy : x = y := by rw [← hix, ← hjy]
        subst hxy
        by_cases hxa : x = a
        · subst hxa; simp [hix]; omega
        · simp [hix, hxa]
      · simp only [hij, if_false, hix, hjy, beq_iff_eq]
        by_cases hxa : x = a <;> by_cases hya : y = a
        · subst hxa; subst hya; simp; omega
        · subst hxa; simp [hya]; omega
        · subst hya; simp [hxa]
        · simp [hxa, hya]

theorem shuffleFrom_perm {α : Type} (draw : Draws) (n : Nat) (arr : List α) :
    (shuffleFrom draw n arr).Perm arr := by
  induction n generalizing arr with
  | zero => exact List.Perm.refl _
  | succ n ih => exact (ih _).trans (swapAt_perm arr _ _)

theorem shuffle_perm {α : Type} (draw : Draws) (arr : List α) : (shuffle draw arr).Perm arr :=
  shuffleFrom_perm draw _ arr

/-! ## Counting cells -/

theorem countP_modify {α : Type} (P : α → Bool) (f : α → α) (l : List α) (n : Nat) (x : α)
    (h : l[n]? = some x) :
    (List.modify f n l).countP P + (if P x then 1 else 0)
      = l.countP P + (if P (f x) then 1 else 0) := by
  induction l generalizing n with
  | nil => simp at h
  | cons a l ih =>
    cases n with
    | zero =>
      simp only [List.getElem?_cons_zero, Option.some.injEq] at h
      subst h
      simp only [List.modify, List.modifyTailIdx, List.modifyHead, List.countP_cons]
      omega
    | succ n =>
      simp only [List.getElem?_cons_succ] at h
      have := ih n h
      simp only [List.modify_succ_cons, List.countP_cons]
      omega

theorem countP_flatten_modify {α : Type} (P : α → Bool) (g : List α → List α)
    (L : List (List α)) (n : Nat) (row : List α) (h : L[n]? = some row) :
    (List.modify g n L).flatten.countP P + row.countP P
      = L.flatten.countP P + (g row).countP P := by
  induction L generalizing n with
  | nil => simp at h
  | cons a L ih =>
    cases n with
    | zero =>
      simp only [List.getElem?_cons_zero, Option.some.injEq] at h
      subst h
      simp only [List.modify, List.modifyTailIdx, List.modifyHead, List.flatten_cons,
        List.countP_append]
      omega
    | succ n =>
      simp only [List.getElem?_cons_succ] at h
      have := ih n h
      simp only [List.modify_succ_cons, List.flatten_cons, List.countP_append]
      omega

theorem cellAt_eq_some {α : Type} {b : List (List α)} {r c : Int} {x : α}
    (h : cellAt b r c = some x) :
    0 ≤ r ∧ 0 ≤ c ∧ ∃ row, b[r.toNat]? = some row ∧ row[c.toNat]? = some x := by
  unfold cellAt at h
  by_cases hn : r < 0 ∨ c < 0
  · simp [hn] at h
  · rw [if_neg hn] at h
    cases hb : b[r.toNat]? with
    | none => simp [hb] at h
    | some row =>
      rw [hb] at h
      exact ⟨by omega, by omega, row, rfl, h⟩

theorem cellAt_mem {α : Type} {b : List (List α)} {r c : Int} {x : α}
    (h : cellAt b r c = some x) : ∃ row ∈ b, x ∈ row := by
  obtain ⟨_, _, row, h1, h2⟩ := cellAt_eq_some h
  exact ⟨row, List.getElem?_mem h1, List.getElem?_mem h2⟩

theorem mem_cellAt {α : Type} {b : List (List α)} {row : List α} {x : α}
    (hr : row ∈ b) (hx : x ∈ row) : ∃ i j : Nat, cellAt b i j = some x := by
  obtain ⟨i, hi, rfl⟩ := List.mem_iff_getElem.mp hr
  obtain ⟨j, hj, rfl⟩ := List.mem_iff_getElem.mp hx
  refine ⟨i, j, ?_⟩
  unfold cellAt
  rw [if_neg (by omega)]
  simp [hi, hj]

theorem countP_updateCell {α : Type} (P : α → Bool) (b : List (List α)) (r c : Int)
    (f : α → α) (x : α) (h : cellAt b r c = some x) :
    (updateCell b r c f).flatten.countP P + (if P x then 1 else 0)
      = b.flatten.countP P + (if P (f x) then 1 else 0) := by
  obtain ⟨hr, hc, row, h1, h2⟩ := cellAt_eq_some h
  unfold updateCell
  rw [if_neg (by omega)]
  have e1 := countP_flatten_modify P (List.modify f c.toNat) b r.toNat row h1
  have e2 := countP_modify P f row c.toNat x h2
  omega

theorem length_flatten_updateCell {α : Type} (b : List (List α)) (r c : Int) (f : α → α) :
    (updateCell b r c f).flatten.length = b.flatten.length := by
  rw [List.length_flatten, List.length_flatten, shape_updateCell]

/-- Two boards of the same shape with the same cell at every position are equal. -/
theorem board_ext {α : Type} {b b' : List (List α)} (hs : b.map List.length = b'.map List.length)
    (h : ∀ i j : Nat, cellAt b i j = cellAt b' i j) : b = b' := by
  apply List.ext_getElem?
  intro i
  have hlen : b.length = b'.length := by simpa using congrArg List.length hs
  have hsi := congrArg (fun l => l[i]?) hs
  simp only [List.getElem?_map] at hsi
  cases hb : b[i]? with
  | none =>
    rw [hb] at hsi
    cases hb' : b'[i]? with
    | none => rfl
    | some row' => rw [hb'] at hsi; simp at hsi
  | some row =>
    rw [hb] at hsi
    cases hb' : b'[i]? with
    | none => rw [hb'] at hsi; simp at hsi
    | some row' =>
      rw [hb'] at hsi
      simp only [Option.map_some', Option.some.injEq] at hsi
      congr 1
      apply List.ext_getElem?
      intro j
      have := h i j
      unfold cellAt at this
      rw [if_neg (by omega), if_neg (by omega)] at this
      simpa [hb, hb'] using this

/-! ## The banned set and the eligible coordinates -/

theorem isNeighbor_iff (r c i j : Int) :
    IsNeighbor r c i j ↔ ∃ d ∈ OFFSETS, i = r + d.1 ∧ j = c + d.2 := by
  unfold IsNeighbor
  constructor
  · intro h
    exact ⟨(i - r, j - c), h, by simp, by simp⟩
  · rintro ⟨d, hd, h1, h2⟩
    have : (i - r, j - c) = d := by
      rw [h1, h2]; ext <;> simp
    rw [this]; exact hd

theorem foldl_banned (b : Board) (r c : Int) (ds : List (Int × Int)) (acc : List (Int × Int)) :
    ds.foldl
      (fun s d =>
        match cellAt b (r + d.1) (c + d.2) with
        | some n => s ++ [key n.row n.col]
        | none => s) acc
    = acc ++ ds.filterMap
        (fun d => (cellAt b (r + d.1) (c + d.2)).map fun n => key n.row n.col) := by
  induction ds generalizing acc with
  | nil => simp
  | cons d ds ih =>
    rw [List.foldl_cons, ih]
    cases h : cellAt b (r + d.1) (c + d.2) with
    | none => simp [List.filterMap_cons, h]
    | some n => simp [List.filterMap_cons, h]

theorem bannedKeys_eq (b : Board) (r c : Int) :
    bannedKeys b r c = key r c :: OFFSETS.filterMap
        (fun d => (cellAt b (r + d.1) (c + d.2)).map fun n => key n.row n.col) := by
  unfold bannedKeys forEachNeighbor
  exact foldl_banned b r c OFFSETS [key r c]

theorem mem_bannedKeys {rows cols : Nat} {b : Board} (hwf : WellFormed rows cols b)
    (r c : Int) (p : Int × Int) (hp : (cellAt b p.1 p.2).isSome) :
    p ∈ bannedKeys b r c ↔ InSafeZone r c p.1 p.2 := by
  rw [bannedKeys_eq]
  unfold InSafeZone key
  rw [isNeighbor_iff, List.mem_cons, List.mem_filterMap]
  constructor
  · rintro (h | ⟨d, hd, h⟩)
    · left; rw [h]; exact ⟨rfl, rfl⟩
    · right
      cases hn : cellAt b (r + d.1) (c + d.2) with
      | none => rw [hn] at h; simp at h
      | some n =>
        rw [hn] at h
        simp only [Option.map_some', Option.some.injEq] at h
        have := hwf.pos hn
        refine ⟨d, hd, ?_, ?_⟩
        · rw [← h]; exact this.1
        · rw [← h]; exact this.2.1
  · rintro (⟨h1, h2⟩ | ⟨d, hd, h1, h2⟩)
    · left; ext <;> assumption
    · right
      refine ⟨d, hd, ?_⟩
      rw [← h1, ← h2]
      obtain ⟨n, hn⟩ := Option.isSome_iff_exists.mp hp
      rw [hn]
      have := hwf.pos hn
      simp only [Option.map_some', Option.some.injEq]
      ext
      · exact this.1
      · exact this.2.1

theorem mem_grid_flatten (rows cols : Nat) (p : Int × Int) :
    p ∈ (grid rows cols).flatten ↔ 0 ≤ p.1 ∧ p.1 < rows ∧ 0 ≤ p.2 ∧ p.2 < cols := by
  unfold grid
  simp only [List.mem_flatten, List.mem_map, List.mem_range]
  constructor
  · rintro ⟨l, ⟨r, hr, rfl⟩, hp⟩
    simp only [List.mem_map, List.mem_range] at hp
    obtain ⟨c, hc, rfl⟩ := hp
    simp only
    omega
  · rintro ⟨h1, h2, h3, h4⟩
    refine ⟨_, ⟨p.1.toNat, by omega, rfl⟩, ?_⟩
    simp only [List.mem_map, List.mem_range]
    refine ⟨p.2.toNat, by omega, ?_⟩
    ext
    · simp; omega
    · simp; omega

theorem grid_flatten_nodup (rows cols : Nat) : (grid rows cols).flatten.Nodup := by
  have h : (grid rows cols).flatten
      = (List.product (List.range rows) (List.range cols)).map
          (fun p : Nat × Nat => ((p.1 : Int), (p.2 : Int))) := by
    unfold grid
    rw [List.product.eq_1]
    simp [List.flatMap, List.map_flatten, List.map_map, Function.comp_def]
  rw [h]
  apply List.Nodup.map
  · intro p q hpq
    simp only [Prod.mk.injEq, Nat.cast_inj] at hpq
    exact Prod.ext hpq.1 hpq.2
  · exact List.Nodup.product (List.nodup_range _) (List.nodup_range _)

theorem filterMap_row (banned : List (Int × Int)) (r : Nat) (cs : List Nat) :
    cs.filterMap (fun (c : Nat) =>
        if banned.contains (key r c) then none else some ((r : Int), (c : Int)))
      = (cs.map fun (c : Nat) => ((r : Int), (c : Int))).filter fun p => !banned.contains p := by
  induction cs with
  | nil => rfl
  | cons c cs ih =>
    rw [List.filterMap_cons, List.map_cons, List.filter_cons, ih]
    unfold key
    by_cases h : ((r : Int), (c : Int)) ∈ banned
    · simp [h]
    · simp [h]

theorem eligibleCoords_eq_filter (rows cols : Nat) (banned : List (Int × Int)) :
    eligibleCoords rows cols banned
      = (grid rows cols).flatten.filter fun p => !banned.contains p := by
  unfold eligibleCoords grid
  generalize List.range rows = rs
  induction rs with
  | nil => rfl
  | cons r rs ih =>
    rw [List.flatMap_cons, List.map_cons, List.flatten_cons, List.filter_append, ih,
      filterMap_row]

theorem eligibleCoords_nodup (rows cols : Nat) (banned : List (Int × Int)) :
    (eligibleCoords rows cols banned).Nodup := by
  rw [eligibleCoords_eq_filter]
  exact (grid_flatten_nodup rows cols).filter _

theorem mem_eligibleCoords (rows cols : Nat) (banned : List (Int × Int)) (p : Int × Int) :
    p ∈ eligibleCoords rows cols banned
      ↔ (0 ≤ p.1 ∧ p.1 < rows ∧ 0 ≤ p.2 ∧ p.2 < cols) ∧ p ∉ banned := by
  rw [eligibleCoords_eq_filter, List.mem_filter, mem_grid_flatten]
  simp

theorem length_eligibleCoords {rows cols : Nat} {b : Board} (hwf : WellFormed rows cols b)
    (r c : Int) :
    (eligibleCoords rows cols (bannedKeys b r c)).length = eligibleCount rows cols r c := by
  rw [eligibleCoords_eq_filter, ← List.countP_eq_length_filter]
  unfold eligibleCount
  apply List.countP_congr
  intro p hp
  rw [mem_grid_flatten] at hp
  obtain ⟨cell, hc⟩ := hwf.exists_cell hp.1 hp.2.1 hp.2.2.1 hp.2.2.2
  have := mem_bannedKeys hwf r c p (by rw [hc]; rfl)
  simp [this]

/-! ## Placing the mines -/

theorem placeMines_spec (ps : List (Int × Int)) (b : Board)
    (hin : ∀ p ∈ ps, (cellAt b p.1 p.2).isSome) :
    ∃ b', placeMines b ps = some b' ∧
      (∀ i j, cellAt b' i j
        = (cellAt b i j).map fun x => if (i, j) ∈ ps then { x with isMine := true } else x) ∧
      (∀ (β : Type) (g : Cell → β), (∀ x, g { x with isMine := true } = g x) →
        b'.map (List.map g) = b.map (List.map g)) := by
  induction ps generalizing b with
  | nil =>
    refine ⟨b, rfl, ?_, fun _ _ _ => rfl⟩
    intro i j
    cases cellAt b i j <;> simp
  | cons p rest ih =>
    obtain ⟨c0, hc0⟩ := Option.isSome_iff_exists.mp (hin p (List.mem_cons_self _ _))
    have hstep : ∀ i j, cellAt (updateCell b p.1 p.2 fun x => { x with isMine := true }) i j
        = if i = p.1 ∧ j = p.2 then (cellAt b i j).map (fun x => { x with isMine := true })
          else cellAt b i j := fun i j => cellAt_updateCell b p.1 p.2 _ i j
    have hin' : ∀ q ∈ rest,
        (cellAt (updateCell b p.1 p.2 fun x => { x with isMine := true }) q.1 q.2).isSome := by
      intro q hq
      have h0 := hin q (List.mem_cons_of_mem _ hq)
      rw [hstep]
      split_ifs
      · rw [Option.isSome_map']; exact h0
      · exact h0
    obtain ⟨b', hb', hpt, himg⟩ := ih _ hin'
    refine ⟨b', ?_, ?_, ?_⟩
    · show (match cellAt b p.1 p.2 with
        | none => none
        | some _ => placeMines (updateCell b p.1 p.2 fun x => { x with isMine := true }) rest)
          = some b'
      rw [hc0]; exact hb'
    · intro i j
      rw [hpt, hstep]
      by_cases hij : i = p.1 ∧ j = p.2
      · have hp : (i, j) = p := Prod.ext hij.1 hij.2
        rw [if_pos hij]
        cases cellAt b i j with
        | none => rfl
        | some x => by_cases hm : (i, j) ∈ rest <;> simp [hm, hp]
      · have hp : ¬ (i, j) = p := fun h => hij ⟨by rw [← h], by rw [← h]⟩
        rw [if_neg hij]
        cases cellAt b i j with
        | none => rfl
        | some x => by_cases hm : (i, j) ∈ rest <;> simp [hm, hp]
    · intro β g hg
      rw [himg β g hg, map_updateCell g _ hg]

theorem noMines_cellAt {b : Board} (h : NoMines b) {i j : Int} {cell : Cell}
    (hc : cellAt b i j = some cell) : cell.isMine = false := by
  obtain ⟨row, hr, hx⟩ := cellAt_mem hc
  exact h row hr cell hx

theorem mineCount_eq_zero {b : Board} (h : NoMines b) : mineCount b = 0 := by
  unfold mineCount
  rw [List.countP_eq_zero]
  intro cell hc
  obtain ⟨row, hr, hx⟩ := List.mem_flatten.mp hc
  simp [h row hr cell hx]

theorem placeMines_count (ps : List (Int × Int)) (b b' : Board) (hnd : ps.Nodup)
    (hin : ∀ p ∈ ps, ∃ cell, cellAt b p.1 p.2 = some cell ∧ cell.isMine = false)
    (hb' : placeMines b ps = some b') :
    mineCount b' = mineCount b + ps.length := by
  induction ps generalizing b with
  | nil =>
    simp only [placeMines, Option.some.injEq] at hb'
    subst hb'; simp
  | cons p rest ih =>
    obtain ⟨c0, hc0, hm0⟩ := hin p (List.mem_cons_self _ _)
    have hb1 : placeMines (updateCell b p.1 p.2 fun x => { x with isMine := true }) rest
        = some b' := by
      have : placeMines b (p :: rest) = (match cellAt b p.1 p.2 with
        | none => none
        | some _ => placeMines (updateCell b p.1 p.2 fun x => { x with isMine := true }) rest) :=
        rfl
      rw [this, hc0] at hb'
      exact hb'
    have hnd' := (List.nodup_cons.mp hnd)
    have hin' : ∀ q ∈ rest, ∃ cell,
        cellAt (updateCell b p.1 p.2 fun x => { x with isMine := true }) q.1 q.2 = some cell
          ∧ cell.isMine = false := by
      intro q hq
      obtain ⟨cell, hc, hm⟩ := hin q (List.mem_cons_of_mem _ hq)
      refine ⟨cell, ?_, hm⟩
      rw [cellAt_updateCell, if_neg, hc]
      intro hqp
      exact hnd'.1 (by rw [show p = q from Prod.ext hqp.1.symm hqp.2.symm]; exact hq)
    rw [ih _ hnd'.2 hin' hb1]
    have hcnt := countP_updateCell (fun cell : Cell => cell.isMine) b p.1 p.2
      (fun x => { x with isMine := true }) c0 hc0
    simp only [hm0, Bool.false_eq_true, if_false, if_true, add_zero] at hcnt
    unfold mineCount
    simp only [List.length_cons]
    omega

/-! ## Recomputing the neighbour counts -/

theorem foldl_countMines (b : Board) (r c : Int) (ds : List (Int × Int)) (acc : Nat) :
    ds.foldl
      (fun s d =>
        match cellAt b (r + d.1) (c + d.2) with
        | some n => if n.isMine then s + 1 else s
        | none => s) acc
    = acc + ds.countP fun d => (cellAt b (r + d.1) (c + d.2)).any fun n => n.isMine := by
  induction ds generalizing acc with
  | nil => simp
  | cons d ds ih =>
    rw [List.foldl_cons, ih, List.countP_cons]
    cases h : cellAt b (r + d.1) (c + d.2) with
    | none => simp
    | some n =>
      by_cases hm : n.isMine = true
      · simp only [Option.any_some, hm, if_true]
        generalize List.countP _ ds = k
        show acc + 1 + k = acc + (k + 1)
        omega
      · simp only [Option.any_some, hm, if_false]
        simp

theorem countMineNeighbors_eq (b : Board) (r c : Int) :
    countMineNeighbors b r c = mineNeighbors b r c := by
  unfold countMineNeighbors forEachNeighbor mineNeighbors
  rw [foldl_countMines, Nat.zero_add]

theorem mineNeighbors_congr {b b' : Board}
    (h : b.map (List.map fun n => n.isMine) = b'.map (List.map fun n => n.isMine))
    (i j : Int) : mineNeighbors b i j = mineNeighbors b' i j := by
  unfold mineNeighbors
  apply List.countP_congr
  intro d _
  have e1 := cellAt_map (fun n : Cell => n.isMine) b (i + d.1) (j + d.2)
  have e2 := cellAt_map (fun n : Cell => n.isMine) b' (i + d.1) (j + d.2)
  rw [h, e2] at e1
  cases h1 : cellAt b (i + d.1) (j + d.2) <;> cases h2 : cellAt b' (i + d.1) (j + d.2) <;>
    simp [h1, h2] at e1 ⊢
  rw [e1]

theorem mineNeighbors_le (b : Board) (i j : Int) : mineNeighbors b i j ≤ 8 := by
  unfold mineNeighbors
  exact List.countP_le_length _

theorem recount_congr {b b' : Board}
    (h : b.map (List.map fun n => n.isMine) = b'.map (List.map fun n => n.isMine)) :
    recount b = recount b' := by
  funext x
  unfold recount
  rw [mineNeighbors_congr h]

theorem recalcCell_map {β : Type} (g : Cell → β) (hg : ∀ x n, g { x with neighbor := n } = g x)
    (b : Board) (p : Nat × Nat) :
    (recalcCell b p).map (List.map g) = b.map (List.map g) := by
  unfold recalcCell
  cases cellAt b p.1 p.2 with
  | none => rfl
  | some cell =>
    simp only
    split_ifs
    · exact map_updateCell g _ (fun x => hg x 0) b _ _
    · exact map_updateCell g _ (fun x => hg x _) b _ _

theorem cellAt_recalcCell (b : Board) (p : Nat × Nat) (i j : Int) :
    cellAt (recalcCell b p) i j
      = if i = p.1 ∧ j = p.2 then (cellAt b i j).map (recount b) else cellAt b i j := by
  unfold recalcCell
  cases h : cellAt b p.1 p.2 with
  | none =>
    simp only
    by_cases hij : i = p.1 ∧ j = p.2
    · rw [if_pos hij, hij.1, hij.2, h]; rfl
    · rw [if_neg hij]
  | some cell =>
    simp only
    by_cases hm : cell.isMine = true
    · rw [if_pos hm, cellAt_updateCell]
      by_cases hij : i = p.1 ∧ j = p.2
      · rw [if_pos hij, if_pos hij, hij.1, hij.2, h]
        simp [recount, hm]
      · rw [if_neg hij, if_neg hij]
    · rw [if_neg hm, cellAt_updateCell]
      by_cases hij : i = p.1 ∧ j = p.2
      · rw [if_pos hij, if_pos hij, hij.1, hij.2, h]
        simp [recount, hm, countMineNeighbors_eq]
      · rw [if_neg hij, if_neg hij]

theorem foldl_recalcCell_map {β : Type} (g : Cell → β)
    (hg : ∀ x n, g { x with neighbor := n } = g x) (ps : List (Nat × Nat)) (b : Board) :
    (ps.foldl recalcCell b).map (List.map g) = b.map (List.map g) := by
  induction ps generalizing b with
  | nil => rfl
  | cons p ps ih => rw [List.foldl_cons, ih, recalcCell_map g hg]

theorem recalcNeighbors_map {β : Type} (g : Cell → β)
    (hg : ∀ x n, g { x with neighbor := n } = g x) (b : Board) :
    (recalcNeighbors b).map (List.map g) = b.map (List.map g) :=
  foldl_recalcCell_map g hg _ b

theorem cellAt_foldl_recalcCell (b0 : Board) (ps : List (Nat × Nat)) (hnd : ps.Nodup)
    (b : Board)
    (himg : b.map (List.map fun n => n.isMine) = b0.map (List.map fun n => n.isMine))
    (i j : Int) :
    cellAt (ps.foldl recalcCell b) i j
      = if ∃ p ∈ ps, i = (p.1 : Int) ∧ j = (p.2 : Int) then (cellAt b i j).map (recount b0)
        else cellAt b i j := by
  induction ps generalizing b with
  | nil => simp
  | cons p ps ih =>
    have hnd' := List.nodup_cons.mp hnd
    have himg' : (recalcCell b p).map (List.map fun n => n.isMine)
        = b0.map (List.map fun n => n.isMine) := by
      rw [recalcCell_map (fun n : Cell => n.isMine) (fun _ _ => rfl), himg]
    rw [List.foldl_cons, ih hnd'.2 _ himg', cellAt_recalcCell, recount_congr himg]
    by_cases hij : i = (p.1 : Int) ∧ j = (p.2 : Int)
    · have hnot : ¬ ∃ q ∈ ps, i = (q.1 : Int) ∧ j = (q.2 : Int) := by
        rintro ⟨q, hq, h1, h2⟩
        apply hnd'.1
        have : p = q := by
          ext
          · have := hij.1.symm.trans h1; exact_mod_cast this
          · have := hij.2.symm.trans h2; exact_mod_cast this
        rw [this]; exact hq
      rw [if_neg hnot, if_pos hij, if_pos ⟨p, List.mem_cons_self _ _, hij⟩]
    · rw [if_neg hij]
      by_cases hex : ∃ q ∈ ps, i = (q.1 : Int) ∧ j = (q.2 : Int)
      · obtain ⟨q, hq, hq2⟩ := hex
        rw [if_pos ⟨q, hq, hq2⟩, if_pos ⟨q, List.mem_cons_of_mem _ hq, hq2⟩]
      · rw [if_neg hex, if_neg]
        rintro ⟨q, hq, hq2⟩
        rcases List.mem_cons.mp hq with rfl | hq
        · exact hij hq2
        · exact hex ⟨q, hq, hq2⟩

theorem allPositions_nodup (b : Board) : (allPositions b).Nodup := by
  unfold allPositions
  rw [List.nodup_flatMap]
  constructor
  · intro i _
    exact (List.nodup_range _).map (fun a c h => by simpa using h)
  · apply List.Pairwise.imp _ (List.nodup_range b.length)
    intro i i2 hne
    intro p hp hp2
    simp only [List.mem_map] at hp hp2
    obtain ⟨_, _, rfl⟩ := hp
    obtain ⟨_, _, h⟩ := hp2
    exact hne (by simpa using (congrArg Prod.fst h).symm)

theorem mem_allPositions {b : Board} {i j : Int} {x : Cell} (h : cellAt b i j = some x) :
    ∃ p ∈ allPositions b, i = (p.1 : Int) ∧ j = (p.2 : Int) := by
  obtain ⟨hi, hj, row, h1, h2⟩ := cellAt_eq_some h
  refine ⟨(i.toNat, j.toNat), ?_, by simp; omega, by simp; omega⟩
  unfold allPositions
  rw [List.mem_flatMap]
  obtain ⟨hil, _⟩ := List.getElem?_eq_some_iff.mp h1
  obtain ⟨hjl, _⟩ := List.getElem?_eq_some_iff.mp h2
  refine ⟨i.toNat, List.mem_range.mpr hil, ?_⟩
  rw [h1]
  simp only [Option.getD_some, List.mem_map, List.mem_range]
  exact ⟨j.toNat, hjl, rfl⟩

theorem cellAt_recalcNeighbors (b : Board) (i j : Int) :
    cellAt (recalcNeighbors b) i j = (cellAt b i j).map (recount b) := by
  unfold recalcNeighbors
  rw [cellAt_foldl_recalcCell b _ (allPositions_nodup b) b rfl]
  split_ifs with h
  · rfl
  · cases hc : cellAt b i j with
    | none => rfl
    | some x => exact absurd (mem_allPositions hc) h

/-! ## Deferred mine placement -/

theorem lazyPlace_eq {rows cols : Nat} {b : Board} (hwf : WellFormed rows cols b)
    (hrows : 0 < rows) (draw : Draws) (r c : Int) (m : Nat) :
    lazyPlaceMinesAfterFirstClick draw b r c m
      = (placeMines b
          ((shuffle draw (eligibleCoords rows cols (bannedKeys b r c))).take m)).map
          recalcNeighbors := by
  cases b with
  | nil =>
    have := hwf.length
    simp at this
    omega
  | cons row0 rest =>
    have h1 : (row0 :: rest).length = rows := hwf.length
    have h2 : row0.length = cols := hwf.row_length (List.mem_cons_self _ _)
    unfold lazyPlaceMinesAfterFirstClick
    simp only [h1, h2]

theorem lazyPlace_nil (draw : Draws) (r c : Int) (m : Nat) :
    lazyPlaceMinesAfterFirstClick draw [] r c m = none := rfl

theorem chosen_nodup (draw : Draws) (rows cols m : Nat) (banned : List (Int × Int)) :
    ((shuffle draw (eligibleCoords rows cols banned)).take m).Nodup :=
  (((shuffle_perm draw _).nodup_iff).mpr (eligibleCoords_nodup rows cols banned)).sublist
    (List.take_sublist _ _)

theorem mem_chosen {draw : Draws} {rows cols m : Nat} {banned : List (Int × Int)}
    {p : Int × Int} (h : p ∈ (shuffle draw (eligibleCoords rows cols banned)).take m) :
    (0 ≤ p.1 ∧ p.1 < rows ∧ 0 ≤ p.2 ∧ p.2 < cols) ∧ p ∉ banned :=
  (mem_eligibleCoords rows cols banned p).mp
    ((shuffle_perm draw _).mem_iff.mp (List.mem_of_mem_take h))

theorem mineCount_eq_image (b : Board) :
    mineCount b = (b.map (List.map fun n => n.isMine)).flatten.countP id := by
  unfold mineCount
  rw [← List.map_flatten, List.countP_map]
  rfl

/-- The common content of the placement claims: on a well-formed board the function
returns, and the result is the input with mines set at the chosen coordinates and the
counts recomputed. -/
theorem lazyPlace_spec {rows cols : Nat} {b : Board} (hwf : WellFormed rows cols b)
    (hrows : 0 < rows) (draw : Draws) (r c : Int) (m : Nat) :
    ∃ placed next,
      placeMines b ((shuffle draw (eligibleCoords rows cols (bannedKeys b r c))).take m)
        = some placed ∧
      lazyPlaceMinesAfterFirstClick draw b r c m = some next ∧
      WellFormed rows cols placed ∧ WellFormed rows cols next ∧
      (∀ i j, cellAt placed i j = (cellAt b i j).map fun x =>
        if (i, j) ∈ (shuffle draw (eligibleCoords rows cols (bannedKeys b r c))).take m
        then { x with isMine := true } else x) ∧
      (∀ i j, cellAt next i j = (cellAt placed i j).map (recount placed)) ∧
      next.map (List.map fun n => n.isMine) = placed.map (List.map fun n => n.isMine) := by
  have hin : ∀ p ∈ (shuffle draw (eligibleCoords rows cols (bannedKeys b r c))).take m,
      (cellAt b p.1 p.2).isSome := by
    intro p hp
    obtain ⟨⟨h1, h2, h3, h4⟩, _⟩ := mem_chosen hp
    obtain ⟨cell, hc⟩ := hwf.exists_cell h1 h2 h3 h4
    rw [hc]; rfl
  obtain ⟨placed, hpl, hpt, himg⟩ := placeMines_spec _ b hin
  have hwf1 : WellFormed rows cols placed := by
    unfold WellFormed
    rw [himg _ (fun cell : Cell => (cell.row, cell.col)) (fun _ => rfl)]
    exact hwf
  refine ⟨placed, recalcNeighbors placed, hpl, ?_, hwf1, ?_, hpt, cellAt_recalcNeighbors placed,
    recalcNeighbors_map (fun n : Cell => n.isMine) (fun _ _ => rfl) placed⟩
  · rw [lazyPlace_eq hwf hrows, hpl]; rfl
  · unfold WellFormed
    rw [recalcNeighbors_map (fun cell : Cell => (cell.row, cell.col)) (fun _ _ => rfl)]
    exact hwf1

/-! ## Claims about mine placement -/

/-- C1: on a mine-free board of the data model, for every in-range click position, every
mine count and every table of shuffle draws, `lazyPlaceMinesAfterFirstClick` returns a
board of the same dimensions whose cell at the click position is not a mine and whose
cells at all in-range neighbours of the click position are not mines. -/
theorem lazyPlace_safe_zone (draw : Draws) (rows cols : Nat) (board : Board)
    (hwf : WellFormed rows cols board) (hno : NoMines board) (clickR clickC : Int)
    (hclick : (cellAt board clickR clickC).isSome) (m : Nat) :
    ∃ next, lazyPlaceMinesAfterFirstClick draw board clickR clickC m = some next ∧
      WellFormed rows cols next ∧
      (∃ cell, cellAt next clickR clickC = some cell ∧ cell.isMine = false) ∧
      ∀ i j, IsNeighbor clickR clickC i j →
        ∀ cell, cellAt next i j = some cell → cell.isMine = false := by
  obtain ⟨c0, hc0⟩ := Option.isSome_iff_exists.mp hclick
  have hrows : 0 < rows := by have := (hwf.pos hc0).2.2; omega
  obtain ⟨placed, next, _, hnext, _, hwf2, hpt, hrc, _⟩ :=
    lazyPlace_spec hwf hrows draw clickR clickC m
  have hsafe : ∀ i j, InSafeZone clickR clickC i j → ∀ cell, cellAt next i j = some cell →
      cell.isMine = false := by
    intro i j hz cell hcell
    rw [hrc, hpt] at hcell
    cases hb : cellAt board i j with
    | none => rw [hb] at hcell; simp at hcell
    | some x =>
      have hnot : (i, j) ∉ (shuffle draw (eligibleCoords rows cols
          (bannedKeys board clickR clickC))).take m := by
        intro hmem
        exact (mem_chosen hmem).2
          ((mem_bannedKeys hwf clickR clickC (i, j) (by rw [hb]; rfl)).mpr hz)
      rw [hb] at hcell
      simp only [Option.map_some', if_neg hnot, Option.some.injEq] at hcell
      rw [← hcell]
      show x.isMine = false
      exact noMines_cellAt hno hb
  refine ⟨next, hnext, hwf2, ?_, fun i j hn => hsafe i j (Or.inr hn)⟩
  have hex : ∃ cell, cellAt next clickR clickC = some cell := by
    rw [hrc, hpt, hc0]; exact ⟨_, rfl⟩
  obtain ⟨cell, hcell⟩ := hex
  exact ⟨cell, hcell, hsafe clickR clickC (Or.inl ⟨rfl, rfl⟩) cell hcell⟩

theorem lazyPlace_safe_zone_witness :
    WellFormed 4 4 (createEmptyBoard 4 4) ∧ NoMines (createEmptyBoard 4 4) ∧
    (cellAt (createEmptyBoard 4 4) 1 1).isSome ∧
    ∃ next, lazyPlaceMinesAfterFirstClick halfDraws (createEmptyBoard 4 4) 1 1 5 = some next ∧
      WellFormed 4 4 next ∧
      (∃ cell, cellAt next 1 1 = some cell ∧ cell.isMine = false) ∧
      ∀ i j, IsNeighbor 1 1 i j → ∀ cell, cellAt next i j = some cell → cell.isMine = false :=
  ⟨by decide, by decide, by decide,
    lazyPlace_safe_zone halfDraws 4 4 (createEmptyBoard 4 4) (by decide) (by decide) 1 1
      (by decide) 5⟩

/-- C2: on a mine-free board of the data model, for every in-range click position, every
mine count `m` and every table of shuffle draws, the board returned by
`lazyPlaceMinesAfterFirstClick` holds exactly `min m eligible` mines, where `eligible`
counts the positions outside the safe zone; and when `m ≥ eligible` every cell outside
the safe zone is a mine. -/
theorem lazyPlace_mine_count (draw : Draws) (rows cols : Nat) (board : Board)
    (hwf : WellFormed rows cols board) (hno : NoMines board) (clickR clickC : Int)
    (hclick : (cellAt board clickR clickC).isSome) (m : Nat) :
    ∃ next, lazyPlaceMinesAfterFirstClick draw board clickR clickC m = some next ∧
      mineCount next = min m (eligibleCount rows cols clickR clickC) ∧
      (eligibleCount rows cols clickR clickC ≤ m →
        ∀ i j cell, cellAt next i j = some cell → ¬ InSafeZone clickR clickC i j →
          cell.isMine = true) := by
  obtain ⟨c0, hc0⟩ := Option.isSome_iff_exists.mp hclick
  have hrows : 0 < rows := by have := (hwf.pos hc0).2.2; omega
  obtain ⟨placed, next, hpl, hnext, _, _, hpt, hrc, himg⟩ :=
    lazyPlace_spec hwf hrows draw clickR clickC m
  refine ⟨next, hnext, ?_, ?_⟩
  · have hcount := placeMines_count _ board placed
      (chosen_nodup draw rows cols m (bannedKeys board clickR clickC))
      (by
        intro p hp
        obtain ⟨⟨h1, h2, h3, h4⟩, _⟩ := mem_chosen hp
        obtain ⟨cell, hc⟩ := hwf.exists_cell h1 h2 h3 h4
        exact ⟨cell, hc, noMines_cellAt hno hc⟩) hpl
    rw [mineCount_eq_image, himg, ← mineCount_eq_image, hcount, mineCount_eq_zero hno,
      Nat.zero_add, List.length_take, (shuffle_perm draw _).length_eq,
      length_eligibleCoords hwf]
  · intro hle i j cell hcell hz
    rw [hrc, hpt] at hcell
    cases hb : cellAt board i j with
    | none => rw [hb] at hcell; simp at hcell
    | some x =>
      have hp := hwf.pos hb
      have hel : (i, j) ∈ eligibleCoords rows cols (bannedKeys board clickR clickC) := by
        rw [mem_eligibleCoords]
        refine ⟨⟨hp.2.2.1, hp.2.2.2.1, hp.2.2.2.2.1, hp.2.2.2.2.2⟩, ?_⟩
        intro hban
        exact hz ((mem_bannedKeys hwf clickR clickC (i, j) (by rw [hb]; rfl)).mp hban)
      have hmem : (i, j) ∈ (shuffle draw (eligibleCoords rows cols
          (bannedKeys board clickR clickC))).take m := by
        rw [List.take_of_length_le]
        · exact (shuffle_perm draw _).mem_iff.mpr hel
        · rw [(shuffle_perm draw _).length_eq, length_eligibleCoords hwf]; exact hle
      rw [hb] at hcell
      simp only [Option.map_some', if_pos hmem, Option.some.injEq] at hcell
      rw [← hcell]
      rfl

theorem lazyPlace_mine_count_witness :
    WellFormed 4 4 (createEmptyBoard 4 4) ∧ NoMines (createEmptyBoard 4 4) ∧
    (cellAt (createEmptyBoard 4 4) 0 0).isSome ∧
    ∃ next, lazyPlaceMinesAfterFirstClick halfDraws (createEmptyBoard 4 4) 0 0 5 = some next ∧
      mineCount next = min 5 (eligibleCount 4 4 0 0) ∧
      (eligibleCount 4 4 0 0 ≤ 5 →
        ∀ i j cell, cellAt next i j = some cell → ¬ InSafeZone 0 0 i j → cell.isMine = true) :=
  ⟨by decide, by decide, by decide,
    lazyPlace_mine_count halfDraws 4 4 (createEmptyBoard 4 4) (by decide) (by decide) 0 0
      (by decide) 5⟩

/-- C3: on a board of the data model, for every click position, every mine count and
every table of shuffle draws, in any board returned by `lazyPlaceMinesAfterFirstClick`
each non-mine cell's `neighbor` field is the number of its in-range neighbours that are
mines in that returned board (so it is at most 8) and each mine cell's `neighbor` field
is 0; and the function does return whenever the board has at least one row. -/
theorem lazyPlace_neighbor_counts (draw : Draws) (rows cols : Nat) (board : Board)
    (hwf : WellFormed rows cols board) (clickR clickC : Int) (m : Nat) :
    (∀ next, lazyPlaceMinesAfterFirstClick draw board clickR clickC m = some next →
      ∀ i j cell, cellAt next i j = some cell →
        (cell.isMine = false → cell.neighbor = mineNeighbors next i j ∧ cell.neighbor ≤ 8) ∧
        (cell.isMine = true → cell.neighbor = 0)) ∧
    (0 < rows → ∃ next, lazyPlaceMinesAfterFirstClick draw board clickR clickC m = some next) := by
  constructor
  · intro next0 hnext0 i j cell hcell
    have hrows : 0 < rows := by
      rcases Nat.eq_zero_or_pos rows with h0 | h0
      · have hl := hwf.length
        rw [h0, List.length_eq_zero] at hl
        rw [hl, lazyPlace_nil] at hnext0
        simp at hnext0
      · exact h0
    obtain ⟨placed, next, _, hnext, hwf1, _, _, hrc, himg⟩ :=
      lazyPlace_spec hwf hrows draw clickR clickC m
    rw [hnext, Option.some.injEq] at hnext0
    subst hnext0
    rw [hrc] at hcell
    cases hb : cellAt placed i j with
    | none => rw [hb] at hcell; simp at hcell
    | some x =>
      rw [hb] at hcell
      simp only [Option.map_some', Option.some.injEq] at hcell
      have hp := hwf1.pos hb
      rw [← hcell, mineNeighbors_congr himg]
      unfold recount
      simp only [hp.1, hp.2.1]
      constructor
      · intro hm
        rw [if_neg (by simp [hm])]
        exact ⟨rfl, mineNeighbors_le _ _ _⟩
      · intro hm
        rw [if_pos hm]
  · intro hrows
    obtain ⟨_, next, _, hnext, _⟩ := lazyPlace_spec hwf hrows draw clickR clickC m
    exact ⟨next, hnext⟩

theorem lazyPlace_neighbor_counts_witness :
    WellFormed 4 4 (createEmptyBoard 4 4) ∧
    ((∀ next, lazyPlaceMinesAfterFirstClick halfDraws (createEmptyBoard 4 4) 3 2 6 = some next →
      ∀ i j cell, cellAt next i j = some cell →
        (cell.isMine = false → cell.neighbor = mineNeighbors next i j ∧ cell.neighbor ≤ 8) ∧
        (cell.isMine = true → cell.neighbor = 0)) ∧
    (0 < 4 → ∃ next,
      lazyPlaceMinesAfterFirstClick halfDraws (createEmptyBoard 4 4) 3 2 6 = some next)) :=
  ⟨by decide, lazyPlace_neighbor_counts halfDraws 4 4 (createEmptyBoard 4 4) (by decide) 3 2 6⟩

/-! ## Claims about single-cell outcomes of `revealCascade` -/

theorem revealCascade_closed {board : Board} {r c : Int} {cell : Cell}
    (hc : cellAt board r c = some cell)
    (h : cell.isRevealed = true ∨ cell.isFlagged = true) :
    revealCascade board r c = some { nextBoard := board, exploded := false } := by
  have hcond : (cell.isFlagged || cell.isRevealed) = true := by
    rcases h with h | h <;> simp [h]
  unfold revealCascade
  simp only [hc, hcond, if_true]

/-- C5: when the cell at an in-range position is already revealed or is flagged,
`revealCascade` returns `exploded = false` and a board equal to the input, and a second
call on that board returns the same result. -/
theorem revealCascade_noop (board : Board) (r c : Int) (cell : Cell)
    (hc : cellAt board r c = some cell)
    (h : cell.isRevealed = true ∨ cell.isFlagged = true) :
    ∃ res, revealCascade board r c = some res ∧ res.exploded = false ∧
      res.nextBoard = board ∧ revealCascade res.nextBoard r c = some res :=
  ⟨_, revealCascade_closed hc h, rfl, rfl, revealCascade_closed hc h⟩

theorem revealCascade_noop_witness :
    cellAt flaggedBoard 0 0 = some flaggedMine ∧
    (flaggedMine.isRevealed = true ∨ flaggedMine.isFlagged = true) ∧
    ∃ res, revealCascade flaggedBoard 0 0 = some res ∧ res.exploded = false ∧
      res.nextBoard = flaggedBoard ∧ revealCascade res.nextBoard 0 0 = some res :=
  ⟨by decide, by decide,
    revealCascade_noop flaggedBoard 0 0 flaggedMine (by decide) (by decide)⟩

/-- C6: when the cell at an in-range position is a mine that is neither revealed nor
flagged, `revealCascade` returns `exploded = true` and a board of the same shape in which
that cell is the input cell with `isRevealed = true` and every other position holds the
input cell unchanged. -/
theorem revealCascade_mine (board : Board) (r c : Int) (cell : Cell)
    (hc : cellAt board r c = some cell) (hm : cell.isMine = true)
    (hr : cell.isRevealed = false) (hf : cell.isFlagged = false) :
    ∃ res, revealCascade board r c = some res ∧ res.exploded = true ∧
      cellAt res.nextBoard r c = some { cell with isRevealed := true } ∧
      (∀ i j, ¬ (i = r ∧ j = c) → cellAt res.nextBoard i j = cellAt board i j) ∧
      res.nextBoard.map List.length = board.map List.length := by
  refine ⟨{ nextBoard := updateCell board r c fun x => { x with isRevealed := true },
            exploded := true }, ?_, rfl, ?_, ?_, ?_⟩
  · unfold revealCascade
    simp [hc, hm, hr, hf]
  · show cellAt (updateCell board r c fun x => { x with isRevealed := true }) r c = _
    rw [cellAt_updateCell, if_pos ⟨rfl, rfl⟩, hc]
    rfl
  · intro i j hij
    show cellAt (updateCell board r c fun x => { x with isRevealed := true }) i j = _
    rw [cellAt_updateCell, if_neg hij]
  · exact shape_updateCell board r c _

theorem revealCascade_mine_witness :
    cellAt minedBoard 0 1 = some hiddenMine ∧ hiddenMine.isMine = true ∧
    hiddenMine.isRevealed = false ∧ hiddenMine.isFlagged = false ∧
    ∃ res, revealCascade minedBoard 0 1 = some res ∧ res.exploded = true ∧
      cellAt res.nextBoard 0 1 = some { hiddenMine with isRevealed := true } ∧
      (∀ i j, ¬ (i = 0 ∧ j = 1) → cellAt res.nextBoard i j = cellAt minedBoard i j) ∧
      res.nextBoard.map List.length = minedBoard.map List.length :=
  ⟨by decide, by decide, by decide, by decide,
    revealCascade_mine minedBoard 0 1 hiddenMine (by decide) (by decide) (by decide)
      (by decide)⟩

/-! ## Win detection -/

theorem foldl_winStep (row : List Cell) (acc : Nat × Nat) :
    row.foldl winStep acc
      = (acc.1 + row.countP (fun x => !x.isMine && x.isRevealed),
         acc.2 + row.countP (fun x => !x.isMine)) := by
  induction row generalizing acc with
  | nil => simp
  | cons x row ih =>
    rw [List.foldl_cons, ih, List.countP_cons, List.countP_cons]
    unfold winStep
    cases hm : x.isMine <;> cases hr : x.isRevealed <;> simp <;> omega

theorem foldl_foldl_winStep (board : Board) (acc : Nat × Nat) :
    board.foldl (fun acc row => row.foldl winStep acc) acc
      = (acc.1 + board.flatten.countP (fun x => !x.isMine && x.isRevealed),
         acc.2 + board.flatten.countP (fun x => !x.isMine)) := by
  induction board generalizing acc with
  | nil => simp
  | cons row board ih =>
    rw [List.foldl_cons, ih, foldl_winStep, List.flatten_cons, List.countP_append,
      List.countP_append]
    simp only [Nat.add_assoc]

theorem checkWinCondition_eq (board : Board) (totalMines : Int) :
    checkWinCondition board totalMines
      = (board.flatten.countP (fun x => !x.isMine && x.isRevealed)
          == board.flatten.countP (fun x => !x.isMine)) := by
  unfold checkWinCondition
  rw [foldl_foldl_winStep]
  simp

theorem countP_eq_countP_iff {α : Type} (p q : α → Bool) (hpq : ∀ x, p x = true → q x = true)
    (l : List α) :
    l.countP p = l.countP q ↔ ∀ x ∈ l, q x = true → p x = true := by
  induction l with
  | nil => simp
  | cons a l ih =>
    have hle : l.countP p ≤ l.countP q := List.countP_mono_left fun x _ => hpq x
    rw [List.countP_cons, List.countP_cons]
    simp only [List.mem_cons, forall_eq_or_imp]
    cases hq : q a with
    | false =>
      cases hp : p a with
      | false => simpa using ih
      | true => rw [hpq a hp] at hq; simp at hq
    | true =>
      cases hp : p a with
      | false =>
        simp only [if_true, Bool.false_eq_true, if_false, true_implies, false_and, iff_false]
        omega
      | true =>
        simp only [if_true, true_implies, true_and]
        rw [← ih]; omega

/-- C9: `checkWinCondition` returns true exactly when every cell that is not a mine is
revealed, and its result is the same on any two boards that agree on which cells are
mines and on which safe cells are revealed, whatever the flags, the reveal state of
mines and the `totalMines` arguments are. -/
theorem checkWinCondition_iff (board : Board) (totalMines : Int) :
    (checkWinCondition board totalMines = true ↔
      ∀ row ∈ board, ∀ cell ∈ row, cell.isMine = false → cell.isRevealed = true) ∧
    ∀ (board2 : Board) (totalMines2 : Int),
      board2.map (List.map safeView) = board.map (List.map safeView) →
      checkWinCondition board2 totalMines2 = checkWinCondition board totalMines := by
  constructor
  · rw [checkWinCondition_eq, beq_iff_eq,
      countP_eq_countP_iff _ _ (fun x h => by simp at h ⊢; exact h.1)]
    constructor
    · intro h row hrow cell hcell hm
      have := h cell (List.mem_flatten.mpr ⟨row, hrow, hcell⟩) (by simp [hm])
      simpa [hm] using this
    · intro h cell hcell hq
      obtain ⟨row, hrow, hx⟩ := List.mem_flatten.mp hcell
      have hm : cell.isMine = false := by simpa using hq
      simp [hm, h row hrow cell hx hm]
  · intro board2 totalMines2 himg
    have key : ∀ b : Board,
        b.flatten.countP (fun x => !x.isMine && x.isRevealed)
          = (b.map (List.map safeView)).flatten.countP (fun v => !v.1 && v.2) ∧
        b.flatten.countP (fun x => !x.isMine)
          = (b.map (List.map safeView)).flatten.countP (fun v => !v.1) := by
      intro b
      rw [← List.map_flatten, List.countP_map, List.countP_map]
      constructor
      · apply List.countP_congr
        intro x _
        obtain ⟨_, _, m, r, _, _⟩ := x
        cases m <;> cases r <;> rfl
      · rfl
    rw [checkWinCondition_eq, checkWinCondition_eq, (key board2).1, (key board2).2,
      (key board).1, (key board).2, himg]

/-! ## Flag toggling -/

theorem updateCell_updateCell_cancel {α : Type} (b : List (List α)) (r c : Int) (f : α → α)
    (hf : ∀ x, f (f x) = x) : updateCell (updateCell b r c f) r c f = b := by
  apply board_ext
  · rw [shape_updateCell, shape_updateCell]
  · intro i j
    rw [cellAt_updateCell, cellAt_updateCell]
    split_ifs
    · cases cellAt b i j with
      | none => rfl
      | some x => simp [hf]
    · rfl

/-- C10: at an in-range position, `toggleFlagAt` on a revealed cell returns
`changed = false` and the input board; on an unrevealed cell it returns `changed = true`
and a board of the same shape that holds the input cell with `isFlagged` negated at that
position and the input cell everywhere else, and a second toggle there restores the
input board. In either case a cell of the result that is both revealed and flagged was
already that same cell in the input. -/
theorem toggleFlagAt_spec (board : Board) (r c : Int) (cell : Cell)
    (hc : cellAt board r c = some cell) :
    ∃ res, toggleFlagAt board r c = some res ∧
      (cell.isRevealed = true → res.changed = false ∧ res.nextBoard = board) ∧
      (cell.isRevealed = false →
        res.changed = true ∧
        cellAt res.nextBoard r c = some { cell with isFlagged := !cell.isFlagged } ∧
        (∀ i j, ¬ (i = r ∧ j = c) → cellAt res.nextBoard i j = cellAt board i j) ∧
        res.nextBoard.map List.length = board.map List.length ∧
        ∃ res2, toggleFlagAt res.nextBoard r c = some res2 ∧ res2.changed = true ∧
          res2.nextBoard = board) ∧
      (∀ i j x, cellAt res.nextBoard i j = some x → x.isRevealed = true →
        x.isFlagged = true → cellAt board i j = some x) := by
  have hflip : ∀ i j, cellAt (updateCell board r c fun x => { x with isFlagged := !x.isFlagged }) i j
      = if i = r ∧ j = c then (cellAt board i j).map (fun x => { x with isFlagged := !x.isFlagged })
        else cellAt board i j := fun i j => cellAt_updateCell board r c _ i j
  rcases Bool.eq_false_or_eq_true cell.isRevealed with hr | hr
  · refine ⟨{ nextBoard := board, changed := false }, ?_, fun _ => ⟨rfl, rfl⟩,
      fun h => by rw [hr] at h; simp at h, fun i j x hx _ _ => hx⟩
    unfold toggleFlagAt
    simp [hc, hr]
  · have hres : toggleFlagAt board r c
        = some { nextBoard := updateCell board r c fun x => { x with isFlagged := !x.isFlagged },
                 changed := true } := by
      unfold toggleFlagAt
      simp [hc, hr]
    have hat : cellAt (updateCell board r c fun x => { x with isFlagged := !x.isFlagged }) r c
        = some { cell with isFlagged := !cell.isFlagged } := by
      rw [hflip, if_pos ⟨rfl, rfl⟩, hc]; rfl
    refine ⟨_, hres, fun h => by rw [hr] at h; simp at h, fun _ => ⟨rfl, hat, ?_, ?_, ?_⟩, ?_⟩
    · intro i j hij
      show cellAt (updateCell board r c fun x => { x with isFlagged := !x.isFlagged }) i j = _
      rw [hflip, if_neg hij]
    · exact shape_updateCell board r c _
    · refine ⟨{ nextBoard := board, changed := true }, ?_, rfl, rfl⟩
      show toggleFlagAt (updateCell board r c fun x => { x with isFlagged := !x.isFlagged }) r c
        = _
      unfold toggleFlagAt
      simp only [hat, hr, Bool.false_eq_true, if_false]
      rw [updateCell_updateCell_cancel board r c _ (fun x => by simp)]
    · intro i j x hx hxr hxf
      have hx2 : cellAt (updateCell board r c fun x => { x with isFlagged := !x.isFlagged }) i j
          = some x := hx
      rw [hflip] at hx2
      by_cases hij : i = r ∧ j = c
      · rw [if_pos hij, hij.1, hij.2, hc] at hx2
        simp only [Option.map_some', Option.some.injEq] at hx2
        rw [← hx2] at hxr
        simp [hr] at hxr
      · rw [if_neg hij] at hx2
        exact hx2

theorem toggleFlagAt_spec_witness :
    cellAt flaggedBoard 0 0 = some flaggedMine ∧
    ∃ res, toggleFlagAt flaggedBoard 0 0 = some res ∧
      (flaggedMine.isRevealed = true → res.changed = false ∧ res.nextBoard = flaggedBoard) ∧
      (flaggedMine.isRevealed = false →
        res.changed = true ∧
        cellAt res.nextBoard 0 0
          = some { flaggedMine with isFlagged := !flaggedMine.isFlagged } ∧
        (∀ i j, ¬ (i = 0 ∧ j = 0) → cellAt res.nextBoard i j = cellAt flaggedBoard i j) ∧
        res.nextBoard.map List.length = flaggedBoard.map List.length ∧
        ∃ res2, toggleFlagAt res.nextBoard 0 0 = some res2 ∧ res2.changed = true ∧
          res2.nextBoard = flaggedBoard) ∧
      (∀ i j x, cellAt res.nextBoard i j = some x → x.isRevealed = true →
        x.isFlagged = true → cellAt flaggedBoard i j = some x) :=
  ⟨by decide, toggleFlagAt_spec flaggedBoard 0 0 flaggedMine (by decide)⟩

/-! ## The cascade loop: frame and termination -/

theorem forEachNeighbor_reveal (r c : Int) (s : Board × List Cell) :
    forEachNeighbor (fun s => s.1) r c revealNeighbor s = OFFSETS.foldl (neighborStep r c) s :=
  rfl

theorem RevealsOnly.refl (b : Board) : RevealsOnly b b :=
  ⟨rfl, fun _ _ => Or.inl rfl⟩

theorem RevealsOnly.trans {b1 b2 b3 : Board} (h12 : RevealsOnly b1 b2)
    (h23 : RevealsOnly b2 b3) : RevealsOnly b1 b3 := by
  refine ⟨h23.1.trans h12.1, fun i j => ?_⟩
  rcases h23.2 i j with h | ⟨y, hy, hyr, hyf, hym, hy3⟩
  · rw [h]; exact h12.2 i j
  · rcases h12.2 i j with h | ⟨x, _, _, _, _, hx2⟩
    · right
      exact ⟨y, by rw [← h]; exact hy, hyr, hyf, hym, hy3⟩
    · rw [hx2] at hy
      simp only [Option.some.injEq] at hy
      rw [← hy] at hyr
      simp at hyr

theorem revealsOnly_updateCell {b : Board} {r c : Int} {x : Cell}
    (hx : cellAt b r c = some x) (hr : x.isRevealed = false) (hf : x.isFlagged = false)
    (hm : x.isMine = false) :
    RevealsOnly b (updateCell b r c fun x => { x with isRevealed := true }) := by
  refine ⟨shape_updateCell b r c _, fun i j => ?_⟩
  rw [cellAt_updateCell]
  by_cases hij : i = r ∧ j = c
  · right
    rw [if_pos hij, hij.1, hij.2, hx]
    exact ⟨x, rfl, hr, hf, hm, rfl⟩
  · left
    rw [if_neg hij]

theorem neighborStep_cases (r c : Int) (s : Board × List Cell) (d : Int × Int) :
    (neighborStep r c s d = s ∧
      ∀ n, cellAt s.1 (r + d.1) (c + d.2) = some n →
        n.isRevealed = true ∨ n.isFlagged = true ∨ n.isMine = true) ∨
    ∃ n, cellAt s.1 (r + d.1) (c + d.2) = some n ∧ n.isRevealed = false ∧
      n.isFlagged = false ∧ n.isMine = false ∧
      neighborStep r c s d
        = (updateCell s.1 (r + d.1) (c + d.2) fun x => { x with isRevealed := true },
           if n.neighbor = 0 then s.2 ++ [{ n with isRevealed := true }] else s.2) := by
  unfold neighborStep
  cases hn : cellAt s.1 (r + d.1) (c + d.2) with
  | none => left; exact ⟨rfl, fun n h => by simp at h⟩
  | some n =>
    simp only
    unfold revealNeighbor
    by_cases hcond : (!n.isRevealed && !n.isFlagged && !n.isMine) = true
    · right
      rw [if_pos hcond]
      simp only [Bool.and_eq_true, Bool.not_eq_true'] at hcond
      exact ⟨n, rfl, hcond.1.1, hcond.1.2, hcond.2, rfl⟩
    · left
      rw [if_neg hcond]
      refine ⟨rfl, fun n2 h => ?_⟩
      simp only [Option.some.injEq] at h
      subst h
      cases h1 : n.isRevealed <;> cases h2 : n.isFlagged <;> cases h3 : n.isMine <;>
        simp [h1, h2, h3] at hcond ⊢

theorem neighborStep_revealsOnly (r c : Int) (s : Board × List Cell) (d : Int × Int) :
    RevealsOnly s.1 (neighborStep r c s d).1 := by
  rcases neighborStep_cases r c s d with ⟨h, _⟩ | ⟨n, hn, hr, hf, hm, h⟩
  · rw [h]; exact RevealsOnly.refl _
  · rw [h]; exact revealsOnly_updateCell hn hr hf hm

theorem foldl_neighborStep_revealsOnly (r c : Int) (ds : List (Int × Int))
    (s : Board × List Cell) : RevealsOnly s.1 (ds.foldl (neighborStep r c) s).1 := by
  induction ds generalizing s with
  | nil => exact RevealsOnly.refl _
  | cons d ds ih =>
    rw [List.foldl_cons]
    exact (neighborStep_revealsOnly r c s d).trans (ih _)

theorem unrevealedCount_reveal {b : Board} {r c : Int} {x : Cell}
    (hx : cellAt b r c = some x) (hr : x.isRevealed = false) :
    unrevealedCount (updateCell b r c fun x => { x with isRevealed := true }) + 1
      = unrevealedCount b := by
  have h := countP_updateCell (fun x : Cell => !x.isRevealed) b r c
    (fun x => { x with isRevealed := true }) x hx
  simp only [hr, Bool.not_false, if_true, Bool.not_true, Bool.false_eq_true, if_false,
    Nat.add_zero] at h
  exact h

theorem neighborStep_measure (r c : Int) (s : Board × List Cell) (d : Int × Int) :
    unrevealedCount (neighborStep r c s d).1 + (neighborStep r c s d).2.length
      ≤ unrevealedCount s.1 + s.2.length := by
  rcases neighborStep_cases r c s d with ⟨h, _⟩ | ⟨n, hn, hr, _, _, h⟩
  · rw [h]
  · rw [h]
    have := unrevealedCount_reveal hn hr
    simp only
    split_ifs
    · rw [List.length_append, List.length_singleton]; omega
    · omega

theorem foldl_neighborStep_measure (r c : Int) (ds : List (Int × Int))
    (s : Board × List Cell) :
    unrevealedCount (ds.foldl (neighborStep r c) s).1 + (ds.foldl (neighborStep r c) s).2.length
      ≤ unrevealedCount s.1 + s.2.length := by
  induction ds generalizing s with
  | nil => exact Nat.le_refl _
  | cons d ds ih =>
    rw [List.foldl_cons]
    exact (ih _).trans (neighborStep_measure r c s d)

theorem cascadeLoop_cons (fuel : Nat) (b : Board) (cur : Cell) (q : List Cell) :
    cascadeLoop (fuel + 1) b (cur :: q)
      = cascadeLoop fuel (OFFSETS.foldl (neighborStep cur.row cur.col) (b, q)).1
          (OFFSETS.foldl (neighborStep cur.row cur.col) (b, q)).2 :=
  rfl

/-- The loop ends within the fuel whenever the fuel covers the number of unrevealed
cells plus the length of the queue. -/
theorem cascadeLoop_terminates (fuel : Nat) (b : Board) (q : List Cell)
    (h : unrevealedCount b + q.length ≤ fuel) : ∃ b', cascadeLoop fuel b q = some b' := by
  induction fuel generalizing b q with
  | zero =>
    cases q with
    | nil => exact ⟨b, rfl⟩
    | cons cur q => simp at h
  | succ fuel ih =>
    cases q with
    | nil => exact ⟨b, rfl⟩
    | cons cur q =>
      rw [cascadeLoop_cons]
      apply ih
      have hms : unrevealedCount (OFFSETS.foldl (neighborStep cur.row cur.col) (b, q)).1
          + (OFFSETS.foldl (neighborStep cur.row cur.col) (b, q)).2.length
          ≤ unrevealedCount b + q.length :=
        foldl_neighborStep_measure cur.row cur.col OFFSETS (b, q)
      simp only [List.length_cons] at h
      omega

theorem cascadeLoop_revealsOnly (fuel : Nat) (b : Board) (q : List Cell) (b' : Board)
    (h : cascadeLoop fuel b q = some b') : RevealsOnly b b' := by
  induction fuel generalizing b q with
  | zero =>
    cases q with
    | nil =>
      simp only [cascadeLoop, Option.some.injEq] at h
      rw [← h]; exact RevealsOnly.refl _
    | cons cur q => simp [cascadeLoop] at h
  | succ fuel ih =>
    cases q with
    | nil =>
      simp only [cascadeLoop, Option.some.injEq] at h
      rw [← h]; exact RevealsOnly.refl _
    | cons cur q =>
      rw [cascadeLoop_cons] at h
      exact (foldl_neighborStep_revealsOnly cur.row cur.col OFFSETS (b, q)).trans (ih _ _ h)

theorem unrevealedCount_le (b : Board) : unrevealedCount b ≤ b.flatten.length :=
  List.countP_le_length _

/-- On an unrevealed, unflagged, non-mine start cell `revealCascade` is the loop run on
the board with the start cell revealed, and the loop ends within its fuel. -/
theorem revealCascade_open {b : Board} {r c : Int} {start : Cell}
    (hs : cellAt b r c = some start) (hr : start.isRevealed = false)
    (hf : start.isFlagged = false) (hm : start.isMine = false) :
    ∃ b', cascadeLoop b.flatten.length
        (updateCell b r c fun x => { x with isRevealed := true })
        (if start.neighbor = 0 then [{ start with isRevealed := true }] else []) = some b' ∧
      revealCascade b r c = some { nextBoard := b', exploded := false } := by
  have hmeasure : unrevealedCount (updateCell b r c fun x => { x with isRevealed := true })
      + (if start.neighbor = 0 then [{ start with isRevealed := true }] else []).length
      ≤ b.flatten.length := by
    have h1 := unrevealedCount_reveal hs hr
    have h2 := unrevealedCount_le b
    split_ifs
    · simp only [List.length_singleton]; omega
    · simp only [List.length_nil]; omega
  obtain ⟨b', hb'⟩ := cascadeLoop_terminates _ _ _ hmeasure
  refine ⟨b', hb', ?_⟩
  have hp : push (b, []) start r c
      = (updateCell b r c fun x => { x with isRevealed := true },
         if start.neighbor = 0 then [{ start with isRevealed := true }] else []) := by
    unfold push
    rw [if_pos (by simp [hr, hf])]
    simp only [List.nil_append]
  have e : revealCascade b r c
      = (cascadeLoop b.flatten.length (push (b, []) start r c).1
          (push (b, []) start r c).2).map fun b => { nextBoard := b, exploded := false } := by
    unfold revealCascade
    simp only [hs]
    rw [if_neg (by simp [hr, hf]), if_neg (by simp [hm])]
  rw [e, hp]
  simp only
  rw [hb']
  rfl

/-- On a start cell that is not a mine `revealCascade` returns, does not explode, and
only reveals unrevealed, unflagged, non-mine cells. -/
theorem revealCascade_revealsOnly {b : Board} {r c : Int} {start : Cell}
    (hs : cellAt b r c = some start) (hm : start.isMine = false) :
    ∃ res, revealCascade b r c = some res ∧ res.exploded = false ∧
      RevealsOnly b res.nextBoard := by
  by_cases hcond : start.isRevealed = true ∨ start.isFlagged = true
  · exact ⟨_, revealCascade_closed hs hcond, rfl, RevealsOnly.refl _⟩
  · have hr : start.isRevealed = false := by
      cases h : start.isRevealed
      · rfl
      · exact absurd (Or.inl h) hcond
    have hf : start.isFlagged = false := by
      cases h : start.isFlagged
      · rfl
      · exact absurd (Or.inr h) hcond
    obtain ⟨b', hloop, hres⟩ := revealCascade_open hs hr hf hm
    exact ⟨_, hres, rfl,
      (revealsOnly_updateCell hs hr hf hm).trans (cascadeLoop_revealsOnly _ _ _ _ hloop)⟩

/-! ## The cascade never reveals a mine -/

/-- C7: when the cell at an in-range position is not a mine, whatever the stored
neighbour counts are, `revealCascade` returns with `exploded = false`; every mine that
was unrevealed in the input is the same unrevealed cell in the result, and every
revealed mine of the result was already that revealed cell in the input. -/
theorem revealCascade_spares_mines (board : Board) (r c : Int) (start : Cell)
    (hs : cellAt board r c = some start) (hm : start.isMine = false) :
    ∃ res, revealCascade board r c = some res ∧ res.exploded = false ∧
      (∀ i j x, cellAt board i j = some x → x.isMine = true → x.isRevealed = false →
        cellAt res.nextBoard i j = some x) ∧
      (∀ i j y, cellAt res.nextBoard i j = some y → y.isMine = true → y.isRevealed = true →
        cellAt board i j = some y) := by
  obtain ⟨res, hres, hex, hro⟩ := revealCascade_revealsOnly hs hm
  refine ⟨res, hres, hex, ?_, ?_⟩
  · intro i j x hx hxm _
    rcases hro.2 i j with h | ⟨x2, hx2, _, _, hm2, _⟩
    · rw [h, hx]
    · rw [hx, Option.some.injEq] at hx2
      rw [hx2, hm2] at hxm
      simp at hxm
  · intro i j y hy hym _
    rcases hro.2 i j with h | ⟨x2, _, _, _, hm2, hy2⟩
    · rw [← h, hy]
    · rw [hy, Option.some.injEq] at hy2
      rw [hy2] at hym
      exact absurd hym (by simp [hm2])

theorem revealCascade_spares_mines_witness :
    cellAt minedBoard 0 0 = some (makeCell 0 0) ∧ (makeCell 0 0).isMine = false ∧
    ∃ res, revealCascade minedBoard 0 0 = some res ∧ res.exploded = false ∧
      (∀ i j x, cellAt minedBoard i j = some x → x.isMine = true → x.isRevealed = false →
        cellAt res.nextBoard i j = some x) ∧
      (∀ i j y, cellAt res.nextBoard i j = some y → y.isMine = true → y.isRevealed = true →
        cellAt minedBoard i j = some y) :=
  ⟨by decide, by decide,
    revealCascade_spares_mines minedBoard 0 0 (makeCell 0 0) (by decide) (by decide)⟩

/-! ## The cascade on a plain board -/

theorem RevealsOnly.map_eq {b b' : Board} (h : RevealsOnly b b') {β : Type} (g : Cell → β)
    (hg : ∀ x, g { x with isRevealed := true } = g x) :
    b'.map (List.map g) = b.map (List.map g) := by
  apply board_ext
  · simp only [List.map_map]
    have e : (List.length ∘ List.map g) = List.length := by funext l; simp
    rw [e, h.1]
  · intro i j
    rw [cellAt_map, cellAt_map]
    rcases h.2 i j with h1 | ⟨x, hx, _, _, _, hx'⟩
    · rw [h1]
    · rw [hx, hx']
      simp [hg]

theorem RevealsOnly.wellFormed {b b' : Board} (h : RevealsOnly b b') {rows cols : Nat}
    (hwf : WellFormed rows cols b) : WellFormed rows cols b' := by
  unfold WellFormed
  rw [h.map_eq (fun cell : Cell => (cell.row, cell.col)) (fun _ => rfl)]
  exact hwf

theorem RevealsOnly.stays_revealed {b b' : Board} (h : RevealsOnly b b') {i j : Int}
    {x : Cell} (hx : cellAt b i j = some x) (hr : x.isRevealed = true) :
    cellAt b' i j = some x := by
  rcases h.2 i j with h1 | ⟨x2, hx2, hr2, _, _, _⟩
  · rw [h1, hx]
  · rw [hx, Option.some.injEq] at hx2
    rw [hx2, hr2] at hr
    simp at hr

theorem RevealsOnly.revealed_of {b b' : Board} (h : RevealsOnly b b') {i j : Int}
    (hb : ∀ x, cellAt b i j = some x → x.isRevealed = true)
    {z : Cell} (hz : cellAt b' i j = some z) : z.isRevealed = true := by
  rcases h.2 i j with h1 | ⟨x, _, _, _, _, hx'⟩
  · exact hb z (by rw [← h1]; exact hz)
  · rw [hz, Option.some.injEq] at hx'
    rw [hx']

theorem plain_cellAt {b : Board} (h : Plain b) {i j : Int} {x : Cell}
    (hx : cellAt b i j = some x) : x.isMine = false ∧ x.isFlagged = false ∧ x.neighbor = 0 := by
  obtain ⟨row, hr, hxr⟩ := cellAt_mem hx
  exact h row hr x hxr

theorem RevealsOnly.plain {b b' : Board} (h : RevealsOnly b b') (hp : Plain b) : Plain b' := by
  intro row hrow x hx
  obtain ⟨i, j, hc⟩ := mem_cellAt hrow hx
  rcases h.2 i j with h1 | ⟨x0, hx0, _, _, _, hx'⟩
  · exact plain_cellAt hp (by rw [← h1]; exact hc)
  · rw [hc, Option.some.injEq] at hx'
    rw [hx']
    exact (plain_cellAt hp hx0 : x0.isMine = false ∧ x0.isFlagged = false ∧ x0.neighbor = 0)

theorem neighborStep_queue (r c : Int) (s : Board × List Cell) (d : Int × Int) :
    ∀ y ∈ s.2, y ∈ (neighborStep r c s d).2 := by
  intro y hy
  rcases neighborStep_cases r c s d with ⟨h, _⟩ | ⟨n, _, _, _, _, h⟩
  · rw [h]; exact hy
  · rw [h]
    simp only
    split_ifs
    · exact List.mem_append_left _ hy
    · exact hy

theorem foldl_neighborStep_queue (r c : Int) (ds : List (Int × Int)) (s : Board × List Cell) :
    ∀ y ∈ s.2, y ∈ (ds.foldl (neighborStep r c) s).2 := by
  induction ds generalizing s with
  | nil => exact fun y hy => hy
  | cons d ds ih =>
    intro y hy
    rw [List.foldl_cons]
    exact ih _ y (neighborStep_queue r c s d y hy)

theorem neighborStep_plain {rows cols : Nat} (r c : Int) (s : Board × List Cell)
    (d : Int × Int) (hwf : WellFormed rows cols s.1) (hp : Plain s.1) :
    (∀ z, cellAt (neighborStep r c s d).1 (r + d.1) (c + d.2) = some z → z.isRevealed = true) ∧
    (∀ i j z, cellAt (neighborStep r c s d).1 i j = some z → z.isRevealed = true →
      (∃ z0, cellAt s.1 i j = some z0 ∧ z0.isRevealed = true) ∨
      ∃ y ∈ (neighborStep r c s d).2, y.row = i ∧ y.col = j) := by
  rcases neighborStep_cases r c s d with ⟨h, hclosed⟩ | ⟨n, hn, hr, hf, hm, h⟩
  · rw [h]
    constructor
    · intro z hz
      have hpl := plain_cellAt hp hz
      rcases hclosed z hz with h1 | h1 | h1
      · exact h1
      · rw [hpl.2.1] at h1; simp at h1
      · rw [hpl.1] at h1; simp at h1
    · intro i j z hz hzr
      exact Or.inl ⟨z, hz, hzr⟩
  · have hzero : n.neighbor = 0 := (plain_cellAt hp hn).2.2
    have hpos := hwf.pos hn
    rw [h]
    simp only [hzero, if_true]
    constructor
    · intro z hz
      rw [cellAt_updateCell, if_pos ⟨rfl, rfl⟩, hn] at hz
      simp only [Option.map_some', Option.some.injEq] at hz
      rw [← hz]
    · intro i j z hz hzr
      rw [cellAt_updateCell] at hz
      by_cases hij : i = r + d.1 ∧ j = c + d.2
      · right
        refine ⟨_, List.mem_append_right _ (List.mem_singleton.mpr rfl), ?_, ?_⟩
        · show n.row = i
          rw [hpos.1, hij.1]
        · show n.col = j
          rw [hpos.2.1, hij.2]
      · left
        rw [if_neg hij] at hz
        exact ⟨z, hz, hzr⟩

theorem foldl_neighborStep_plain {rows cols : Nat} (r c : Int) (ds : List (Int × Int))
    (s : Board × List Cell) (hwf : WellFormed rows cols s.1) (hp : Plain s.1) :
    (∀ d ∈ ds, ∀ z, cellAt (ds.foldl (neighborStep r c) s).1 (r + d.1) (c + d.2) = some z →
      z.isRevealed = true) ∧
    (∀ i j z, cellAt (ds.foldl (neighborStep r c) s).1 i j = some z → z.isRevealed = true →
      (∃ z0, cellAt s.1 i j = some z0 ∧ z0.isRevealed = true) ∨
      ∃ y ∈ (ds.foldl (neighborStep r c) s).2, y.row = i ∧ y.col = j) := by
  induction ds generalizing s with
  | nil =>
    exact ⟨fun d hd => by simp at hd, fun i j z hz hzr => Or.inl ⟨z, hz, hzr⟩⟩
  | cons d ds ih =>
    have hro1 := neighborStep_revealsOnly r c s d
    have hwf1 := hro1.wellFormed hwf
    have hp1 := hro1.plain hp
    obtain ⟨hA1, hB1⟩ := neighborStep_plain r c s d hwf hp
    obtain ⟨hA, hB⟩ := ih (neighborStep r c s d) hwf1 hp1
    have hro := foldl_neighborStep_revealsOnly r c ds (neighborStep r c s d)
    rw [List.foldl_cons]
    constructor
    · intro d2 hd2 z hz
      rcases List.mem_cons.mp hd2 with rfl | hd2
      · exact hro.revealed_of hA1 hz
      · exact hA d2 hd2 z hz
    · intro i j z hz hzr
      rcases hB i j z hz hzr with ⟨z1, hz1, hz1r⟩ | hq
      · rcases hB1 i j z1 hz1 hz1r with h0 | ⟨y, hy, hyp⟩
        · exact Or.inl h0
        · exact Or.inr ⟨y, foldl_neighborStep_queue r c ds _ y hy, hyp⟩
      · exact Or.inr hq

/-- One iteration of the loop keeps the frontier invariant on a plain board. -/
theorem frontier_step {rows cols : Nat} (b : Board) (cur : Cell) (q : List Cell)
    (hwf : WellFormed rows cols b) (hp : Plain b) (hfr : Frontier b (cur :: q)) :
    Frontier (OFFSETS.foldl (neighborStep cur.row cur.col) (b, q)).1
      (OFFSETS.foldl (neighborStep cur.row cur.col) (b, q)).2 := by
  obtain ⟨hA, hB⟩ := foldl_neighborStep_plain cur.row cur.col OFFSETS (b, q) hwf hp
  have hro : RevealsOnly b (OFFSETS.foldl (neighborStep cur.row cur.col) (b, q)).1 :=
    foldl_neighborStep_revealsOnly cur.row cur.col OFFSETS (b, q)
  have hQ : ∀ y ∈ q, y ∈ (OFFSETS.foldl (neighborStep cur.row cur.col) (b, q)).2 :=
    foldl_neighborStep_queue cur.row cur.col OFFSETS (b, q)
  intro i j z hz hzr
  rcases hB i j z hz hzr with ⟨z0, hz0, hz0r⟩ | hq
  · rcases hfr i j z0 hz0 hz0r with ⟨y, hy, hy1, hy2⟩ | hall
    · rcases List.mem_cons.mp hy with rfl | hy
      · right
        intro d hd w hw
        rw [← hy1, ← hy2] at hw
        exact hA d hd w hw
      · exact Or.inl ⟨y, hQ y hy, hy1, hy2⟩
    · right
      intro d hd w hw
      exact hro.revealed_of (hall d hd) hw
  · exact Or.inl hq

theorem cascadeLoop_frontier {rows cols : Nat} (fuel : Nat) (b : Board) (q : List Cell)
    (b' : Board) (hwf : WellFormed rows cols b) (hp : Plain b) (hfr : Frontier b q)
    (h : cascadeLoop fuel b q = some b') : Frontier b' [] := by
  induction fuel generalizing b q with
  | zero =>
    cases q with
    | nil =>
      simp only [cascadeLoop, Option.some.injEq] at h
      rw [← h]; exact hfr
    | cons cur q => simp [cascadeLoop] at h
  | succ fuel ih =>
    cases q with
    | nil =>
      simp only [cascadeLoop, Option.some.injEq] at h
      rw [← h]; exact hfr
    | cons cur q =>
      rw [cascadeLoop_cons] at h
      have hro : RevealsOnly b (OFFSETS.foldl (neighborStep cur.row cur.col) (b, q)).1 :=
        foldl_neighborStep_revealsOnly cur.row cur.col OFFSETS (b, q)
      exact ih _ _ (hro.wellFormed hwf) (hro.plain hp) (frontier_step b cur q hwf hp hfr) h

/-! ## Reaching every cell of a plain board -/

theorem interval_induction (P : Int → Prop) (lo hi r : Int) (hr : P r)
    (hup : ∀ i, lo ≤ i → i + 1 < hi → P i → P (i + 1))
    (hdown : ∀ i, lo ≤ i - 1 → i < hi → P i → P (i - 1))
    (hlo : lo ≤ r) (hhi : r < hi) : ∀ i, lo ≤ i → i < hi → P i := by
  intro i h1 h2
  rcases le_total r i with h | h
  · have key : r ≤ i → i < hi → P i :=
      Int.le_induction (P := fun n => n < hi → P n) (fun _ => hr)
        (fun n hn ih hlt => hup n (by omega) hlt (ih (by omega))) i
    exact key h h2
  · have key : i ≤ r → lo ≤ i → P i :=
      Int.le_induction_down (P := fun n => lo ≤ n → P n) (fun _ => hr)
        (fun n hn ih hge => hdown n hge (by omega) (ih (by omega))) i
    exact key h h1

theorem frontier_covers {rows cols : Nat} {b : Board} (hwf : WellFormed rows cols b)
    (hfr : Frontier b []) {r c : Int} {x0 : Cell} (h0 : cellAt b r c = some x0)
    (h0r : x0.isRevealed = true) :
    ∀ i j z, cellAt b i j = some z → z.isRevealed = true := by
  have hclosed : ∀ i j x, cellAt b i j = some x → x.isRevealed = true →
      ∀ d ∈ OFFSETS, ∀ z, cellAt b (i + d.1) (j + d.2) = some z → z.isRevealed = true := by
    intro i j x hx hxr
    rcases hfr i j x hx hxr with ⟨y, hy, _⟩ | h
    · simp at hy
    · exact h
  have hmove : ∀ (d : Int × Int), d ∈ OFFSETS → ∀ i j,
      (∃ x, cellAt b i j = some x ∧ x.isRevealed = true) →
      0 ≤ i + d.1 → i + d.1 < rows → 0 ≤ j + d.2 → j + d.2 < cols →
      ∃ x, cellAt b (i + d.1) (j + d.2) = some x ∧ x.isRevealed = true := by
    intro d hd i j ⟨x, hx, hxr⟩ h1 h2 h3 h4
    obtain ⟨z, hz⟩ := hwf.exists_cell h1 h2 h3 h4
    exact ⟨z, hz, hclosed i j x hx hxr d hd z hz⟩
  have hp0 := hwf.pos h0
  have hcol : ∀ i : Int, 0 ≤ i → i < (rows : Int) →
      ∃ x, cellAt b i c = some x ∧ x.isRevealed = true := by
    refine interval_induction (fun i => ∃ x, cellAt b i c = some x ∧ x.isRevealed = true)
      0 rows r ⟨x0, h0, h0r⟩ ?_ ?_ hp0.2.2.1 hp0.2.2.2.1
    · intro i hi1 hi2 hP
      have := hmove (1, 0) (by decide) i c hP (by simp; omega) (by simp; omega)
        (by simp; omega) (by simp; omega)
      simpa using this
    · intro i hi1 hi2 hP
      have := hmove (-1, 0) (by decide) i c hP (by simp; omega) (by simp; omega)
        (by simp; omega) (by simp; omega)
      simpa [sub_eq_add_neg] using this
  intro i j z hz
  have hpz := hwf.pos hz
  have hrow : ∀ j : Int, 0 ≤ j → j < (cols : Int) →
      ∃ x, cellAt b i j = some x ∧ x.isRevealed = true := by
    refine interval_induction (fun j => ∃ x, cellAt b i j = some x ∧ x.isRevealed = true)
      0 cols c (hcol i hpz.2.2.1 hpz.2.2.2.1) ?_ ?_ hp0.2.2.2.2.1 hp0.2.2.2.2.2
    · intro j hj1 hj2 hP
      have := hmove (0, 1) (by decide) i j hP (by simp; omega) (by simp; omega)
        (by simp; omega) (by simp; omega)
      simpa using this
    · intro j hj1 hj2 hP
      have := hmove (0, -1) (by decide) i j hP (by simp; omega) (by simp; omega)
        (by simp; omega) (by simp; omega)
      simpa [sub_eq_add_neg] using this
  obtain ⟨x, hx, hxr⟩ := hrow j hpz.2.2.2.2.1 hpz.2.2.2.2.2
  rw [hz, Option.some.injEq] at hx
  rw [hx]; exact hxr

theorem noneRevealed_cellAt {b : Board} (h : NoneRevealed b) {i j : Int} {x : Cell}
    (hx : cellAt b i j = some x) : x.isRevealed = false := by
  obtain ⟨row, hr, hxr⟩ := cellAt_mem hx
  exact h row hr x hxr

theorem WellFormed.length_flatten {rows cols : Nat} {b : Board}
    (h : WellFormed rows cols b) : b.flatten.length = rows * cols := by
  rw [List.length_flatten, h.shape]
  simp

/-- On a plain board with nothing revealed the cascade from any in-range cell returns
and reveals every cell. -/
theorem revealCascade_plain {rows cols : Nat} {b : Board} (hwf : WellFormed rows cols b)
    (hp : Plain b) (hn : NoneRevealed b) {r c : Int} {start : Cell}
    (hs : cellAt b r c = some start) :
    ∃ res, revealCascade b r c = some res ∧ res.exploded = false ∧
      RevealsOnly b res.nextBoard ∧
      ∀ i j z, cellAt res.nextBoard i j = some z → z.isRevealed = true := by
  have hst := plain_cellAt hp hs
  have hsr := noneRevealed_cellAt hn hs
  obtain ⟨b', hloop, hres⟩ := revealCascade_open hs hsr hst.2.1 hst.1
  rw [if_pos hst.2.2] at hloop
  have hro1 := revealsOnly_updateCell hs hsr hst.2.1 hst.1
  have hro2 := cascadeLoop_revealsOnly _ _ _ _ hloop
  have hfr1 : Frontier (updateCell b r c fun x => { x with isRevealed := true })
      [{ start with isRevealed := true }] := by
    intro i j x hx hxr
    left
    rw [cellAt_updateCell] at hx
    by_cases hij : i = r ∧ j = c
    · refine ⟨_, List.mem_singleton.mpr rfl, ?_, ?_⟩
      · show start.row = i
        rw [(hwf.pos hs).1, hij.1]
      · show start.col = j
        rw [(hwf.pos hs).2.1, hij.2]
    · rw [if_neg hij] at hx
      rw [noneRevealed_cellAt hn hx] at hxr
      simp at hxr
  have hfr := cascadeLoop_frontier _ _ _ _ (hro1.wellFormed hwf) (hro1.plain hp) hfr1 hloop
  have hstart : cellAt (updateCell b r c fun x => { x with isRevealed := true }) r c
      = some { start with isRevealed := true } := by
    rw [cellAt_updateCell, if_pos ⟨rfl, rfl⟩, hs]; rfl
  have hstart' := hro2.stays_revealed hstart rfl
  exact ⟨_, hres, rfl, hro1.trans hro2,
    frontier_covers (hro2.wellFormed (hro1.wellFormed hwf)) hfr hstart' rfl⟩

/-- C8: on a board of the data model in which no cell is a mine, flagged or revealed and
every stored neighbour count is 0, a single `revealCascade` from any in-range position
returns `exploded = false` and a board of the same dimensions, with `rows * cols` cells,
all of them revealed. -/
theorem revealCascade_blank (rows cols : Nat) (board : Board)
    (hwf : WellFormed rows cols board) (hplain : Plain board) (hnone : NoneRevealed board)
    (r c : Int) (hin : (cellAt board r c).isSome) :
    ∃ res, revealCascade board r c = some res ∧ res.exploded = false ∧
      WellFormed rows cols res.nextBoard ∧ res.nextBoard.flatten.length = rows * cols ∧
      ∀ row ∈ res.nextBoard, ∀ x ∈ row, x.isRevealed = true := by
  obtain ⟨start, hs⟩ := Option.isSome_iff_exists.mp hin
  obtain ⟨res, hres, hex, hro, hall⟩ := revealCascade_plain hwf hplain hnone hs
  refine ⟨res, hres, hex, hro.wellFormed hwf, (hro.wellFormed hwf).length_flatten, ?_⟩
  intro row hrow x hx
  obtain ⟨i, j, hc⟩ := mem_cellAt hrow hx
  exact hall i j x hc

theorem revealCascade_blank_witness :
    WellFormed 3 3 (createEmptyBoard 3 3) ∧ Plain (createEmptyBoard 3 3) ∧
    NoneRevealed (createEmptyBoard 3 3) ∧ (cellAt (createEmptyBoard 3 3) 1 1).isSome ∧
    ∃ res, revealCascade (createEmptyBoard 3 3) 1 1 = some res ∧ res.exploded = false ∧
      WellFormed 3 3 res.nextBoard ∧ res.nextBoard.flatten.length = 3 * 3 ∧
      ∀ row ∈ res.nextBoard, ∀ x ∈ row, x.isRevealed = true :=
  ⟨by decide, by decide, by decide, by decide,
    revealCascade_blank 3 3 (createEmptyBoard 3 3) (by decide) (by decide) (by decide) 1 1
      (by decide)⟩

/-! ## Safe first click -/

theorem cellAt_createEmptyBoard (rows cols : Nat) (i j : Int) :
    cellAt (createEmptyBoard rows cols) i j =
      if 0 ≤ i ∧ i < rows ∧ 0 ≤ j ∧ j < cols then some (makeCell i j) else none := by
  have h : createEmptyBoard rows cols
      = (grid rows cols).map (List.map fun p => makeCell p.1 p.2) := by
    unfold createEmptyBoard grid
    simp [List.map_map, Function.comp_def]
  rw [h, cellAt_map, cellAt_grid]
  split_ifs <;> rfl

theorem toggleFlagAt_map {β : Type} (g : Cell → β)
    (hg : ∀ x, g { x with isFlagged := !x.isFlagged } = g x) {b : Board} {r c : Int}
    {res : ToggleResult} (h : toggleFlagAt b r c = some res) :
    res.nextBoard.map (List.map g) = b.map (List.map g) := by
  cases hc : cellAt b r c with
  | none => simp [toggleFlagAt, hc] at h
  | some cell =>
    simp only [toggleFlagAt, hc] at h
    split_ifs at h
    · simp only [Option.some.injEq] at h
      rw [← h]
    · simp only [Option.some.injEq] at h
      rw [← h]
      exact map_updateCell g _ hg b r c

theorem handleFlag_map {β : Type} (g : Cell → β)
    (hg : ∀ x, g { x with isFlagged := !x.isFlagged } = g x) {mines : Nat} {s s2 : Session}
    {r c : Int} (h : handleFlag mines s r c = some s2) :
    s2.status = s.status ∧ s2.firstClickDone = s.firstClickDone ∧
      s2.board.map (List.map g) = s.board.map (List.map g) := by
  unfold handleFlag at h
  split_ifs at h
  · simp only [Option.some.injEq] at h
    rw [← h]; exact ⟨rfl, rfl, rfl⟩
  · cases ht : toggleFlagAt s.board r c with
    | none => rw [ht] at h; simp at h
    | some res =>
      rw [ht] at h
      simp only at h
      split_ifs at h
      · simp only [Option.some.injEq] at h
        rw [← h]; exact ⟨rfl, rfl, rfl⟩
      · simp only [Option.some.injEq] at h
        rw [← h]
        exact ⟨rfl, rfl, toggleFlagAt_map g hg ht⟩

theorem flagReachable_inv {d : Difficulty} {s : Session} (h : FlagReachable d s) :
    s.status = Status.ready ∧ s.firstClickDone = false ∧
      s.board.map (List.map unflag) = createEmptyBoard d.rows d.cols := by
  induction h with
  | start =>
    refine ⟨rfl, rfl, ?_⟩
    unfold resetGame createEmptyBoard
    simp [List.map_map, Function.comp_def, unflag, makeCell]
  | flag s s2 r c _ hstep ih =>
    obtain ⟨h1, h2, h3⟩ := handleFlag_map unflag (fun _ => rfl) hstep
    exact ⟨h1.trans ih.1, h2.trans ih.2.1, h3.trans ih.2.2⟩

/-- What a board that differs from the empty board only by flags looks like. -/
theorem flagged_empty_cell {rows cols : Nat} {b : Board}
    (h : b.map (List.map unflag) = createEmptyBoard rows cols) {i j : Int} {x : Cell}
    (hx : cellAt b i j = some x) :
    x.isMine = false ∧ x.isRevealed = false ∧ x.neighbor = 0 := by
  have e := cellAt_map unflag b i j
  rw [h, cellAt_createEmptyBoard, hx] at e
  split_ifs at e
  · simp only [Option.map_some', Option.some.injEq] at e
    have e1 := congrArg Cell.isMine e
    have e2 := congrArg Cell.isRevealed e
    have e3 := congrArg Cell.neighbor e
    exact ⟨e1.symm, e2.symm, e3.symm⟩
  · simp at e

theorem flagged_empty_wellFormed {rows cols : Nat} {b : Board}
    (h : b.map (List.map unflag) = createEmptyBoard rows cols) : WellFormed rows cols b := by
  have e : b.map (List.map fun cell => (cell.row, cell.col))
      = (b.map (List.map unflag)).map (List.map fun cell => (cell.row, cell.col)) := by
    simp [List.map_map, Function.comp_def, unflag]
  unfold WellFormed
  rw [e, h]
  exact wellFormed_createEmptyBoard rows cols

theorem chosen_not_safe {rows cols : Nat} {b : Board} (hwf : WellFormed rows cols b)
    {draw : Draws} {r c : Int} {m : Nat} {i j : Int}
    (hmem : (i, j) ∈ (shuffle draw (eligibleCoords rows cols (bannedKeys b r c))).take m) :
    ¬ InSafeZone r c i j := by
  intro hz
  obtain ⟨⟨h1, h2, h3, h4⟩, hnb⟩ := mem_chosen hmem
  obtain ⟨cell, hc⟩ := hwf.exists_cell h1 h2 h3 h4
  exact hnb ((mem_bannedKeys hwf r c (i, j) (by rw [hc]; rfl)).mpr hz)

theorem cellAt_autoFlag (b : Board) (i j : Int) :
    cellAt (autoFlag b) i j
      = (cellAt b i j).map fun cell => if cell.isMine then { cell with isFlagged := true } else cell :=
  cellAt_map _ b i j

/-- On a board that differs from the empty board only by flags, the first-click
placement returns and leaves the clicked cell exactly as it was. -/
theorem lazyPlace_click_cell {rows cols : Nat} {b : Board}
    (himg : b.map (List.map unflag) = createEmptyBoard rows cols) (draw : Draws) (r c : Int)
    (m : Nat) {cell : Cell} (hc : cellAt b r c = some cell) :
    ∃ w, lazyPlaceMinesAfterFirstClick draw b r c m = some w ∧ cellAt w r c = some cell := by
  have hwf := flagged_empty_wellFormed himg
  have hpos := hwf.pos hc
  have hrows : 0 < rows := by omega
  obtain ⟨placed, next, _, hnext, _, _, hpt, hrc, _⟩ := lazyPlace_spec hwf hrows draw r c m
  have hkeep : ∀ i j, InSafeZone r c i j → cellAt placed i j = cellAt b i j := by
    intro i j hz
    rw [hpt]
    cases hb : cellAt b i j with
    | none => rfl
    | some x =>
      simp only [Option.map_some', Option.some.injEq]
      rw [if_neg (fun hmem => chosen_not_safe hwf hmem hz)]
  have hzero : mineNeighbors placed r c = 0 := by
    unfold mineNeighbors
    rw [List.countP_eq_zero]
    intro d hd
    rw [hkeep _ _ (Or.inr ((isNeighbor_iff r c _ _).mpr ⟨d, hd, rfl, rfl⟩))]
    cases hb : cellAt b (r + d.1) (c + d.2) with
    | none => simp
    | some x => simp [(flagged_empty_cell himg hb).1]
  have hcell := flagged_empty_cell himg hc
  refine ⟨next, hnext, ?_⟩
  rw [hrc, hkeep r c (Or.inl ⟨rfl, rfl⟩), hc]
  simp only [Option.map_some', Option.some.injEq]
  obtain ⟨row, col, im, ir, ifl, nb⟩ := cell
  simp only at hcell hpos
  obtain ⟨h1, _, h3⟩ := hcell
  subst h1 h3
  unfold recount
  simp only [Bool.false_eq_true, if_false, hpos.1, hpos.2.1, hzero]

theorem handleOpen_first {mines : Nat} {draw : Draws} {s : Session} {r c : Int} {w : Board}
    {cell : Cell} (hst : s.status = Status.ready) (hfc : s.firstClickDone = false)
    (hw : lazyPlaceMinesAfterFirstClick draw s.board r c mines = some w)
    (hcell : cellAt w r c = some cell) :
    handleOpen mines draw s r c =
      if (cell.isRevealed || cell.isFlagged) = true then
        some { s with firstClickDone := true, status := Status.playing }
      else
        match revealCascade w r c with
        | none => none
        | some res =>
          some (settle mines { s with firstClickDone := true, status := Status.playing }
            res.nextBoard res.exploded) := by
  unfold handleOpen
  rw [if_neg (by rw [hst]; simp)]
  simp only [hfc, Bool.not_false, if_true, hw, Option.map_some', hcell]

theorem settle_safe (mines : Nat) (s : Session) (b : Board) :
    (settle mines s b false).status ≠ Status.lost ∨ s.status = Status.lost := by
  unfold settle
  simp only [Bool.false_eq_true, if_false]
  split_ifs
  · left; simp
  · by_cases h : s.status = Status.lost
    · right; exact h
    · left; exact h

theorem settle_safe_cell (mines : Nat) (s : Session) (b : Board) {r c : Int} {y : Cell}
    (hy : cellAt b r c = some y) (hm : y.isMine = false) :
    cellAt (settle mines s b false).board r c = some y := by
  unfold settle
  simp only [Bool.false_eq_true, if_false]
  split_ifs
  · show cellAt (autoFlag b) r c = some y
    rw [cellAt_autoFlag, hy]
    simp [hm]
  · exact hy

/-- C4: for every difficulty (in particular each of the three presets), every session
state reached from a new game by flag actions only has status Ready, and from such a
state the open action at any in-range position, under any table of shuffle draws, returns
a session whose status is not Lost; if the clicked cell is not flagged, the resulting
board holds at that position a cell that is revealed, is not a mine and has neighbour
count 0. -/
theorem handleOpen_first_click_safe (d : Difficulty) (s : Session)
    (hreach : FlagReachable d s) (draw : Draws) (r c : Int) (cell : Cell)
    (hc : cellAt s.board r c = some cell) :
    s.status = Status.ready ∧
    ∃ s2, handleOpen d.mines draw s r c = some s2 ∧ s2.status ≠ Status.lost ∧
      (cell.isFlagged = false →
        ∃ y, cellAt s2.board r c = some y ∧ y.isRevealed = true ∧ y.isMine = false ∧
          y.neighbor = 0) := by
  obtain ⟨hst, hfc, himg⟩ := flagReachable_inv hreach
  refine ⟨hst, ?_⟩
  obtain ⟨w, hw, hwc⟩ := lazyPlace_click_cell himg draw r c d.mines hc
  obtain ⟨hm, hr, hn⟩ := flagged_empty_cell himg hc
  rw [handleOpen_first hst hfc hw hwc]
  rcases Bool.eq_false_or_eq_true cell.isFlagged with hf | hf
  · rw [if_pos (by simp [hf])]
    exact ⟨_, rfl, by simp, fun h => by rw [hf] at h; simp at h⟩
  · rw [if_neg (by simp [hr, hf])]
    obtain ⟨b', hloop, hres⟩ := revealCascade_open hwc hr hf hm
    rw [hres]
    have hat : cellAt (updateCell w r c fun x => { x with isRevealed := true }) r c
        = some { cell with isRevealed := true } := by
      rw [cellAt_updateCell, if_pos ⟨rfl, rfl⟩, hwc]; rfl
    have hb' : cellAt b' r c = some { cell with isRevealed := true } :=
      (cascadeLoop_revealsOnly _ _ _ _ hloop).stays_revealed hat rfl
    refine ⟨_, rfl, ?_, fun _ => ⟨{ cell with isRevealed := true }, ?_, rfl, hm, hn⟩⟩
    · rcases settle_safe d.mines { s with firstClickDone := true, status := Status.playing } b'
        with h | h
      · exact h
      · simp at h
    · exact settle_safe_cell d.mines _ b' hb' hm

theorem handleOpen_first_click_safe_witness :
    FlagReachable { rows := 9, cols := 9, mines := 10 }
      (resetGame { rows := 9, cols := 9, mines := 10 }) ∧
    cellAt (resetGame { rows := 9, cols := 9, mines := 10 }).board 4 4 = some (makeCell 4 4) ∧
    (resetGame { rows := 9, cols := 9, mines := 10 }).status = Status.ready ∧
    ∃ s2, handleOpen 10 halfDraws (resetGame { rows := 9, cols := 9, mines := 10 }) 4 4
        = some s2 ∧ s2.status ≠ Status.lost ∧
      ((makeCell 4 4).isFlagged = false →
        ∃ y, cellAt s2.board 4 4 = some y ∧ y.isRevealed = true ∧ y.isMine = false ∧
          y.neighbor = 0) :=
  ⟨FlagReachable.start, by decide,
    handleOpen_first_click_safe { rows := 9, cols := 9, mines := 10 } _ FlagReachable.start
      halfDraws 4 4 (makeCell 4 4) (by decide)⟩

/-! ## Terminal states -/

/-- C11: in a session whose status is Won or Lost, each of the open, flag and chord
actions at any position (in range or not, whatever the shuffle draws) returns the
session itself: same board, status, flag counter and first-click marker. -/
theorem terminal_actions_noop (mines : Nat) (draw : Draws) (s : Session) (r c : Int)
    (h : s.status = Status.won ∨ s.status = Status.lost) :
    handleOpen mines draw s r c = some s ∧ handleFlag mines s r c = some s ∧
      handleChord mines s r c = some s := by
  refine ⟨?_, ?_, ?_⟩
  · unfold handleOpen
    rw [if_pos h]
  · unfold handleFlag
    rw [if_pos h]
  · unfold handleChord
    rw [if_pos (by rcases h with h | h <;> rw [h] <;> decide)]

theorem terminal_actions_noop_witness :
    (lostSession.status = Status.won ∨ lostSession.status = Status.lost) ∧
    (handleOpen 1 halfDraws lostSession 0 1 = some lostSession ∧
      handleFlag 1 lostSession 0 1 = some lostSession ∧
      handleChord 1 lostSession 0 1 = some lostSession) :=
  ⟨Or.inr rfl, terminal_actions_noop 1 halfDraws lostSession 0 1 (Or.inr rfl)⟩

/-! ## The first click on a flagged cell -/

theorem reachable_of_runActions {d : Difficulty} {s s2 : Session} (as : List Action)
    (hs : Reachable d s) (h : runActions d.mines s as = some s2) : Reachable d s2 := by
  induction as generalizing s with
  | nil =>
    simp only [runActions, Option.some.injEq] at h
    rw [← h]; exact hs
  | cons a rest ih =>
    cases ha : act d.mines s a with
    | none => simp [runActions, ha] at h
    | some s1 =>
      simp only [runActions, ha] at h
      exact ih (Reachable.step s s1 a hs ha) h

theorem flaggedStart_run :
    runActions beginner.mines (resetGame beginner) [Action.flagCell 0 0] = some flaggedStart := by
  decide

theorem flaggedStart_image :
    flaggedStart.board.map (List.map unflag) = createEmptyBoard 9 9 := by
  decide

/-- The open handler on a flagged cell before the first click: the first-click marker and
the status are written, the board with the mines is dropped. -/
theorem handleOpen_flaggedStart (draw : Draws) :
    handleOpen beginner.mines draw flaggedStart 0 0 = some flaggedStarted := by
  have hc : cellAt flaggedStart.board 0 0
      = some { makeCell 0 0 with isFlagged := true } := by decide
  obtain ⟨w, hw, hwc⟩ := lazyPlace_click_cell flaggedStart_image draw 0 0 beginner.mines hc
  rw [handleOpen_first rfl rfl hw hwc]
  rfl

/-- C12 (evaluation at the failing input): in the beginner game, after flagging `(0, 0)`
the session is Ready with the first-click marker unset and the cell at `(0, 0)` flagged;
the open action at `(0, 0)` then returns, for every table of shuffle draws, a session
with the same board but status Playing and the first-click marker set. -/
theorem open_flagged_in_ready_changes_session :
    runActions beginner.mines (resetGame beginner) [Action.flagCell 0 0] = some flaggedStart ∧
    flaggedStart.status = Status.ready ∧ flaggedStart.firstClickDone = false ∧
    (∃ cell, cellAt flaggedStart.board 0 0 = some cell ∧ cell.isFlagged = true) ∧
    ∀ draw : Draws, ∃ s2, handleOpen beginner.mines draw flaggedStart 0 0 = some s2 ∧
      s2.board = flaggedStart.board ∧ s2.flagsLeft = flaggedStart.flagsLeft ∧
      s2.status = Status.playing ∧ s2.firstClickDone = true ∧ s2 ≠ flaggedStart :=
  ⟨flaggedStart_run, rfl, rfl,
    ⟨{ makeCell 0 0 with isFlagged := true }, by decide, rfl⟩,
    fun draw => ⟨flaggedStarted, handleOpen_flaggedStart draw, rfl, rfl, rfl, rfl, by decide⟩⟩

/-- C16 (evaluation at the failing input): in the beginner game, flagging `(0, 0)` and
then opening `(0, 0)` reaches a session with status Playing whose board holds no mine,
although the preset asks for 10. -/
theorem playing_without_mines :
    beginner ∈ DIFFICULTIES ∧
    ∃ s, Reachable beginner s ∧ s.status = Status.playing ∧ mineCount s.board = 0 ∧
      mineCount s.board ≠ beginner.mines := by
  refine ⟨by decide, flaggedStarted, ?_, rfl, by decide, by decide⟩
  have h1 : Reachable beginner flaggedStart :=
    reachable_of_runActions _ Reachable.start flaggedStart_run
  exact Reachable.step flaggedStart flaggedStarted (Action.openCell halfDraws 0 0) h1
    (handleOpen_flaggedStart halfDraws)

/-! ## The gate of the chord action -/

theorem foldl_countFlags (b : Board) (r c : Int) (l : List (Int × Int)) (acc : Nat) :
    l.foldl
      (fun (cnt : Nat) d =>
        match cellAt b (r + d.1) (c + d.2) with
        | some n => if n.isFlagged then cnt + 1 else cnt
        | none => cnt) acc
    = acc + l.countP fun d => (cellAt b (r + d.1) (c + d.2)).any fun n => n.isFlagged := by
  induction l generalizing acc with
  | nil => simp
  | cons d l ih =>
    rw [List.foldl_cons, ih, List.countP_cons]
    cases h : cellAt b (r + d.1) (c + d.2) with
    | none => simp
    | some n =>
      by_cases hm : n.isFlagged = true
      · simp only [Option.any_some, hm, if_true]
        omega
      · simp only [Option.any_some, hm, if_false]
        simp

theorem cellNeighborFlags_eq (b : Board) (r c : Int) :
    cellNeighborFlags b r c = flaggedNeighbors b r c := by
  exact (foldl_countFlags b r c around 0).trans (Nat.zero_add _)

theorem option_eq_some_getD {α : Type} (o : Option α) (d : α) (h : o.isSome = true) :
    o = some (o.getD d) := by
  cases o with
  | none => simp at h
  | some x => rfl

set_option maxRecDepth 100000 in
theorem blankChordState_run :
    runActions beginner.mines (resetGame beginner) blankChordActions = some blankChordState :=
  option_eq_some_getD _ _ (by decide)

set_option maxRecDepth 100000 in
theorem blankChordState_cells :
    (cellAt blankChordState.board 1 8).map (fun x => (x.isRevealed, x.neighbor))
      = some (true, 0) ∧
    (cellAt blankChordState.board 0 8).map (fun x => x.isRevealed) = some false := by
  decide

set_option maxRecDepth 100000 in
theorem blankChordState_chord :
    (handleChord beginner.mines blankChordState 1 8).bind
      (fun s2 => (cellAt s2.board 0 8).map fun x => x.isRevealed) = some true := by
  decide

/-- C13 (divergence of the code): the beginner game reaches, by flagging `(0, 8)`,
opening `(4, 4)` and unflagging `(0, 8)`, a session in which the cell at `(1, 8)` is
revealed with neighbour count 0 and the cell at `(0, 8)` is not revealed; the chord
action at `(1, 8)` does not return that session: it returns one in which `(0, 8)` is
revealed. -/
theorem chord_on_blank_cell_changes_session :
    Reachable beginner blankChordState ∧
    (∃ cell, cellAt blankChordState.board 1 8 = some cell ∧ cell.isRevealed = true ∧
      cell.neighbor = 0) ∧
    (∃ x, cellAt blankChordState.board 0 8 = some x ∧ x.isRevealed = false) ∧
    (∃ s2, handleChord beginner.mines blankChordState 1 8 = some s2 ∧
      ∃ y, cellAt s2.board 0 8 = some y ∧ y.isRevealed = true) ∧
    handleChord beginner.mines blankChordState 1 8 ≠ some blankChordState := by
  refine ⟨reachable_of_runActions _ Reachable.start blankChordState_run, ?_, ?_, ?_, ?_⟩
  · have h := blankChordState_cells.1
    cases hc : cellAt blankChordState.board 1 8 with
    | none => rw [hc] at h; simp at h
    | some cell =>
      rw [hc] at h
      simp only [Option.map_some', Option.some.injEq, Prod.mk.injEq] at h
      exact ⟨cell, rfl, h.1, h.2⟩
  · obtain ⟨x, hx, hxr⟩ := Option.map_eq_some'.mp blankChordState_cells.2
    exact ⟨x, hx, hxr⟩
  · obtain ⟨s2, hs2, hb⟩ := Option.bind_eq_some.mp blankChordState_chord
    obtain ⟨y, hy, hyr⟩ := Option.map_eq_some'.mp hb
    exact ⟨s2, hs2, y, hy, hyr⟩
  · intro h
    have h1 := blankChordState_chord
    rw [h, Option.some_bind, blankChordState_cells.2] at h1
    simp at h1

/-- The gate of `handleChord`: for every session and in-range position, if the status is
not Playing, or the target cell is not revealed, or the number of its flagged in-range
neighbours differs from its neighbour count, the chord action returns the session
unchanged. The gate has no test on the neighbour count being positive. -/
theorem handleChord_gate (mines : Nat) (s : Session) (r c : Int) (cell : Cell)
    (hc : cellAt s.board r c = some cell)
    (h : s.status ≠ Status.playing ∨ cell.isRevealed = false ∨
      flaggedNeighbors s.board r c ≠ cell.neighbor) :
    handleChord mines s r c = some s := by
  unfold handleChord
  by_cases hst : s.status ≠ Status.playing
  · rw [if_pos hst]
  · rw [if_neg hst]
    simp only [hc]
    rw [if_pos]
    rcases h with h | h | h
    · exact absurd h hst
    · simp [h]
    · rw [cellNeighborFlags_eq]
      simp only [Bool.or_eq_true, bne_iff_ne]
      exact Or.inr (fun e => h e.symm)

theorem handleChord_gate_witness :
    cellAt flaggedStarted.board 0 0 = some { makeCell 0 0 with isFlagged := true } ∧
    (flaggedStarted.status ≠ Status.playing ∨
      ({ makeCell 0 0 with isFlagged := true } : Cell).isRevealed = false ∨
      flaggedNeighbors flaggedStarted.board 0 0
        ≠ ({ makeCell 0 0 with isFlagged := true } : Cell).neighbor) ∧
    handleChord 10 flaggedStarted 0 0 = some flaggedStarted :=
  ⟨by decide, Or.inr (Or.inl rfl),
    handleChord_gate 10 flaggedStarted 0 0 { makeCell 0 0 with isFlagged := true } (by decide)
      (Or.inr (Or.inl rfl))⟩

/-! ## Every outcome of `revealCascade` -/

theorem RevealsOnly.opensOnly {b b' : Board} (h : RevealsOnly b b') : OpensOnly b b' := by
  refine ⟨h.1, fun i j => ?_⟩
  rcases h.2 i j with h1 | ⟨x, hx, hr, hf, _, hx'⟩
  · exact Or.inl h1
  · exact Or.inr ⟨x, hx, hr, hf, hx'⟩

theorem OpensOnly.opens_refl (b : Board) : OpensOnly b b :=
  ⟨rfl, fun _ _ => Or.inl rfl⟩

theorem OpensOnly.opens_trans {b1 b2 b3 : Board} (h12 : OpensOnly b1 b2) (h23 : OpensOnly b2 b3) :
    OpensOnly b1 b3 := by
  refine ⟨h23.1.trans h12.1, fun i j => ?_⟩
  rcases h23.2 i j with h | ⟨y, hy, hyr, hyf, hy3⟩
  · rw [h]; exact h12.2 i j
  · rcases h12.2 i j with h | ⟨x, _, _, _, hx2⟩
    · right
      exact ⟨y, by rw [← h]; exact hy, hyr, hyf, hy3⟩
    · rw [hx2] at hy
      simp only [Option.some.injEq] at hy
      rw [← hy] at hyr
      simp at hyr

theorem opensOnly_updateCell {b : Board} {r c : Int} {x : Cell}
    (hx : cellAt b r c = some x) (hr : x.isRevealed = false) (hf : x.isFlagged = false) :
    OpensOnly b (updateCell b r c fun x => { x with isRevealed := true }) := by
  refine ⟨shape_updateCell b r c _, fun i j => ?_⟩
  rw [cellAt_updateCell]
  by_cases hij : i = r ∧ j = c
  · right
    rw [if_pos hij, hij.1, hij.2, hx]
    exact ⟨x, rfl, hr, hf, rfl⟩
  · left
    rw [if_neg hij]

theorem OpensOnly.keeps_revealed {b b' : Board} (h : OpensOnly b b') {i j : Int}
    {x : Cell} (hx : cellAt b i j = some x) (hr : x.isRevealed = true) :
    cellAt b' i j = some x := by
  rcases h.2 i j with h1 | ⟨x2, hx2, hr2, _, _⟩
  · rw [h1, hx]
  · rw [hx, Option.some.injEq] at hx2
    rw [hx2, hr2] at hr
    simp at hr

theorem OpensOnly.image_eq {b b' : Board} (h : OpensOnly b b') {β : Type} (g : Cell → β)
    (hg : ∀ x, g { x with isRevealed := true } = g x) :
    b'.map (List.map g) = b.map (List.map g) := by
  apply board_ext
  · simp only [List.map_map]
    have e : (List.length ∘ List.map g) = List.length := by funext l; simp
    rw [e, h.1]
  · intro i j
    rw [cellAt_map, cellAt_map]
    rcases h.2 i j with h1 | ⟨x, hx, _, _, hx'⟩
    · rw [h1]
    · rw [hx, hx']
      simp [hg]

theorem OpensOnly.cell_exists {b b' : Board} (h : OpensOnly b b') {i j : Int} {x : Cell}
    (hx : cellAt b i j = some x) :
    ∃ y, cellAt b' i j = some y ∧ y.isMine = x.isMine ∧ y.isFlagged = x.isFlagged ∧
      y.neighbor = x.neighbor ∧ (x.isRevealed = true → y.isRevealed = true) := by
  rcases h.2 i j with h1 | ⟨x2, hx2, _, _, hx'⟩
  · exact ⟨x, by rw [h1, hx], rfl, rfl, rfl, fun h => h⟩
  · rw [hx, Option.some.injEq] at hx2
    subst hx2
    exact ⟨_, hx', rfl, rfl, rfl, fun _ => rfl⟩

theorem isHiddenMine_iff (x : Cell) :
    x.isHiddenMine = true ↔ x.isMine = true ∧ x.isRevealed = false ∧ x.isFlagged = false := by
  unfold Cell.isHiddenMine
  cases x.isMine <;> cases x.isRevealed <;> cases x.isFlagged <;> simp

/-- Every call of `revealCascade` at an in-range position returns. It explodes exactly on
a hidden mine, and then only that cell changes; otherwise only safe cells are opened;
and an unflagged target is revealed afterwards. -/
theorem revealCascade_total {b : Board} {r c : Int} {start : Cell}
    (hs : cellAt b r c = some start) :
    ∃ res, revealCascade b r c = some res ∧
      (res.exploded = start.isHiddenMine) ∧
      (start.isHiddenMine = false → RevealsOnly b res.nextBoard) ∧
      (start.isHiddenMine = true →
        res.nextBoard = updateCell b r c fun x => { x with isRevealed := true }) ∧
      (start.isFlagged = false →
        ∃ y, cellAt res.nextBoard r c = some y ∧ y.isRevealed = true) := by
  by_cases hcond : start.isRevealed = true ∨ start.isFlagged = true
  · have hnm : start.isHiddenMine = false := by
      unfold Cell.isHiddenMine
      rcases hcond with h | h <;> simp [h]
    refine ⟨_, revealCascade_closed hs hcond, hnm.symm, fun _ => RevealsOnly.refl _,
      fun h => by rw [hnm] at h; simp at h, fun hf => ?_⟩
    rcases hcond with h | h
    · exact ⟨start, hs, h⟩
    · rw [hf] at h; simp at h
  · have hr : start.isRevealed = false := by
      cases h : start.isRevealed
      · rfl
      · exact absurd (Or.inl h) hcond
    have hf : start.isFlagged = false := by
      cases h : start.isFlagged
      · rfl
      · exact absurd (Or.inr h) hcond
    have hat : cellAt (updateCell b r c fun x => { x with isRevealed := true }) r c
        = some { start with isRevealed := true } := by
      rw [cellAt_updateCell, if_pos ⟨rfl, rfl⟩, hs]; rfl
    rcases Bool.eq_false_or_eq_true start.isMine with hm | hm
    · have hhm : start.isHiddenMine = true := by
        unfold Cell.isHiddenMine; simp [hm, hr, hf]
      refine ⟨{ nextBoard := updateCell b r c fun x => { x with isRevealed := true },
                exploded := true }, ?_, hhm.symm, fun h => by rw [hhm] at h; simp at h,
        fun _ => rfl, fun _ => ⟨_, hat, rfl⟩⟩
      unfold revealCascade
      simp [hs, hm, hr, hf]
    · have hhm : start.isHiddenMine = false := by
        unfold Cell.isHiddenMine; simp [hm]
      obtain ⟨b', hloop, hres⟩ := revealCascade_open hs hr hf hm
      have hro2 := cascadeLoop_revealsOnly _ _ _ _ hloop
      refine ⟨_, hres, hhm.symm,
        fun _ => (revealsOnly_updateCell hs hr hf hm).trans hro2,
        fun h => by rw [hhm] at h; simp at h,
        fun _ => ⟨_, hro2.stays_revealed hat rfl, rfl⟩⟩

/-! ## The chord loop -/

theorem chordStep_spec {s : Board × Bool} {p : Int × Int} {target : Cell}
    (ht : cellAt s.1 p.1 p.2 = some target) :
    ∃ s2, chordStep s p = some s2 ∧ OpensOnly s.1 s2.1 ∧
      (s2.2 = true ↔ s.2 = true ∨ target.isHiddenMine = true) ∧
      (target.isFlagged = false → ∃ y, cellAt s2.1 p.1 p.2 = some y ∧ y.isRevealed = true) ∧
      (∀ i j x, cellAt s.1 i j = some x → x.isMine = true →
        cellAt s2.1 i j = some x ∨ (i = p.1 ∧ j = p.2 ∧ x.isHiddenMine = true)) := by
  by_cases hcond : (!target.isRevealed && !target.isFlagged) = true
  · obtain ⟨res, hres, hex, hsafe, hmine, hrev⟩ := revealCascade_total ht
    have hstep : chordStep s p = some (res.nextBoard, if res.exploded then true else s.2) := by
      unfold chordStep
      simp only [ht, hcond, if_true, hres]
    refine ⟨_, hstep, ?_, ?_, hrev, ?_⟩
    · rcases Bool.eq_false_or_eq_true target.isHiddenMine with hm | hm
      · rw [hmine hm]
        simp only [Bool.and_eq_true, Bool.not_eq_true'] at hcond
        exact opensOnly_updateCell ht hcond.1 hcond.2
      · exact (hsafe hm).opensOnly
    · simp only [hex]
      rcases Bool.eq_false_or_eq_true target.isHiddenMine with hm | hm
      · simp [hm]
      · simp [hm]
    · intro i j x hx hxm
      rcases Bool.eq_false_or_eq_true target.isHiddenMine with hm | hm
      · simp only [hmine hm]
        rw [cellAt_updateCell]
        by_cases hij : i = p.1 ∧ j = p.2
        · right
          rw [hij.1, hij.2, ht, Option.some.injEq] at hx
          exact ⟨hij.1, hij.2, by rw [← hx]; exact hm⟩
        · left
          rw [if_neg hij]; exact hx
      · left
        rcases (hsafe hm).2 i j with h1 | ⟨x2, hx2, _, _, hm2, _⟩
        · rw [h1]; exact hx
        · rw [hx, Option.some.injEq] at hx2
          rw [hx2, hm2] at hxm
          simp at hxm
  · have hnm : target.isHiddenMine = false := by
      unfold Cell.isHiddenMine
      cases h1 : target.isRevealed <;> cases h2 : target.isFlagged <;>
        simp [h1, h2] at hcond ⊢
    have hstep : chordStep s p = some s := by
      unfold chordStep
      simp only [ht, hcond]
      rfl
    refine ⟨s, hstep, OpensOnly.opens_refl _, by simp [hnm], fun hf => ?_, fun i j x hx _ => Or.inl hx⟩
    cases h1 : target.isRevealed
    · simp [h1, hf] at hcond
    · exact ⟨target, ht, h1⟩

theorem chordLoop_spec (ps : List (Int × Int)) (s : Board × Bool)
    (hin : ∀ p ∈ ps, (cellAt s.1 p.1 p.2).isSome) :
    ∃ s2, chordLoop s ps = some s2 ∧ OpensOnly s.1 s2.1 ∧
      (s2.2 = true ↔ s.2 = true ∨
        ∃ p ∈ ps, ∃ x, cellAt s.1 p.1 p.2 = some x ∧ x.isHiddenMine = true) ∧
      (∀ p ∈ ps, ∀ x, cellAt s.1 p.1 p.2 = some x → x.isFlagged = false →
        ∃ y, cellAt s2.1 p.1 p.2 = some y ∧ y.isRevealed = true) ∧
      (∀ i j x, cellAt s.1 i j = some x → x.isMine = true →
        cellAt s2.1 i j = some x ∨ ((i, j) ∈ ps ∧ x.isHiddenMine = true)) := by
  induction ps generalizing s with
  | nil =>
    exact ⟨s, rfl, OpensOnly.opens_refl _, by simp, fun p hp => by simp at hp,
      fun i j x hx _ => Or.inl hx⟩
  | cons p rest ih =>
    obtain ⟨target, ht⟩ := Option.isSome_iff_exists.mp (hin p (List.mem_cons_self _ _))
    obtain ⟨s1, hs1, ho1, hflag1, hrev1, hmine1⟩ := chordStep_spec ht
    have hin1 : ∀ q ∈ rest, (cellAt s1.1 q.1 q.2).isSome := by
      intro q hq
      obtain ⟨x, hx⟩ := Option.isSome_iff_exists.mp (hin q (List.mem_cons_of_mem _ hq))
      obtain ⟨y, hy, _⟩ := ho1.cell_exists hx
      rw [hy]; rfl
    obtain ⟨s2, hs2, ho2, hflag2, hrev2, hmine2⟩ := ih s1 hin1
    refine ⟨s2, ?_, ho1.opens_trans ho2, ?_, ?_, ?_⟩
    · show (match chordStep s p with
        | none => none
        | some s2 => chordLoop s2 rest) = some s2
      rw [hs1]; exact hs2
    · rw [hflag2, hflag1]
      constructor
      · rintro ((h | h) | ⟨q, hq, x, hx, hxm⟩)
        · exact Or.inl h
        · exact Or.inr ⟨p, List.mem_cons_self _ _, target, ht, h⟩
        · right
          refine ⟨q, List.mem_cons_of_mem _ hq, x, ?_, hxm⟩
          rcases ho1.2 q.1 q.2 with h1 | ⟨x0, _, _, _, hx1⟩
          · rw [← h1]; exact hx
          · rw [hx, Option.some.injEq] at hx1
            rw [hx1] at hxm
            simp [Cell.isHiddenMine] at hxm
      · rintro (h | ⟨q, hq, x, hx, hxm⟩)
        · exact Or.inl (Or.inl h)
        · rcases List.mem_cons.mp hq with rfl | hq
          · rw [ht, Option.some.injEq] at hx
            rw [← hx] at hxm
            exact Or.inl (Or.inr hxm)
          · rcases hmine1 q.1 q.2 x hx ((isHiddenMine_iff x).mp hxm).1 with h1 | ⟨_, _, _⟩
            · exact Or.inr ⟨q, hq, x, h1, hxm⟩
            · left; right
              have e : q = p := Prod.ext (by assumption) (by assumption)
              rw [e, ht, Option.some.injEq] at hx
              rw [hx]; exact hxm
    · intro q hq x hx hxf
      rcases List.mem_cons.mp hq with rfl | hq
      · rw [ht, Option.some.injEq] at hx
        obtain ⟨y, hy, hyr⟩ := hrev1 (by rw [hx]; exact hxf)
        exact ⟨y, ho2.keeps_revealed hy hyr, hyr⟩
      · obtain ⟨y, hy, _, hyf, _, _⟩ := ho1.cell_exists hx
        exact hrev2 q hq y hy (by rw [hyf]; exact hxf)
    · intro i j x hx hxm
      rcases hmine1 i j x hx hxm with h1 | ⟨hi, hj, hh⟩
      · rcases hmine2 i j x h1 hxm with h2 | ⟨hm, hh⟩
        · exact Or.inl h2
        · exact Or.inr ⟨List.mem_cons_of_mem _ hm, hh⟩
      · right
        refine ⟨?_, hh⟩
        have e : (i, j) = p := Prod.ext hi hj
        rw [e]; exact List.mem_cons_self _ _

/-! ## The chord action -/

theorem foldl_neighborsPos (b : Board) (r c : Int) (l : List (Int × Int))
    (acc : List (Int × Int)) :
    l.foldl
      (fun (res : List (Int × Int)) d =>
        match cellAt b (r + d.1) (c + d.2) with
        | some _ => res ++ [(r + d.1, c + d.2)]
        | none => res) acc
    = acc ++ l.filterMap
        (fun d => (cellAt b (r + d.1) (c + d.2)).map fun _ => (r + d.1, c + d.2)) := by
  induction l generalizing acc with
  | nil => simp
  | cons d l ih =>
    rw [List.foldl_cons, ih]
    cases h : cellAt b (r + d.1) (c + d.2) with
    | none => simp [List.filterMap_cons, h]
    | some n => simp [List.filterMap_cons, h]

theorem mem_getNeighborsPos (b : Board) (r c : Int) (p : Int × Int) :
    p ∈ getNeighborsPos b r c ↔
      ∃ d ∈ OFFSETS, p = (r + d.1, c + d.2) ∧ (cellAt b p.1 p.2).isSome := by
  have h : getNeighborsPos b r c = OFFSETS.filterMap
      (fun d => (cellAt b (r + d.1) (c + d.2)).map fun _ => (r + d.1, c + d.2)) :=
    (foldl_neighborsPos b r c ds []).trans (List.nil_append _)
  rw [h, List.mem_filterMap]
  constructor
  · rintro ⟨d, hd, hp⟩
    cases hc : cellAt b (r + d.1) (c + d.2) with
    | none => rw [hc] at hp; simp at hp
    | some n =>
      rw [hc] at hp
      simp only [Option.map_some', Option.some.injEq] at hp
      refine ⟨d, hd, hp.symm, ?_⟩
      rw [← hp, hc]; rfl
  · rintro ⟨d, hd, hp, hsome⟩
    refine ⟨d, hd, ?_⟩
    rw [hp] at hsome
    obtain ⟨n, hn⟩ := Option.isSome_iff_exists.mp hsome
    simp only at hn
    rw [hn, hp]; rfl

theorem settle_status_lost (mines : Nat) (s : Session) (b : Board) (e : Bool)
    (hs : s.status ≠ Status.lost) : (settle mines s b e).status = Status.lost ↔ e = true := by
  unfold settle
  cases e with
  | true => simp
  | false =>
    simp only [Bool.false_eq_true, if_false, iff_false]
    split_ifs
    · simp
    · exact hs

theorem settle_keeps_revealed (mines : Nat) (s : Session) (b : Board) {i j : Int} {y : Cell}
    (hy : cellAt b i j = some y) (hr : y.isRevealed = true) :
    ∃ z, cellAt (settle mines s b false).board i j = some z ∧ z.isRevealed = true := by
  unfold settle
  simp only [Bool.false_eq_true, if_false]
  split_ifs
  · show ∃ z, cellAt (autoFlag b) i j = some z ∧ z.isRevealed = true
    rw [cellAt_autoFlag, hy]
    by_cases hm : y.isMine = true
    · exact ⟨{ y with isFlagged := true }, by simp [hm], hr⟩
    · exact ⟨y, by simp [hm], hr⟩
  · exact ⟨y, hy, hr⟩

/-- Past its gate the chord action is the loop over the neighbour positions followed by
the common tail. -/
theorem handleChord_run (mines : Nat) {s : Session} {r c : Int} {cell : Cell}
    (hst : s.status = Status.playing) (hc : cellAt s.board r c = some cell)
    (hr : cell.isRevealed = true) (hn : cell.neighbor = flaggedNeighbors s.board r c) :
    ∃ w, chordLoop (s.board, false) (getNeighborsPos s.board r c) = some w ∧
      handleChord mines s r c = some (settle mines s w.1 w.2) ∧
      OpensOnly s.board w.1 ∧
      (w.2 = true ↔ ∃ d ∈ OFFSETS, ∃ x, cellAt s.board (r + d.1) (c + d.2) = some x ∧
        x.isHiddenMine = true) ∧
      (∀ d ∈ OFFSETS, ∀ x, cellAt s.board (r + d.1) (c + d.2) = some x → x.isFlagged = false →
        ∃ y, cellAt w.1 (r + d.1) (c + d.2) = some y ∧ y.isRevealed = true) ∧
      (∀ i j x, cellAt s.board i j = some x → x.isMine = true →
        cellAt w.1 i j = some x ∨ w.2 = true) := by
  have hin : ∀ p ∈ getNeighborsPos s.board r c, (cellAt (s.board, false).1 p.1 p.2).isSome := by
    intro p hp
    obtain ⟨_, _, _, h⟩ := (mem_getNeighborsPos s.board r c p).mp hp
    exact h
  obtain ⟨w, hw, ho, hflag, hrev, hmine⟩ := chordLoop_spec _ (s.board, false) hin
  refine ⟨w, hw, ?_, ho, ?_, ?_, ?_⟩
  · unfold handleChord
    rw [if_neg (by rw [hst]; simp)]
    simp only [hc]
    rw [if_neg (by rw [cellNeighborFlags_eq, hn, hr]; simp), hw]
  · rw [hflag]
    simp only [Bool.false_eq_true, false_or]
    constructor
    · rintro ⟨p, hp, x, hx, hxm⟩
      obtain ⟨d, hd, hpd, _⟩ := (mem_getNeighborsPos s.board r c p).mp hp
      rw [hpd] at hx
      exact ⟨d, hd, x, hx, hxm⟩
    · rintro ⟨d, hd, x, hx, hxm⟩
      exact ⟨(r + d.1, c + d.2),
        (mem_getNeighborsPos s.board r c _).mpr ⟨d, hd, rfl, by simp only; rw [hx]; rfl⟩,
        x, hx, hxm⟩
  · intro d hd x hx hxf
    exact hrev (r + d.1, c + d.2)
      ((mem_getNeighborsPos s.board r c _).mpr ⟨d, hd, rfl, by simp only; rw [hx]; rfl⟩)
      x hx hxf
  · intro i j x hx hxm
    rcases hmine i j x hx hxm with h | ⟨hmem, h⟩
    · exact Or.inl h
    · exact Or.inr (hflag.mpr (Or.inr ⟨(i, j), hmem, x, hx, h⟩))

/-- C14: in a session with status Playing, at a revealed cell whose neighbour count
equals the number of its flagged neighbours, the chord action returns a session whose
status is Lost if and only if some in-range neighbour that is neither revealed nor
flagged is a mine; and when no such neighbour is a mine, the status is not Lost and every
neighbour that was neither revealed nor flagged is revealed in the resulting board. -/
theorem handleChord_spec (mines : Nat) (s : Session) (r c : Int) (cell : Cell)
    (hst : s.status = Status.playing) (hc : cellAt s.board r c = some cell)
    (hr : cell.isRevealed = true) (hn : cell.neighbor = flaggedNeighbors s.board r c) :
    ∃ s2, handleChord mines s r c = some s2 ∧
      (s2.status = Status.lost ↔
        ∃ d ∈ OFFSETS, ∃ x, cellAt s.board (r + d.1) (c + d.2) = some x ∧
          x.isRevealed = false ∧ x.isFlagged = false ∧ x.isMine = true) ∧
      ((∀ d ∈ OFFSETS, ∀ x, cellAt s.board (r + d.1) (c + d.2) = some x →
          x.isRevealed = false → x.isFlagged = false → x.isMine = false) →
        s2.status ≠ Status.lost ∧
        ∀ d ∈ OFFSETS, ∀ x, cellAt s.board (r + d.1) (c + d.2) = some x →
          x.isRevealed = false → x.isFlagged = false →
          ∃ y, cellAt s2.board (r + d.1) (c + d.2) = some y ∧ y.isRevealed = true) := by
  obtain ⟨w, _, hrun, _, hflag, hrev, _⟩ := handleChord_run mines hst hc hr hn
  have hiff : (settle mines s w.1 w.2).status = Status.lost ↔
      ∃ d ∈ OFFSETS, ∃ x, cellAt s.board (r + d.1) (c + d.2) = some x ∧
        x.isRevealed = false ∧ x.isFlagged = false ∧ x.isMine = true := by
    rw [settle_status_lost mines s w.1 w.2 (by rw [hst]; simp), hflag]
    constructor
    · rintro ⟨d, hd, x, hx, hxm⟩
      obtain ⟨h1, h2, h3⟩ := (isHiddenMine_iff x).mp hxm
      exact ⟨d, hd, x, hx, h2, h3, h1⟩
    · rintro ⟨d, hd, x, hx, h2, h3, h1⟩
      exact ⟨d, hd, x, hx, (isHiddenMine_iff x).mpr ⟨h1, h2, h3⟩⟩
  refine ⟨_, hrun, hiff, fun hsafe => ?_⟩
  have hnl : ¬ (settle mines s w.1 w.2).status = Status.lost := by
    rw [hiff]
    rintro ⟨d, hd, x, hx, h2, h3, h1⟩
    rw [hsafe d hd x hx h2 h3] at h1
    simp at h1
  refine ⟨hnl, fun d hd x hx _ hxf => ?_⟩
  have hw2 : w.2 = false := by
    cases h : w.2
    · rfl
    · exact absurd ((settle_status_lost mines s w.1 w.2 (by rw [hst]; simp)).mpr h) hnl
  obtain ⟨y, hy, hyr⟩ := hrev d hd x hx hxf
  rw [hw2]
  exact settle_keeps_revealed mines s w.1 hy hyr

set_option maxRecDepth 100000 in
theorem handleChord_spec_witness :
    chordSession.status = Status.playing ∧
    (∃ cell, cellAt chordSession.board 1 1 = some cell ∧ cell.isRevealed = true ∧
      cell.neighbor = 1 ∧ cell.neighbor = flaggedNeighbors chordSession.board 1 1) ∧
    ∃ s2, handleChord 1 chordSession 1 1 = some s2 ∧
      (s2.status = Status.lost ↔
        ∃ d ∈ OFFSETS, ∃ x, cellAt chordSession.board (1 + d.1) (1 + d.2) = some x ∧
          x.isRevealed = false ∧ x.isFlagged = false ∧ x.isMine = true) ∧
      ((∀ d ∈ OFFSETS, ∀ x, cellAt chordSession.board (1 + d.1) (1 + d.2) = some x →
          x.isRevealed = false → x.isFlagged = false → x.isMine = false) →
        s2.status ≠ Status.lost ∧
        ∀ d ∈ OFFSETS, ∀ x, cellAt chordSession.board (1 + d.1) (1 + d.2) = some x →
          x.isRevealed = false → x.isFlagged = false →
          ∃ y, cellAt s2.board (1 + d.1) (1 + d.2) = some y ∧ y.isRevealed = true) :=
  ⟨rfl,
    ⟨{ row := 1, col := 1, isMine := false, isRevealed := true, isFlagged := false,
       neighbor := 1 }, by decide, rfl, rfl, by decide⟩,
    handleChord_spec 1 chordSession 1 1
      { row := 1, col := 1, isMine := false, isRevealed := true, isFlagged := false,
        neighbor := 1 } rfl (by decide) rfl (by decide)⟩

/-! ## Boards of reachable sessions -/

theorem Tidy.revealsOnly {b b' : Board} (h : Tidy b) (hro : RevealsOnly b b') : Tidy b' := by
  intro i j y hy
  rcases hro.2 i j with h1 | ⟨x, hx, _, hf, hm, hx'⟩
  · exact h i j y (by rw [← h1]; exact hy)
  · rw [hy, Option.some.injEq] at hx'
    rw [hx']
    exact ⟨fun h2 => by rw [show x.isMine = true from h2] at hm; simp at hm, fun _ => hf⟩

theorem Tidy.toggle {b : Board} (h : Tidy b) {r c : Int} {cell : Cell}
    (hc : cellAt b r c = some cell) (hr : cell.isRevealed = false) :
    Tidy (updateCell b r c fun x => { x with isFlagged := !x.isFlagged }) := by
  intro i j y hy
  rw [cellAt_updateCell] at hy
  by_cases hij : i = r ∧ j = c
  · rw [if_pos hij, hij.1, hij.2, hc] at hy
    simp only [Option.map_some', Option.some.injEq] at hy
    rw [← hy]
    exact ⟨fun _ => hr, fun h2 => by rw [show cell.isRevealed = true from h2] at hr; simp at hr⟩
  · rw [if_neg hij] at hy
    exact h i j y hy

theorem Tidy.autoFlag {b : Board} (h : Tidy b) : Tidy (autoFlag b) ∧ MinesFlagged (autoFlag b) := by
  constructor
  · intro i j y hy
    rw [cellAt_autoFlag] at hy
    cases hb : cellAt b i j with
    | none => rw [hb] at hy; simp at hy
    | some x =>
      rw [hb] at hy
      simp only [Option.map_some', Option.some.injEq] at hy
      have hx := h i j x hb
      by_cases hm : x.isMine = true
      · rw [if_pos hm] at hy
        rw [← hy]
        exact ⟨fun _ => hx.1 hm, fun h2 => by
          have := hx.1 hm
          rw [show x.isRevealed = true from h2] at this
          simp at this⟩
      · rw [if_neg hm] at hy
        rw [← hy]; exact hx
  · intro i j y hy hym
    rw [cellAt_autoFlag] at hy
    cases hb : cellAt b i j with
    | none => rw [hb] at hy; simp at hy
    | some x =>
      rw [hb] at hy
      simp only [Option.map_some', Option.some.injEq] at hy
      by_cases hm : x.isMine = true
      · rw [if_pos hm] at hy
        rw [← hy]
      · rw [if_neg hm] at hy
        rw [← hy] at hym
        exact absurd hym hm

theorem cellAt_exposeMines (b : Board) (i j : Int) :
    cellAt (exposeMines b) i j
      = (cellAt b i j).map fun cell =>
          if cell.isMine then { cell with isRevealed := true } else cell :=
  cellAt_map _ b i j

theorem exposed_exposeMines {b : Board}
    (h : ∀ i j x, cellAt b i j = some x → x.isRevealed = true → x.isFlagged = true →
      x.isMine = true) : Exposed (exposeMines b) := by
  intro i j y hy
  rw [cellAt_exposeMines] at hy
  cases hb : cellAt b i j with
  | none => rw [hb] at hy; simp at hy
  | some x =>
    rw [hb] at hy
    simp only [Option.map_some', Option.some.injEq] at hy
    by_cases hm : x.isMine = true
    · rw [if_pos hm] at hy
      rw [← hy]
      exact ⟨fun _ => rfl, fun _ _ => hm⟩
    · rw [if_neg hm] at hy
      rw [← hy]
      exact ⟨fun h2 => absurd h2 hm, h i j x hb⟩

theorem Tidy.flagged_revealed {b : Board} (h : Tidy b) :
    ∀ i j x, cellAt b i j = some x → x.isRevealed = true → x.isFlagged = true →
      x.isMine = true := by
  intro i j x hx hr hf
  rw [(h i j x hx).2 hr] at hf
  simp at hf

theorem opened_flagged_revealed {b b' : Board} (h : Tidy b) (ho : OpensOnly b b') :
    ∀ i j y, cellAt b' i j = some y → y.isRevealed = true → y.isFlagged = true →
      y.isMine = true := by
  intro i j y hy hr hf
  rcases ho.2 i j with h1 | ⟨x, _, _, hxf, hx'⟩
  · exact h.flagged_revealed i j y (by rw [← h1]; exact hy) hr hf
  · rw [hy, Option.some.injEq] at hx'
    rw [hx'] at hf
    rw [show x.isFlagged = true from hf] at hxf
    simp at hxf

theorem tidy_of_flagged_empty {rows cols : Nat} {b : Board}
    (h : b.map (List.map unflag) = createEmptyBoard rows cols) : Tidy b := by
  intro i j x hx
  obtain ⟨hm, hr, _⟩ := flagged_empty_cell h hx
  exact ⟨fun _ => hr, fun h2 => by rw [hr] at h2; simp at h2⟩

/-- The first-click placement on a board that differs from the empty board only by flags
returns a board on which nothing is revealed. -/
theorem lazyPlace_tidy {rows cols : Nat} {b : Board}
    (himg : b.map (List.map unflag) = createEmptyBoard rows cols) (hrows : 0 < rows)
    (draw : Draws) (r c : Int) (m : Nat) :
    ∃ w, lazyPlaceMinesAfterFirstClick draw b r c m = some w ∧ Tidy w := by
  have hwf := flagged_empty_wellFormed himg
  obtain ⟨placed, next, _, hnext, _, _, hpt, hrc, _⟩ := lazyPlace_spec hwf hrows draw r c m
  refine ⟨next, hnext, ?_⟩
  intro i j y hy
  rw [hrc, hpt] at hy
  cases hb : cellAt b i j with
  | none => rw [hb] at hy; simp at hy
  | some x =>
    rw [hb] at hy
    simp only [Option.map_some', Option.some.injEq] at hy
    have hr : y.isRevealed = false := by
      rw [← hy]
      have := (flagged_empty_cell himg hb).2.1
      split_ifs <;> exact this
    exact ⟨fun _ => hr, fun h2 => by rw [hr] at h2; simp at h2⟩

/-! ## The session invariant -/

theorem settle_safe_inv (d : Difficulty) {s : Session} {b : Board}
    (hfc : s.firstClickDone = true) (hst : s.status = Status.playing) (hb : Tidy b) :
    SessionInv d (settle d.mines s b false) ∧ (settle d.mines s b false).status ≠ Status.lost := by
  unfold settle
  simp only [Bool.false_eq_true, if_false]
  split_ifs
  · refine ⟨⟨fun h => ?_, fun h => ?_, fun _ => hb.autoFlag.1, fun _ => hb.autoFlag.2,
      fun h => ?_⟩, by simp⟩
    · simp only [hfc] at h; simp at h
    · simp at h
    · simp at h
  · refine ⟨⟨fun h => ?_, fun h => ?_, fun _ => hb, fun h => ?_, fun h => ?_⟩, ?_⟩
    · simp only [hfc] at h; simp at h
    · simp only [hst] at h; simp at h
    · simp only [hst] at h; simp at h
    · simp only [hst] at h; simp at h
    · simp only [hst]; simp

theorem settle_exploded_inv (d : Difficulty) {s : Session} {b : Board}
    (hfc : s.firstClickDone = true)
    (hb : ∀ i j x, cellAt b i j = some x → x.isRevealed = true → x.isFlagged = true →
      x.isMine = true) :
    SessionInv d (settle d.mines s b true) ∧ (settle d.mines s b true).status = Status.lost := by
  unfold settle
  simp only [if_true]
  refine ⟨⟨fun h => ?_, fun h => ?_, fun h => ?_, fun h => ?_, fun _ => exposed_exposeMines hb⟩,
    trivial⟩
  · simp only [hfc] at h; simp at h
  · simp at h
  · simp at h
  · simp at h

theorem SessionInv.no_hidden_mine {d : Difficulty} {s : Session} (h : SessionInv d s)
    (hst : s.status = Status.ready ∨ s.status = Status.won) {i j : Int} {x : Cell}
    (hx : cellAt s.board i j = some x) : x.isHiddenMine = false := by
  unfold Cell.isHiddenMine
  rcases hst with hst | hst
  · have := (flagged_empty_cell (h.1 (h.2.1 hst)).2 hx).1
    simp [this]
  · cases hm : x.isMine
    · simp
    · have := h.2.2.2.1 hst i j x hx hm
      simp [this]

theorem handleFlag_inv {d : Difficulty} {s s2 : Session} {r c : Int} (h : SessionInv d s)
    (hstep : handleFlag d.mines s r c = some s2) :
    SessionInv d s2 ∧ s2.status = s.status := by
  by_cases hterm : s.status = Status.won ∨ s.status = Status.lost
  · simp only [handleFlag, if_pos hterm, Option.some.injEq] at hstep
    rw [← hstep]; exact ⟨h, rfl⟩
  · have hnl : s.status ≠ Status.lost := fun e => hterm (Or.inr e)
    have hnw : s.status ≠ Status.won := fun e => hterm (Or.inl e)
    cases hc : cellAt s.board r c with
    | none => simp [handleFlag, hterm, toggleFlagAt, hc] at hstep
    | some cell =>
      rcases Bool.eq_false_or_eq_true cell.isRevealed with hr | hr
      · simp only [handleFlag, if_neg hterm, toggleFlagAt, hc, hr, if_true, Bool.not_false,
          Option.some.injEq] at hstep
        rw [← hstep]; exact ⟨h, rfl⟩
      · simp only [handleFlag, if_neg hterm, toggleFlagAt, hc, hr, Bool.false_eq_true, if_false,
          Bool.not_true, Option.some.injEq] at hstep
        rw [← hstep]
        refine ⟨⟨fun hfc => ?_, h.2.1, fun _ => (h.2.2.1 hnl).toggle hc hr,
          fun e => absurd e hnw, fun e => absurd e hnl⟩, rfl⟩
        obtain ⟨h1, h2⟩ := h.1 hfc
        refine ⟨h1, ?_⟩
        show (updateCell s.board r c fun x => { x with isFlagged := !x.isFlagged }).map
          (List.map unflag) = _
        rw [map_updateCell unflag (fun x => { x with isFlagged := !x.isFlagged }) (fun _ => rfl),
          h2]

theorem handleOpen_later {mines : Nat} {draw : Draws} {s : Session} {r c : Int} {cell : Cell}
    (hterm : ¬ (s.status = Status.won ∨ s.status = Status.lost))
    (hfc : s.firstClickDone = true) (hc : cellAt s.board r c = some cell) :
    handleOpen mines draw s r c =
      if (cell.isRevealed || cell.isFlagged) = true then some s
      else
        match revealCascade s.board r c with
        | none => none
        | some res => some (settle mines s res.nextBoard res.exploded) := by
  unfold handleOpen
  rw [if_neg hterm]
  simp only [hfc, Bool.not_true, Bool.false_eq_true, if_false, hc]

theorem handleOpen_none_of_cell {mines : Nat} {draw : Draws} {s : Session} {r c : Int}
    (hterm : ¬ (s.status = Status.won ∨ s.status = Status.lost))
    (hfc : s.firstClickDone = true) (hc : cellAt s.board r c = none) :
    handleOpen mines draw s r c = none := by
  unfold handleOpen
  rw [if_neg hterm]
  simp only [hfc, Bool.not_true, Bool.false_eq_true, if_false, hc]

theorem handleOpen_first_none {mines : Nat} {draw : Draws} {s : Session} {r c : Int}
    (hst : s.status = Status.ready) (hfc : s.firstClickDone = false)
    (hw : lazyPlaceMinesAfterFirstClick draw s.board r c mines = none) :
    handleOpen mines draw s r c = none := by
  unfold handleOpen
  rw [if_neg (by rw [hst]; simp)]
  simp only [hfc, Bool.not_false, if_true, hw, Option.map_none']

theorem handleOpen_first_none_cell {mines : Nat} {draw : Draws} {s : Session} {r c : Int}
    {w : Board} (hst : s.status = Status.ready) (hfc : s.firstClickDone = false)
    (hw : lazyPlaceMinesAfterFirstClick draw s.board r c mines = some w)
    (hcell : cellAt w r c = none) :
    handleOpen mines draw s r c = none := by
  unfold handleOpen
  rw [if_neg (by rw [hst]; simp)]
  simp only [hfc, Bool.not_false, if_true, hw, Option.map_some', hcell]

/-- What the first-click placement returns on a board that differs from the empty board
only by flags: nothing is revealed, and the clicked cell is the input cell. -/
theorem first_click_board {rows cols : Nat} {b w : Board}
    (himg : b.map (List.map unflag) = createEmptyBoard rows cols) {draw : Draws} {r c : Int}
    {m : Nat} (hw : lazyPlaceMinesAfterFirstClick draw b r c m = some w) {cell : Cell}
    (hcw : cellAt w r c = some cell) :
    Tidy w ∧ cellAt b r c = some cell ∧ cell.isMine = false ∧ cell.isRevealed = false := by
  have hwf := flagged_empty_wellFormed himg
  have hrows : 0 < rows := by
    rcases Nat.eq_zero_or_pos rows with h0 | h0
    · have hl := hwf.length
      rw [h0, List.length_eq_zero] at hl
      rw [hl, lazyPlace_nil] at hw
      simp at hw
    · exact h0
  obtain ⟨w2, hw2, htidy⟩ := lazyPlace_tidy himg hrows draw r c m
  rw [hw, Option.some.injEq] at hw2
  subst hw2
  obtain ⟨_, next, _, hnext, _, _, hpt, hrc, _⟩ := lazyPlace_spec hwf hrows draw r c m
  rw [hw, Option.some.injEq] at hnext
  subst hnext
  cases hb : cellAt b r c with
  | none => rw [hrc, hpt, hb] at hcw; simp at hcw
  | some x =>
    obtain ⟨w3, hw3, hc3⟩ := lazyPlace_click_cell himg draw r c m hb
    rw [hw, Option.some.injEq] at hw3
    subst hw3
    rw [hcw, Option.some.injEq] at hc3
    subst hc3
    obtain ⟨hm, hr, _⟩ := flagged_empty_cell himg hb
    exact ⟨htidy, rfl, hm, hr⟩

theorem handleOpen_inv {d : Difficulty} {s s2 : Session} {draw : Draws} {r c : Int}
    (h : SessionInv d s) (hstep : handleOpen d.mines draw s r c = some s2) :
    SessionInv d s2 ∧
      (s.status ≠ Status.lost →
        (s2.status = Status.lost ↔ ∃ x, cellAt s.board r c = some x ∧ x.isHiddenMine = true)) := by
  by_cases hterm : s.status = Status.won ∨ s.status = Status.lost
  · simp only [handleOpen, if_pos hterm, Option.some.injEq] at hstep
    rw [← hstep]
    refine ⟨h, fun hnl => ⟨fun e => absurd e hnl, ?_⟩⟩
    rintro ⟨x, hx, hxm⟩
    have hw : s.status = Status.won := by
      rcases hterm with e | e
      · exact e
      · exact absurd e hnl
    rw [h.no_hidden_mine (Or.inr hw) hx] at hxm
    simp at hxm
  · have hnl : s.status ≠ Status.lost := fun e => hterm (Or.inr e)
    have hnw : s.status ≠ Status.won := fun e => hterm (Or.inl e)
    rcases Bool.eq_false_or_eq_true s.firstClickDone with hfc | hfc
    · -- a later click
      have hst : s.status = Status.playing := by
        cases hs : s.status
        · have := h.2.1 hs; rw [hfc] at this; simp at this
        · rfl
        · exact absurd hs hnw
        · exact absurd hs hnl
      cases hc : cellAt s.board r c with
      | none => rw [handleOpen_none_of_cell hterm hfc hc] at hstep; simp at hstep
      | some cell =>
        rw [handleOpen_later hterm hfc hc] at hstep
        by_cases hg : (cell.isRevealed || cell.isFlagged) = true
        · rw [if_pos hg, Option.some.injEq] at hstep
          rw [← hstep]
          refine ⟨h, fun _ => ⟨fun e => absurd e hnl, ?_⟩⟩
          rintro ⟨x, hx, hxm⟩
          rw [Option.some.injEq] at hx
          rw [← hx] at hxm
          obtain ⟨_, h2, h3⟩ := (isHiddenMine_iff cell).mp hxm
          rw [h2, h3] at hg
          simp at hg
        · rw [if_neg hg] at hstep
          have hr : cell.isRevealed = false := by
            cases e : cell.isRevealed
            · rfl
            · rw [e] at hg; simp at hg
          have hf : cell.isFlagged = false := by
            cases e : cell.isFlagged
            · rfl
            · rw [e] at hg; simp at hg
          obtain ⟨res, hres, hex, hsafe, hmine, _⟩ := revealCascade_total hc
          rw [hres] at hstep
          simp only [Option.some.injEq] at hstep
          rw [← hstep, hex]
          rcases Bool.eq_false_or_eq_true cell.isHiddenMine with hm | hm
          · rw [hm]
            have hinv := settle_exploded_inv d (s := s) (b := res.nextBoard) hfc
              (opened_flagged_revealed (h.2.2.1 hnl)
                (by rw [hmine hm]; exact opensOnly_updateCell hc hr hf))
            exact ⟨hinv.1, fun _ => ⟨fun _ => ⟨cell, rfl, hm⟩, fun _ => hinv.2⟩⟩
          · rw [hm]
            have hinv := settle_safe_inv d (s := s) (b := res.nextBoard) hfc hst
              ((h.2.2.1 hnl).revealsOnly (hsafe hm))
            refine ⟨hinv.1, fun _ => ⟨fun e => absurd e hinv.2, ?_⟩⟩
            rintro ⟨x, hx, hxm⟩
            rw [Option.some.injEq] at hx
            rw [← hx, hm] at hxm
            simp at hxm
    · -- the first click
      obtain ⟨hst, himg⟩ := h.1 hfc
      have hnomine : ¬ ∃ x, cellAt s.board r c = some x ∧ x.isHiddenMine = true := by
        rintro ⟨x, hx, hxm⟩
        rw [h.no_hidden_mine (Or.inl hst) hx] at hxm
        simp at hxm
      cases hw : lazyPlaceMinesAfterFirstClick draw s.board r c d.mines with
      | none => rw [handleOpen_first_none hst hfc hw] at hstep; simp at hstep
      | some w =>
        cases hcw : cellAt w r c with
        | none => rw [handleOpen_first_none_cell hst hfc hw hcw] at hstep; simp at hstep
        | some cell =>
          obtain ⟨htidy, _, hm, hr⟩ := first_click_board himg hw hcw
          rw [handleOpen_first hst hfc hw hcw] at hstep
          rcases Bool.eq_false_or_eq_true cell.isFlagged with hf | hf
          · rw [if_pos (by simp [hf]), Option.some.injEq] at hstep
            rw [← hstep]
            refine ⟨⟨fun e => by simp at e, fun e => by simp at e,
              fun _ => tidy_of_flagged_empty himg, fun e => by simp at e,
              fun e => by simp at e⟩, fun _ => ⟨fun e => by simp at e, fun e => absurd e hnomine⟩⟩
          · rw [if_neg (by simp [hr, hf])] at hstep
            obtain ⟨b', hloop, hres⟩ := revealCascade_open hcw hr hf hm
            rw [hres] at hstep
            simp only [Option.some.injEq] at hstep
            rw [← hstep]
            have hro := (revealsOnly_updateCell hcw hr hf hm).trans
              (cascadeLoop_revealsOnly _ _ _ _ hloop)
            have hinv := settle_safe_inv d
              (s := { s with firstClickDone := true, status := Status.playing }) (b := b')
              rfl rfl (htidy.revealsOnly hro)
            exact ⟨hinv.1, fun _ => ⟨fun e => absurd e hinv.2, fun e => absurd e hnomine⟩⟩

theorem handleChord_inv {d : Difficulty} {s s2 : Session} {r c : Int}
    (h : SessionInv d s) (hstep : handleChord d.mines s r c = some s2) :
    SessionInv d s2 ∧
      (s.status ≠ Status.lost →
        (s2.status = Status.lost ↔ RevealsMine s (Action.chordCell r c))) := by
  by_cases hst : s.status = Status.playing
  · have hnl : s.status ≠ Status.lost := by rw [hst]; simp
    have hfc : s.firstClickDone = true := by
      cases e : s.firstClickDone
      · have := (h.1 e).1; rw [hst] at this; simp at this
      · rfl
    cases hc : cellAt s.board r c with
    | none => simp [handleChord, hst, hc] at hstep
    | some cell =>
      by_cases hgate : cell.isRevealed = true ∧ cell.neighbor = flaggedNeighbors s.board r c
      · obtain ⟨w, _, hrun, ho, hflag, _, hmine⟩ :=
          handleChord_run d.mines hst hc hgate.1 hgate.2
        rw [hrun, Option.some.injEq] at hstep
        rw [← hstep]
        have hiff : w.2 = true ↔ RevealsMine s (Action.chordCell r c) := by
          rw [hflag]
          constructor
          · intro hex
            exact ⟨cell, hc, hgate.1, hgate.2, hex⟩
          · rintro ⟨_, _, _, _, hex⟩
            exact hex
        rcases Bool.eq_false_or_eq_true w.2 with hw | hw
        · rw [hw]
          have hinv := settle_exploded_inv d (s := s) (b := w.1) hfc
            (opened_flagged_revealed (h.2.2.1 hnl) ho)
          exact ⟨hinv.1, fun _ => ⟨fun _ => hiff.mp hw, fun _ => hinv.2⟩⟩
        · rw [hw]
          have htidy : Tidy w.1 := by
            intro i j y hy
            rcases ho.2 i j with h1 | ⟨x, hx, hxr, hxf, hx'⟩
            · exact h.2.2.1 hnl i j y (by rw [← h1]; exact hy)
            · rw [hy, Option.some.injEq] at hx'
              have hxm : x.isMine = false := by
                cases e : x.isMine
                · rfl
                · rcases hmine i j x hx e with h2 | h2
                  · rw [hy, Option.some.injEq] at h2
                    rw [h2] at hx'
                    have e2 := congrArg Cell.isRevealed hx'
                    rw [hxr] at e2
                    simp at e2
                  · rw [hw] at h2; simp at h2
              rw [hx']
              exact ⟨fun e => by rw [show x.isMine = true from e] at hxm; simp at hxm,
                fun _ => hxf⟩
          have hinv := settle_safe_inv d (s := s) (b := w.1) hfc hst htidy
          exact ⟨hinv.1, fun _ => ⟨fun e => absurd e hinv.2,
            fun e => by rw [hiff.mpr e] at hw; simp at hw⟩⟩
      · have hs2 : handleChord d.mines s r c = some s := by
          unfold handleChord
          rw [if_neg (by rw [hst]; simp)]
          simp only [hc]
          rw [if_pos]
          rw [cellNeighborFlags_eq]
          simp only [Bool.or_eq_true, Bool.not_eq_true', bne_iff_ne]
          by_cases hr : cell.isRevealed = true
          · exact Or.inr (fun e => hgate ⟨hr, e⟩)
          · left
            cases e : cell.isRevealed
            · rfl
            · exact absurd e hr
        rw [hs2, Option.some.injEq] at hstep
        rw [← hstep]
        refine ⟨h, fun _ => ⟨fun e => absurd e hnl, ?_⟩⟩
        rintro ⟨cell2, hc2, hr2, hn2, _⟩
        rw [hc, Option.some.injEq] at hc2
        rw [← hc2] at hr2 hn2
        exact absurd ⟨hr2, hn2⟩ hgate
  · simp only [handleChord, if_pos hst, Option.some.injEq] at hstep
    rw [← hstep]
    refine ⟨h, fun hnl => ⟨fun e => absurd e hnl, ?_⟩⟩
    rintro ⟨_, _, _, _, dd, _, x, hx, hxm⟩
    have hrw : s.status = Status.ready ∨ s.status = Status.won := by
      cases e : s.status
      · exact Or.inl rfl
      · exact absurd e hst
      · exact Or.inr rfl
      · exact absurd e hnl
    rw [h.no_hidden_mine hrw hx] at hxm
    simp at hxm

theorem sessionInv_resetGame (d : Difficulty) : SessionInv d (resetGame d) := by
  have himg : (resetGame d).board.map (List.map unflag) = createEmptyBoard d.rows d.cols :=
    (flagReachable_inv FlagReachable.start).2.2
  refine ⟨fun _ => ⟨rfl, himg⟩, fun _ => rfl, fun _ => tidy_of_flagged_empty himg,
    fun e => ?_, fun e => ?_⟩
  · simp [resetGame] at e
  · simp [resetGame] at e

/-- One action keeps the session invariant, and from a session that is not Lost it leads
to Lost exactly when it opens a hidden mine. -/
theorem act_inv {d : Difficulty} {s s2 : Session} {a : Action} (h : SessionInv d s)
    (hstep : act d.mines s a = some s2) :
    SessionInv d s2 ∧
      (s.status ≠ Status.lost → (s2.status = Status.lost ↔ RevealsMine s a)) := by
  cases a with
  | openCell draw r c => exact handleOpen_inv h hstep
  | flagCell r c =>
    obtain ⟨h1, h2⟩ := handleFlag_inv h hstep
    refine ⟨h1, fun hnl => ⟨fun e => ?_, fun e => ?_⟩⟩
    · rw [h2] at e; exact absurd e hnl
    · exact absurd e (by simp [RevealsMine])
  | chordCell r c => exact handleChord_inv h hstep

theorem reachable_inv {d : Difficulty} {s : Session} (h : Reachable d s) : SessionInv d s := by
  induction h with
  | start => exact sessionInv_resetGame d
  | step s s2 a _ hstep ih => exact (act_inv ih hstep).1

/-! ## Losing -/

set_option maxRecDepth 100000 in
theorem lossState_run :
    runActions beginner.mines (resetGame beginner) lossActions = some lossState :=
  option_eq_some_getD _ _ (by decide)

set_option maxRecDepth 100000 in
theorem lossState_cell :
    lossState.status = Status.lost ∧
    (cellAt lossState.board 0 0).map (fun x => (x.isMine, x.isRevealed, x.isFlagged))
      = some (true, true, true) := by
  decide

theorem lossState_reachable : Reachable beginner lossState :=
  reachable_of_runActions _ Reachable.start lossState_run

/-- C15: in every session reached from a new game by open, flag and chord actions, if
the status is Lost then every mine of the board is revealed; and an action taken in a
session that is not Lost leads to Lost exactly when it opens a mine that is neither
revealed nor flagged (the open action aimed at one, or the chord action past its gate
next to one). -/
theorem lost_exactly_on_mine (d : Difficulty) (s : Session) (hreach : Reachable d s) :
    (s.status = Status.lost →
      ∀ row ∈ s.board, ∀ x ∈ row, x.isMine = true → x.isRevealed = true) ∧
    ∀ (a : Action) (s2 : Session), act d.mines s a = some s2 → s.status ≠ Status.lost →
      (s2.status = Status.lost ↔ RevealsMine s a) := by
  have hinv := reachable_inv hreach
  constructor
  · intro hl row hrow x hx hm
    obtain ⟨i, j, hc⟩ := mem_cellAt hrow hx
    exact (hinv.2.2.2.2 hl i j x hc).1 hm
  · intro a s2 hstep hnl
    exact (act_inv hinv hstep).2 hnl

theorem lost_exactly_on_mine_witness :
    Reachable beginner lossState ∧
    ((lossState.status = Status.lost →
      ∀ row ∈ lossState.board, ∀ x ∈ row, x.isMine = true → x.isRevealed = true) ∧
    ∀ (a : Action) (s2 : Session), act beginner.mines lossState a = some s2 →
      lossState.status ≠ Status.lost → (s2.status = Status.lost ↔ RevealsMine lossState a)) :=
  ⟨lossState_reachable, lost_exactly_on_mine beginner lossState lossState_reachable⟩

/-! ## Revealed and flagged -/

/-- C17 (counterexample): the beginner game reaches, by opening `(4, 4)`, flagging the
mine at `(0, 0)` and opening the mine at `(0, 1)`, a Lost session whose cell at `(0, 0)`
is both revealed and flagged. -/
theorem flagged_mine_exposed_on_loss :
    Reachable beginner lossState ∧ lossState.status = Status.lost ∧
    ∃ x, cellAt lossState.board 0 0 = some x ∧ x.isRevealed = true ∧ x.isFlagged = true := by
  refine ⟨lossState_reachable, lossState_cell.1, ?_⟩
  have h := lossState_cell.2
  cases hc : cellAt lossState.board 0 0 with
  | none => rw [hc] at h; simp at h
  | some x =>
    rw [hc] at h
    simp only [Option.map_some', Option.some.injEq, Prod.mk.injEq] at h
    exact ⟨x, rfl, h.2.1, h.2.2⟩

/-- C17 (amended): in every session reached from a new game by open, flag and chord
actions, a cell that is both revealed and flagged exists only when the status is Lost,
and it is then a mine; so in Ready, Playing and Won sessions no cell is both revealed and
flagged. -/
theorem revealed_flagged_only_when_lost (d : Difficulty) (s : Session)
    (hreach : Reachable d s) :
    ∀ row ∈ s.board, ∀ x ∈ row, x.isRevealed = true → x.isFlagged = true →
      s.status = Status.lost ∧ x.isMine = true := by
  have hinv := reachable_inv hreach
  intro row hrow x hx hr hf
  obtain ⟨i, j, hc⟩ := mem_cellAt hrow hx
  by_cases hl : s.status = Status.lost
  · exact ⟨hl, (hinv.2.2.2.2 hl i j x hc).2 hr hf⟩
  · have := (hinv.2.2.1 hl i j x hc).2 hr
    rw [hf] at this
    simp at this

theorem revealed_flagged_only_when_lost_witness :
    Reachable beginner flaggedStarted ∧
    ∀ row ∈ flaggedStarted.board, ∀ x ∈ row, x.isRevealed = true → x.isFlagged = true →
      flaggedStarted.status = Status.lost ∧ x.isMine = true := by
  have h1 : Reachable beginner flaggedStart :=
    reachable_of_runActions _ Reachable.start flaggedStart_run
  have h2 : Reachable beginner flaggedStarted :=
    Reachable.step flaggedStart flaggedStarted (Action.openCell halfDraws 0 0) h1
      (handleOpen_flaggedStart halfDraws)
  exact ⟨h2, revealed_flagged_only_when_lost beginner flaggedStarted h2⟩

/-! ## The shuffle is a bijection from draws to orderings -/

theorem swapAt_length {α : Type} (arr : List α) (i j : Nat) :
    (swapAt arr i j).length = arr.length :=
  (swapAt_perm arr i j).length_eq

theorem getElem?_swapAt_of_ne {α : Type} (arr : List α) (i j k : Nat) (hi : k ≠ i)
    (hj : k ≠ j) : (swapAt arr i j)[k]? = arr[k]? := by
  unfold swapAt
  cases h1 : arr[i]? with
  | none => rfl
  | some x =>
    cases h2 : arr[j]? with
    | none => rfl
    | some y =>
      show ((arr.set i y).set j x)[k]? = arr[k]?
      rw [List.getElem?_set_ne (Ne.symm hj), List.getElem?_set_ne (Ne.symm hi)]

theorem getElem?_swapAt_left {α : Type} (arr : List α) (i j : Nat) (hi : i < arr.length)
    (hj : j < arr.length) : (swapAt arr i j)[i]? = arr[j]? := by
  unfold swapAt
  rw [List.getElem?_eq_getElem hi, List.getElem?_eq_getElem hj]
  show ((arr.set i arr[j]).set j arr[i])[i]? = some arr[j]
  by_cases hij : j = i
  · subst hij
    rw [List.getElem?_set_self (by simpa using hj)]
  · rw [List.getElem?_set_ne hij, List.getElem?_set_self hi]

theorem shuffleFrom_length {α : Type} (draw : Draws) (n : Nat) (arr : List α) :
    (shuffleFrom draw n arr).length = arr.length :=
  (shuffleFrom_perm draw n arr).length_eq

theorem getElem?_shuffleFrom_above {α : Type} (draw : Draws) (n : Nat) (arr : List α)
    (k : Nat) (hk : n < k) : (shuffleFrom draw n arr)[k]? = arr[k]? := by
  induction n generalizing arr with
  | zero => rfl
  | succ n ih =>
    show (shuffleFrom draw n (swapAt arr (n + 1) (draw (n + 1)).val))[k]? = arr[k]?
    rw [ih _ (by omega)]
    have := (draw (n + 1)).isLt
    exact getElem?_swapAt_of_ne arr _ _ k (by omega) (by omega)

/-- Two tables of draws that give the same result on a duplicate-free array agree at
every index the loop reads. -/
theorem shuffleFrom_injective {α : Type} (draw draw2 : Draws) (n : Nat) (arr : List α)
    (hnd : arr.Nodup) (hn : n < arr.length)
    (h : shuffleFrom draw n arr = shuffleFrom draw2 n arr) :
    ∀ k, 1 ≤ k → k ≤ n → draw k = draw2 k := by
  induction n generalizing arr with
  | zero => intro k h1 h2; omega
  | succ n ih =>
    have hj := (draw (n + 1)).isLt
    have hj2 := (draw2 (n + 1)).isLt
    have h' : shuffleFrom draw n (swapAt arr (n + 1) (draw (n + 1)).val)
        = shuffleFrom draw2 n (swapAt arr (n + 1) (draw2 (n + 1)).val) := h
    have hlast := congrArg (fun l => l[n + 1]?) h'
    simp only at hlast
    rw [getElem?_shuffleFrom_above _ _ _ _ (Nat.lt_succ_self n),
      getElem?_shuffleFrom_above _ _ _ _ (Nat.lt_succ_self n),
      getElem?_swapAt_left arr _ _ hn (by omega),
      getElem?_swapAt_left arr _ _ hn (by omega)] at hlast
    have hval : (draw (n + 1)).val = (draw2 (n + 1)).val :=
      List.getElem?_inj (by omega) hnd hlast
    have htop : draw (n + 1) = draw2 (n + 1) := Fin.ext hval
    rw [← hval] at h'
    have hrest := ih (swapAt arr (n + 1) (draw (n + 1)).val)
      ((swapAt_perm arr _ _).nodup_iff.mpr hnd) (by rw [swapAt_length]; omega) h'
    intro k h1 h2
    rcases Nat.eq_or_lt_of_le h2 with e | e
    · rw [e]; exact htop
    · exact hrest k h1 (by omega)

theorem card_drawSeq (n : Nat) : Nat.card (DrawSeq n) = n.factorial := by
  rw [Nat.card_eq_fintype_card, Fintype.card_pi]
  simp only [Fintype.card_fin]
  rw [Fin.prod_univ_eq_prod_range (fun i => i + 1) n, Finset.prod_range_add_one_eq_factorial]

theorem card_orderings {α : Type} (arr : List α) (hnd : arr.Nodup) :
    Nat.card { l : List α // l.Perm arr } = arr.length.factorial := by
  classical
  have hset : { l : List α | l.Perm arr } = ↑(arr.permutations.toFinset) := by
    ext l
    simp [List.mem_permutations]
  have h1 : Nat.card { l : List α // l.Perm arr } = Nat.card ↥(↑(arr.permutations.toFinset) : Set (List α)) := by
    rw [← hset]; rfl
  rw [h1, Set.Nat.card_coe_set_eq, Set.ncard_coe_Finset,
    List.toFinset_card_of_nodup (List.nodup_permutations arr hnd), List.length_permutations]

theorem toDraws_injective {α : Type} (arr : List α) (hnd : arr.Nodup)
    (seq seq2 : DrawSeq arr.length)
    (h : shuffle seq.toDraws arr = shuffle seq2.toDraws arr) : seq = seq2 := by
  funext i
  rcases Nat.eq_zero_or_pos i.val with h0 | h0
  · apply Fin.ext
    have h1 := (seq i).isLt
    have h2 := (seq2 i).isLt
    omega
  · have hlen : arr.length - 1 < arr.length := by have := i.isLt; omega
    have hk := shuffleFrom_injective seq.toDraws seq2.toDraws (arr.length - 1) arr hnd hlen h
      i.val h0 (by have := i.isLt; omega)
    unfold DrawSeq.toDraws at hk
    simp only [i.isLt, dif_pos] at hk
    exact hk

/-- C18: `shuffle` returns a permutation of its input for every table of draws; and on an
array of `n` distinct elements the map from the sequences of draws it can read to the
resulting ordering is a bijection onto the orderings of the array, of which there are
`n!`, as many as there are sequences of draws. -/
theorem shuffle_unbiased {α : Type} (arr : List α) (hnd : arr.Nodup) :
    (∀ draw : Draws, (shuffle draw arr).Perm arr) ∧
    Function.Bijective
      (fun seq : DrawSeq arr.length =>
        (⟨shuffle seq.toDraws arr, shuffle_perm seq.toDraws arr⟩ :
          { l : List α // l.Perm arr })) ∧
    Nat.card (DrawSeq arr.length) = arr.length.factorial ∧
    Nat.card { l : List α // l.Perm arr } = arr.length.factorial := by
  refine ⟨fun draw => shuffle_perm draw arr, ?_, card_drawSeq _, card_orderings arr hnd⟩
  classical
  have hfin : Finite { l : List α // l.Perm arr } := by
    apply Nat.finite_of_card_ne_zero
    rw [card_orderings arr hnd]
    exact Nat.factorial_ne_zero _
  rw [Nat.bijective_iff_injective_and_card]
  refine ⟨?_, by rw [card_drawSeq, card_orderings arr hnd]⟩
  intro seq seq2 h
  exact toDraws_injective arr hnd seq seq2 (congrArg Subtype.val h)

theorem shuffle_unbiased_witness :
    ([1, 2, 3] : List Nat).Nodup ∧
    ((∀ draw : Draws, (shuffle draw [1, 2, 3]).Perm [1, 2, 3]) ∧
    Function.Bijective
      (fun seq : DrawSeq ([1, 2, 3] : List Nat).length =>
        (⟨shuffle seq.toDraws [1, 2, 3], shuffle_perm seq.toDraws [1, 2, 3]⟩ :
          { l : List Nat // l.Perm [1, 2, 3] })) ∧
    Nat.card (DrawSeq ([1, 2, 3] : List Nat).length) = ([1, 2, 3] : List Nat).length.factorial ∧
    Nat.card { l : List Nat // l.Perm [1, 2, 3] }
      = ([1, 2, 3] : List Nat).length.factorial) :=
  ⟨by decide, shuffle_unbiased [1, 2, 3] (by decide)⟩

/-! ## The region opened by a cascade -/

theorem RevealsOnly.eq_of_openable {b b' : Board} (h : RevealsOnly b b') {i j : Int} {n : Cell}
    (hn : cellAt b' i j = some n) (hr : n.isRevealed = false) : cellAt b i j = some n := by
  rcases h.2 i j with h1 | ⟨x, _, _, _, _, hx'⟩
  · rw [← h1]; exact hn
  · rw [hn, Option.some.injEq] at hx'
    rw [hx'] at hr
    simp at hr

theorem RevealsOnly.changed_mono {b0 b b' : Board} (h0 : RevealsOnly b0 b)
    (h : RevealsOnly b b') {i j : Int} (hc : cellAt b i j ≠ cellAt b0 i j) :
    cellAt b' i j ≠ cellAt b0 i j := by
  rcases h0.2 i j with h1 | ⟨x, _, _, _, _, hx'⟩
  · exact absurd h1 hc
  · rw [h.stays_revealed hx' rfl, ← hx']
    exact hc

theorem neighborStep_wf {rows cols : Nat} (r c : Int) (s : Board × List Cell) (d : Int × Int)
    (hwf : WellFormed rows cols s.1) :
    (∀ z, cellAt (neighborStep r c s d).1 (r + d.1) (c + d.2) = some z →
      z.isRevealed = true ∨ z.isFlagged = true ∨ z.isMine = true) ∧
    (∀ i j z, cellAt (neighborStep r c s d).1 i j = some z → z.isRevealed = true →
      z.neighbor = 0 →
      cellAt s.1 i j = some z ∨ ∃ y ∈ (neighborStep r c s d).2, y.row = i ∧ y.col = j) ∧
    (∀ i j, cellAt (neighborStep r c s d).1 i j ≠ cellAt s.1 i j →
      i = r + d.1 ∧ j = c + d.2 ∧ ∃ n, cellAt s.1 i j = some n ∧ n.isOpenable) ∧
    (∀ y ∈ (neighborStep r c s d).2, y ∈ s.2 ∨
      ∃ n, cellAt s.1 (r + d.1) (c + d.2) = some n ∧ n.isOpenable ∧ n.neighbor = 0 ∧
        y.row = r + d.1 ∧ y.col = c + d.2) := by
  rcases neighborStep_cases r c s d with ⟨h, hclosed⟩ | ⟨n, hn, hr, hf, hm, h⟩
  · rw [h]
    exact ⟨hclosed, fun i j z hz _ _ => Or.inl hz, fun i j hne => absurd rfl hne,
      fun y hy => Or.inl hy⟩
  · have hpos := hwf.pos hn
    rw [h]
    refine ⟨?_, ?_, ?_, ?_⟩
    · intro z hz
      simp only at hz
      rw [cellAt_updateCell, if_pos ⟨rfl, rfl⟩, hn] at hz
      simp only [Option.map_some', Option.some.injEq] at hz
      left; rw [← hz]
    · intro i j z hz hzr hz0
      simp only at hz
      rw [cellAt_updateCell] at hz
      by_cases hij : i = r + d.1 ∧ j = c + d.2
      · right
        rw [if_pos hij, hij.1, hij.2, hn] at hz
        simp only [Option.map_some', Option.some.injEq] at hz
        have hn0 : n.neighbor = 0 := by rw [← hz] at hz0; exact hz0
        simp only [hn0, if_true]
        refine ⟨_, List.mem_append_right _ (List.mem_singleton.mpr rfl), ?_, ?_⟩
        · show n.row = i
          rw [hpos.1, hij.1]
        · show n.col = j
          rw [hpos.2.1, hij.2]
      · left
        rw [if_neg hij] at hz
        exact hz
    · intro i j hne
      simp only at hne
      rw [cellAt_updateCell] at hne
      by_cases hij : i = r + d.1 ∧ j = c + d.2
      · exact ⟨hij.1, hij.2, n, by rw [hij.1, hij.2]; exact hn, hr, hf, hm⟩
      · rw [if_neg hij] at hne
        exact absurd rfl hne
    · intro y hy
      simp only at hy
      by_cases hn0 : n.neighbor = 0
      · rw [if_pos hn0] at hy
        rcases List.mem_append.mp hy with hy | hy
        · exact Or.inl hy
        · right
          rw [List.mem_singleton] at hy
          refine ⟨n, hn, ⟨hr, hf, hm⟩, hn0, ?_, ?_⟩
          · rw [hy]; exact hpos.1
          · rw [hy]; exact hpos.2.1
      · rw [if_neg hn0] at hy
        exact Or.inl hy

theorem foldl_neighborStep_wf {rows cols : Nat} (r c : Int) (l : List (Int × Int))
    (s : Board × List Cell) (hwf : WellFormed rows cols s.1) :
    (∀ d ∈ l, ∀ z, cellAt (l.foldl (neighborStep r c) s).1 (r + d.1) (c + d.2) = some z →
      z.isRevealed = true ∨ z.isFlagged = true ∨ z.isMine = true) ∧
    (∀ i j z, cellAt (l.foldl (neighborStep r c) s).1 i j = some z → z.isRevealed = true →
      z.neighbor = 0 →
      cellAt s.1 i j = some z ∨ ∃ y ∈ (l.foldl (neighborStep r c) s).2, y.row = i ∧ y.col = j) ∧
    (∀ i j, cellAt (l.foldl (neighborStep r c) s).1 i j ≠ cellAt s.1 i j →
      ∃ d ∈ l, i = r + d.1 ∧ j = c + d.2 ∧ ∃ n, cellAt s.1 i j = some n ∧ n.isOpenable) ∧
    (∀ y ∈ (l.foldl (neighborStep r c) s).2, y ∈ s.2 ∨
      ∃ d ∈ l, ∃ n, cellAt s.1 (r + d.1) (c + d.2) = some n ∧ n.isOpenable ∧ n.neighbor = 0 ∧
        y.row = r + d.1 ∧ y.col = c + d.2) := by
  induction l generalizing s with
  | nil =>
    exact ⟨fun d hd => by simp at hd, fun i j z hz _ _ => Or.inl hz,
      fun i j hne => absurd rfl hne, fun y hy => Or.inl hy⟩
  | cons d l ih =>
    have hro1 := neighborStep_revealsOnly r c s d
    obtain ⟨hA1, hB1, hD1, hE1⟩ := neighborStep_wf r c s d hwf
    obtain ⟨hA, hB, hD, hE⟩ := ih (neighborStep r c s d) (hro1.wellFormed hwf)
    have hro := foldl_neighborStep_revealsOnly r c l (neighborStep r c s d)
    rw [List.foldl_cons]
    refine ⟨?_, ?_, ?_, ?_⟩
    · intro d2 hd2 z hz
      rcases List.mem_cons.mp hd2 with rfl | hd2
      · rcases hro.2 (r + d2.1) (c + d2.2) with h1 | ⟨x, _, _, _, _, hx'⟩
        · exact hA1 z (by rw [← h1]; exact hz)
        · rw [hz, Option.some.injEq] at hx'
          left; rw [hx']
      · exact hA d2 hd2 z hz
    · intro i j z hz hzr hz0
      rcases hB i j z hz hzr hz0 with h1 | hq
      · rcases hB1 i j z h1 hzr hz0 with h0 | ⟨y, hy, hyp⟩
        · exact Or.inl h0
        · exact Or.inr ⟨y, foldl_neighborStep_queue r c l _ y hy, hyp⟩
      · exact Or.inr hq
    · intro i j hne
      by_cases h1 : cellAt (neighborStep r c s d).1 i j = cellAt s.1 i j
      · rw [← h1] at hne
        obtain ⟨d2, hd2, hi, hj, n, hn, hno⟩ := hD i j hne
        exact ⟨d2, List.mem_cons_of_mem _ hd2, hi, hj, n, by rw [← h1]; exact hn, hno⟩
      · obtain ⟨hi, hj, n, hn, hno⟩ := hD1 i j h1
        exact ⟨d, List.mem_cons_self _ _, hi, hj, n, hn, hno⟩
    · intro y hy
      rcases hE y hy with h1 | ⟨d2, hd2, n, hn, hno, hn0, hrow, hcol⟩
      · rcases hE1 y h1 with h0 | ⟨n, hn, hno, hn0, hrow, hcol⟩
        · exact Or.inl h0
        · exact Or.inr ⟨d, List.mem_cons_self _ _, n, hn, hno, hn0, hrow, hcol⟩
      · exact Or.inr ⟨d2, List.mem_cons_of_mem _ hd2, n, hro1.eq_of_openable hn hno.1, hno, hn0,
          hrow, hcol⟩

theorem region_step {rows cols : Nat} {b0 : Board} (hwf : WellFormed rows cols b0) (r c : Int)
    (b : Board) (cur : Cell) (q : List Cell) (h : RegionInv b0 r c b (cur :: q)) :
    RegionInv b0 r c (OFFSETS.foldl (neighborStep cur.row cur.col) (b, q)).1
      (OFFSETS.foldl (neighborStep cur.row cur.col) (b, q)).2 := by
  obtain ⟨hro0, hS1, hS2, hF⟩ := h
  obtain ⟨hA, hB, hD, hE⟩ :=
    foldl_neighborStep_wf cur.row cur.col OFFSETS (b, q) (hro0.wellFormed hwf)
  have hro : RevealsOnly b (OFFSETS.foldl (neighborStep cur.row cur.col) (b, q)).1 :=
    foldl_neighborStep_revealsOnly cur.row cur.col OFFSETS (b, q)
  have hQ : ∀ y ∈ q, y ∈ (OFFSETS.foldl (neighborStep cur.row cur.col) (b, q)).2 :=
    foldl_neighborStep_queue cur.row cur.col OFFSETS (b, q)
  obtain ⟨hcurR, xc, hxc, hxc0⟩ := hS2 cur (List.mem_cons_self _ _)
  have hnew : ∀ d ∈ OFFSETS, ∀ n, cellAt b (cur.row + d.1) (cur.col + d.2) = some n →
      n.isOpenable → InRegion b0 r c (cur.row + d.1) (cur.col + d.2) ∧
        cellAt b0 (cur.row + d.1) (cur.col + d.2) = some n := by
    intro d hd n hn hno
    have hn0 := hro0.eq_of_openable hn hno.1
    exact ⟨InRegion.step cur.row cur.col d xc n hcurR hxc hxc0 hd hn0 hno.1 hno.2.1 hno.2.2, hn0⟩
  refine ⟨hro0.trans hro, ?_, ?_, ?_⟩
  · intro i j hne
    by_cases h1 : cellAt b i j = cellAt b0 i j
    · rw [← h1] at hne
      obtain ⟨d, hd, hi, hj, n, hn, hno⟩ := hD i j hne
      rw [hi, hj] at hn ⊢
      exact (hnew d hd n hn hno).1
    · exact hS1 i j h1
  · intro y hy
    rcases hE y hy with h1 | ⟨d, hd, n, hn, hno, hn0, hrow, hcol⟩
    · exact hS2 y (List.mem_cons_of_mem _ h1)
    · rw [hrow, hcol]
      obtain ⟨h1, h2⟩ := hnew d hd n hn hno
      exact ⟨h1, n, h2, hn0⟩
  · intro i j x0 hx0 hne hx00
    by_cases hch : cellAt b i j = cellAt b0 i j
    · left
      have hne2 : cellAt (OFFSETS.foldl (neighborStep cur.row cur.col) (b, q)).1 i j
          ≠ cellAt b i j := by rw [hch]; exact hne
      rcases hro.2 i j with h1 | ⟨x, hx, hxr, _, _, hx'⟩
      · exact absurd h1 hne2
      · have hz0 : x.neighbor = 0 := by
          rw [hch, hx0, Option.some.injEq] at hx
          rw [← hx]; exact hx00
        rcases hB i j _ hx' rfl hz0 with h2 | h2
        · simp only at h2
          rw [hx, Option.some.injEq] at h2
          rw [h2] at hxr
          simp at hxr
        · exact h2
    · rcases hF i j x0 hx0 hch hx00 with ⟨y, hy, hy1, hy2⟩ | hall
      · rcases List.mem_cons.mp hy with rfl | hy
        · right
          intro d hd y0 hy0 hyo heq
          rw [← hy1, ← hy2] at hy0 heq
          rw [hy0] at heq
          rcases hA d hd y0 heq with e | e | e
          · rw [hyo.1] at e; simp at e
          · rw [hyo.2.1] at e; simp at e
          · rw [hyo.2.2] at e; simp at e
        · exact Or.inl ⟨y, hQ y hy, hy1, hy2⟩
      · right
        intro d hd y0 hy0 hyo
        exact hro0.changed_mono hro (hall d hd y0 hy0 hyo)

theorem cascadeLoop_region {rows cols : Nat} {b0 : Board} (hwf : WellFormed rows cols b0)
    (r c : Int) (fuel : Nat) (b : Board) (q : List Cell) (b' : Board)
    (hinv : RegionInv b0 r c b q) (h : cascadeLoop fuel b q = some b') :
    RegionInv b0 r c b' [] := by
  induction fuel generalizing b q with
  | zero =>
    cases q with
    | nil =>
      simp only [cascadeLoop, Option.some.injEq] at h
      rw [← h]; exact hinv
    | cons cur q => simp [cascadeLoop] at h
  | succ fuel ih =>
    cases q with
    | nil =>
      simp only [cascadeLoop, Option.some.injEq] at h
      rw [← h]; exact hinv
    | cons cur q =>
      rw [cascadeLoop_cons] at h
      exact ih _ _ (region_step hwf r c b cur q hinv) h

/-- C19: on a board of the data model, for an in-range cell that is not a mine, not
revealed and not flagged, `revealCascade` returns `exploded = false` and a board of the
same shape which holds, at every position of the region `InRegion board r c`, the input
cell with `isRevealed` set, and at every other position the input cell unchanged; a
flagged cell is never changed. -/
theorem revealCascade_region (rows cols : Nat) (board : Board)
    (hwf : WellFormed rows cols board) (r c : Int) (start : Cell)
    (hs : cellAt board r c = some start) (hm : start.isMine = false)
    (hr : start.isRevealed = false) (hf : start.isFlagged = false) :
    ∃ res, revealCascade board r c = some res ∧ res.exploded = false ∧
      res.nextBoard.map List.length = board.map List.length ∧
      (∀ i j, InRegion board r c i j →
        cellAt res.nextBoard i j
          = (cellAt board i j).map fun x => { x with isRevealed := true }) ∧
      (∀ i j, ¬ InRegion board r c i j → cellAt res.nextBoard i j = cellAt board i j) ∧
      (∀ i j x, cellAt board i j = some x → x.isFlagged = true →
        cellAt res.nextBoard i j = some x) := by
  obtain ⟨b', hloop, hres⟩ := revealCascade_open hs hr hf hm
  have hpos := hwf.pos hs
  have hro1 := revealsOnly_updateCell hs hr hf hm
  have hchanged1 : ∀ i j, cellAt (updateCell board r c fun x => { x with isRevealed := true }) i j
      ≠ cellAt board i j → i = r ∧ j = c := by
    intro i j hne
    rw [cellAt_updateCell] at hne
    by_cases hij : i = r ∧ j = c
    · exact hij
    · rw [if_neg hij] at hne
      exact absurd rfl hne
  have hinv1 : RegionInv board r c (updateCell board r c fun x => { x with isRevealed := true })
      (if start.neighbor = 0 then [{ start with isRevealed := true }] else []) := by
    refine ⟨hro1, ?_, ?_, ?_⟩
    · intro i j hne
      obtain ⟨hi, hj⟩ := hchanged1 i j hne
      rw [hi, hj]; exact InRegion.start
    · intro y hy
      by_cases h0 : start.neighbor = 0
      · rw [if_pos h0, List.mem_singleton] at hy
        rw [hy]
        show InRegion board r c start.row start.col ∧
          ∃ x0, cellAt board start.row start.col = some x0 ∧ x0.neighbor = 0
        rw [hpos.1, hpos.2.1]
        exact ⟨InRegion.start, start, hs, h0⟩
      · rw [if_neg h0] at hy
        simp at hy
    · intro i j x0 hx0 hne hx00
      obtain ⟨hi, hj⟩ := hchanged1 i j hne
      left
      rw [hi, hj, hs, Option.some.injEq] at hx0
      rw [if_pos (by rw [hx0]; exact hx00)]
      exact ⟨_, List.mem_singleton.mpr rfl, by rw [hi]; exact hpos.1, by rw [hj]; exact hpos.2.1⟩
  obtain ⟨hro, hS1, _, hF⟩ := cascadeLoop_region hwf r c _ _ _ b' hinv1 hloop
  have hin : ∀ i j, InRegion board r c i j → cellAt b' i j ≠ cellAt board i j := by
    intro i j hreg
    induction hreg with
    | start =>
      have hat : cellAt (updateCell board r c fun x => { x with isRevealed := true }) r c
          ≠ cellAt board r c := by
        rw [cellAt_updateCell, if_pos ⟨rfl, rfl⟩, hs]
        intro e
        simp only [Option.map_some', Option.some.injEq] at e
        have := congrArg Cell.isRevealed e
        rw [hr] at this
        simp at this
      exact hro1.changed_mono (cascadeLoop_revealsOnly _ _ _ _ hloop) hat
    | step i j d x y _ hx hx0 hd hy hyr hyf hym ih =>
      rcases hF i j x hx ih hx0 with ⟨_, hq, _⟩ | hall
      · simp at hq
      · exact hall d hd y hy ⟨hyr, hyf, hym⟩
  refine ⟨_, hres, rfl, hro.1, ?_, ?_, ?_⟩
  · intro i j hreg
    rcases hro.2 i j with h1 | ⟨x, hx, _, _, _, hx'⟩
    · exact absurd h1 (hin i j hreg)
    · show cellAt b' i j = _
      rw [hx', hx]; rfl
  · intro i j hreg
    by_contra hne
    exact hreg (hS1 i j hne)
  · intro i j x hx hxf
    rcases hro.2 i j with h1 | ⟨x2, hx2, _, hf2, _, _⟩
    · show cellAt b' i j = some x
      rw [h1, hx]
    · rw [hx, Option.some.injEq] at hx2
      rw [hx2, hf2] at hxf
      simp at hxf

set_option maxRecDepth 100000 in
theorem revealCascade_region_witness :
    WellFormed 1 2 minedBoard ∧ cellAt minedBoard 0 0 = some (makeCell 0 0) ∧
    (makeCell 0 0).isMine = false ∧ (makeCell 0 0).isRevealed = false ∧
    (makeCell 0 0).isFlagged = false ∧
    ∃ res, revealCascade minedBoard 0 0 = some res ∧ res.exploded = false ∧
      res.nextBoard.map List.length = minedBoard.map List.length ∧
      (∀ i j, InRegion minedBoard 0 0 i j →
        cellAt res.nextBoard i j
          = (cellAt minedBoard i j).map fun x => { x with isRevealed := true }) ∧
      (∀ i j, ¬ InRegion minedBoard 0 0 i j →
        cellAt res.nextBoard i j = cellAt minedBoard i j) ∧
      (∀ i j x, cellAt minedBoard i j = some x → x.isFlagged = true →
        cellAt res.nextBoard i j = some x) :=
  ⟨by decide, by decide, rfl, rfl, rfl,
    revealCascade_region 1 2 minedBoard (by decide) 0 0 (makeCell 0 0) (by decide) rfl rfl rfl⟩

theorem neighborStepLog_cases (r c : Int) (s : (Board × List Cell) × List (Int × Int))
    (d : Int × Int) :
    (neighborStepLog r c s d = s ∧ neighborStep r c s.1 d = s.1) ∨
    ∃ n, cellAt s.1.1 (r + d.1) (c + d.2) = some n ∧ n.isRevealed = false ∧
      n.isFlagged = false ∧ n.isMine = false ∧
      neighborStepLog r c s d
        = ((updateCell s.1.1 (r + d.1) (c + d.2) fun x => { x with isRevealed := true },
            if n.neighbor = 0 then s.1.2 ++ [{ n with isRevealed := true }] else s.1.2),
           if n.neighbor = 0 then s.2 ++ [(r + d.1, c + d.2)] else s.2) ∧
      neighborStep r c s.1 d
        = (updateCell s.1.1 (r + d.1) (c + d.2) fun x => { x with isRevealed := true },
           if n.neighbor = 0 then s.1.2 ++ [{ n with isRevealed := true }] else s.1.2) := by
  unfold neighborStepLog neighborStep
  cases hn : cellAt s.1.1 (r + d.1) (c + d.2) with
  | none => left; exact ⟨rfl, rfl⟩
  | some n =>
    simp only
    unfold revealNeighborLog revealNeighbor
    by_cases hcond : (!n.isRevealed && !n.isFlagged && !n.isMine) = true
    · right
      rw [if_pos hcond, if_pos hcond]
      simp only [Bool.and_eq_true, Bool.not_eq_true'] at hcond
      exact ⟨n, rfl, hcond.1.1, hcond.1.2, hcond.2, rfl, rfl⟩
    · left
      rw [if_neg hcond, if_neg hcond]
      exact ⟨rfl, rfl⟩

theorem neighborStepLog_fst (r c : Int) (s : (Board × List Cell) × List (Int × Int))
    (d : Int × Int) : (neighborStepLog r c s d).1 = neighborStep r c s.1 d := by
  rcases neighborStepLog_cases r c s d with ⟨h1, h2⟩ | ⟨n, _, _, _, _, h1, h2⟩
  · rw [h1, h2]
  · rw [h1, h2]

theorem foldl_neighborStepLog_fst (r c : Int) (l : List (Int × Int))
    (s : (Board × List Cell) × List (Int × Int)) :
    (l.foldl (neighborStepLog r c) s).1 = l.foldl (neighborStep r c) s.1 := by
  induction l generalizing s with
  | nil => rfl
  | cons d l ih =>
    rw [List.foldl_cons, List.foldl_cons, ih, neighborStepLog_fst]

theorem neighborStepLog_inv (b0 : Board) (r c : Int)
    (s : (Board × List Cell) × List (Int × Int)) (d : Int × Int) (k : Nat)
    (h : LogInv b0 s k) : LogInv b0 (neighborStepLog r c s d) k := by
  rcases neighborStepLog_cases r c s d with ⟨h1, _⟩ | ⟨n, hn, hr, hf, hm, h1, _⟩
  · rw [h1]; exact h
  · rw [h1]
    obtain ⟨hro, hnd, hlog, hlen, hms⟩ := h
    have hstep := revealsOnly_updateCell hn hr hf hm
    have hcount := unrevealedCount_reveal hn hr
    have hn0 : cellAt b0 (r + d.1) (c + d.2) = some n := hro.eq_of_openable hn hr
    have hnew : cellAt (updateCell s.1.1 (r + d.1) (c + d.2)
        fun x => { x with isRevealed := true }) (r + d.1) (c + d.2)
        = some { n with isRevealed := true } := by
      rw [cellAt_updateCell, if_pos ⟨rfl, rfl⟩, hn]; rfl
    have hold : ∀ p ∈ s.2, ∃ x, cellAt b0 p.1 p.2 = some x ∧ x.isRevealed = false ∧
        cellAt (updateCell s.1.1 (r + d.1) (c + d.2) fun x => { x with isRevealed := true })
          p.1 p.2 = some { x with isRevealed := true } := by
      intro p hp
      obtain ⟨x, hx0, hxr, hx⟩ := hlog p hp
      exact ⟨x, hx0, hxr, hstep.stays_revealed hx rfl⟩
    have hfresh : (r + d.1, c + d.2) ∉ s.2 := by
      intro hp
      obtain ⟨x, _, _, hx⟩ := hlog _ hp
      simp only at hx
      rw [hn, Option.some.injEq] at hx
      rw [hx] at hr
      simp at hr
    refine ⟨hro.trans hstep, ?_, ?_, ?_, ?_⟩
    · simp only
      split_ifs
      · rw [List.nodup_append]
        refine ⟨hnd, List.nodup_singleton _, ?_⟩
        intro a ha hb
        rw [List.mem_singleton] at hb
        rw [hb] at ha
        exact hfresh ha
      · exact hnd
    · simp only
      split_ifs
      · intro p hp
        rcases List.mem_append.mp hp with hp | hp
        · exact hold p hp
        · rw [List.mem_singleton] at hp
          rw [hp]
          exact ⟨n, hn0, hr, hnew⟩
      · exact hold
    · simp only
      split_ifs
      · rw [List.length_append, List.length_append, List.length_singleton,
          List.length_singleton]
        omega
      · exact hlen
    · simp only
      split_ifs
      · rw [List.length_append, List.length_singleton]
        omega
      · omega

theorem foldl_neighborStepLog_inv (b0 : Board) (r c : Int) (l : List (Int × Int))
    (s : (Board × List Cell) × List (Int × Int)) (k : Nat) (h : LogInv b0 s k) :
    LogInv b0 (l.foldl (neighborStepLog r c) s) k := by
  induction l generalizing s with
  | nil => exact h
  | cons d l ih =>
    rw [List.foldl_cons]
    exact ih _ (neighborStepLog_inv b0 r c s d k h)

theorem cascadeLoopLog_cons (fuel : Nat) (b : Board) (cur : Cell) (q : List Cell)
    (log : List (Int × Int)) (k : Nat) :
    cascadeLoopLog (fuel + 1) b (cur :: q) log k
      = cascadeLoopLog fuel (OFFSETS.foldl (neighborStepLog cur.row cur.col) ((b, q), log)).1.1
          (OFFSETS.foldl (neighborStepLog cur.row cur.col) ((b, q), log)).1.2
          (OFFSETS.foldl (neighborStepLog cur.row cur.col) ((b, q), log)).2 (k + 1) :=
  rfl

/-- The logged loop ends within the same fuel as the loop itself, on the same board, and
keeps its invariant. -/
theorem cascadeLoopLog_spec (b0 : Board) (fuel : Nat) (b : Board) (q : List Cell)
    (log : List (Int × Int)) (k : Nat) (hinv : LogInv b0 ((b, q), log) k)
    (hfuel : unrevealedCount b + q.length ≤ fuel) :
    ∃ b' log' k', cascadeLoopLog fuel b q log k = some (b', log', k') ∧
      cascadeLoop fuel b q = some b' ∧ LogInv b0 ((b', []), log') k' := by
  induction fuel generalizing b q log k with
  | zero =>
    cases q with
    | nil => exact ⟨b, log, k, rfl, rfl, hinv⟩
    | cons cur q => simp at hfuel
  | succ fuel ih =>
    cases q with
    | nil => exact ⟨b, log, k, rfl, rfl, hinv⟩
    | cons cur q =>
      rw [cascadeLoopLog_cons, cascadeLoop_cons,
        ← foldl_neighborStepLog_fst cur.row cur.col OFFSETS ((b, q), log)]
      apply ih
      · apply foldl_neighborStepLog_inv
        obtain ⟨h1, h2, h3, h4, h5⟩ := hinv
        refine ⟨h1, h2, h3, ?_, h5⟩
        simp only [List.length_cons] at h4 ⊢
        omega
      · have hms := foldl_neighborStep_measure cur.row cur.col OFFSETS (b, q)
        rw [foldl_neighborStepLog_fst]
        simp only [List.length_cons] at hfuel
        show unrevealedCount (OFFSETS.foldl (neighborStep cur.row cur.col) (b, q)).1
          + (OFFSETS.foldl (neighborStep cur.row cur.col) (b, q)).2.length ≤ fuel
        have hms2 : unrevealedCount (OFFSETS.foldl (neighborStep cur.row cur.col) (b, q)).1
            + (OFFSETS.foldl (neighborStep cur.row cur.col) (b, q)).2.length
            ≤ unrevealedCount b + q.length := hms
        omega

theorem inRegion_least (b0 : Board) (r c : Int) (N : Int → Int → Prop) (hstart : N r c)
    (hstep : ∀ i j (d : Int × Int) x y, N i j → cellAt b0 i j = some x → x.neighbor = 0 →
      d ∈ OFFSETS → cellAt b0 (i + d.1) (j + d.2) = some y → y.isRevealed = false →
      y.isFlagged = false → y.isMine = false → N (i + d.1) (j + d.2))
    (i j : Int) (h : InRegion b0 r c i j) : N i j := by
  induction h with
  | start => exact hstart
  | step i j d x y _ hx hx0 hd hy hyr hyf hym ih =>
    exact hstep i j d x y ih hx hx0 hd hy hyr hyf hym

/-- C20: for every board and every in-range position, `revealCascade` returns; in the
logged run, which returns the same result, no position is handed to `queue.push` twice,
every pushed cell was unrevealed in the input and is revealed in the result, the loop
takes exactly one `queue.shift()` per push, and the number of shifts is at most the
number of cells of the board, which is `rows * cols` on a board of the data model. -/
theorem revealCascade_bounded (board : Board) (r c : Int) (start : Cell)
    (hs : cellAt board r c = some start) :
    ∃ res pushed shifts, revealCascadeLog board r c = some (res, pushed, shifts) ∧
      revealCascade board r c = some res ∧ pushed.Nodup ∧
      (∀ p ∈ pushed, ∃ x, cellAt board p.1 p.2 = some x ∧ x.isRevealed = false ∧
        cellAt res.nextBoard p.1 p.2 = some { x with isRevealed := true }) ∧
      shifts = pushed.length ∧ shifts ≤ board.flatten.length ∧
      ∀ rows cols, WellFormed rows cols board → shifts ≤ rows * cols := by
  by_cases hcond : (start.isFlagged || start.isRevealed) = true
  · refine ⟨{ nextBoard := board, exploded := false }, [], 0, ?_, ?_, List.nodup_nil,
      fun p hp => by simp at hp, rfl, Nat.zero_le _, fun _ _ _ => Nat.zero_le _⟩
    · simp only [revealCascadeLog, hs]
      rw [if_pos hcond]
    · simp only [revealCascade, hs]
      rw [if_pos hcond]
  · by_cases hm : start.isMine = true
    · refine ⟨{ nextBoard := updateCell board r c fun x => { x with isRevealed := true },
                exploded := true }, [], 0, ?_, ?_, List.nodup_nil,
        fun p hp => by simp at hp, rfl, Nat.zero_le _, fun _ _ _ => Nat.zero_le _⟩
      · simp only [revealCascadeLog, hs]
        rw [if_neg hcond, if_pos hm]
      · simp only [revealCascade, hs]
        rw [if_neg hcond, if_pos hm]
    · have hf : start.isFlagged = false := by
        cases h : start.isFlagged
        · rfl
        · rw [h] at hcond; simp at hcond
      have hr : start.isRevealed = false := by
        cases h : start.isRevealed
        · rfl
        · rw [h] at hcond; simp at hcond
      have hm' : start.isMine = false := by
        cases h : start.isMine
        · rfl
        · exact absurd h hm
      have hopen : (!start.isRevealed && !start.isFlagged) = true := by simp [hr, hf]
      have hcount := unrevealedCount_reveal hs hr
      have hle := unrevealedCount_le board
      have hinv : LogInv board
          ((updateCell board r c fun x => { x with isRevealed := true },
            if start.neighbor = 0 then [] ++ [{ start with isRevealed := true }] else []),
           if start.neighbor = 0 then [] ++ [(r, c)] else []) 0 := by
        refine ⟨revealsOnly_updateCell hs hr hf hm', ?_, ?_, ?_, ?_⟩
        · simp only
          split_ifs
          · exact List.nodup_singleton _
          · exact List.nodup_nil
        · intro p hp
          simp only at hp
          split_ifs at hp
          · rw [List.nil_append, List.mem_singleton] at hp
            rw [hp]
            refine ⟨start, hs, hr, ?_⟩
            show cellAt (updateCell board r c fun x => { x with isRevealed := true }) r c = _
            rw [cellAt_updateCell, if_pos ⟨rfl, rfl⟩, hs]; rfl
          · simp at hp
        · simp only
          split_ifs <;> simp
        · simp only
          split_ifs
          · simp only [List.nil_append, List.length_singleton]; omega
          · simp only [List.length_nil]; omega
      have hfuel : unrevealedCount (updateCell board r c fun x => { x with isRevealed := true })
          + (if start.neighbor = 0 then [] ++ [{ start with isRevealed := true }]
              else ([] : List Cell)).length ≤ board.flatten.length := by
        split_ifs
        · simp only [List.nil_append, List.length_singleton]; omega
        · simp only [List.length_nil]; omega
      obtain ⟨b', log', k', hlog, hloop, _, hnd, hpushed, hlen, hms⟩ :=
        cascadeLoopLog_spec board _ _ _ _ 0 hinv hfuel
      simp only [List.length_nil, Nat.add_zero] at hlen
      have hbound : k' ≤ board.flatten.length := by
        simp only at hms
        omega
      refine ⟨{ nextBoard := b', exploded := false }, log', k', ?_, ?_, hnd, hpushed, hlen,
        hbound, fun rows cols hwf => by rw [← hwf.length_flatten]; exact hbound⟩
      · simp only [revealCascadeLog, hs]
        rw [if_neg hcond, if_neg hm]
        unfold pushLog
        rw [if_pos hopen]
        simp only
        rw [hlog]; rfl
      · simp only [revealCascade, hs]
        rw [if_neg hcond, if_neg hm]
        unfold push
        rw [if_pos hopen]
        simp only
        rw [hloop]; rfl

set_option maxRecDepth 100000 in
theorem revealCascade_bounded_witness :
    cellAt (createEmptyBoard 3 3) 1 1 = some (makeCell 1 1) ∧
    ∃ res pushed shifts,
      revealCascadeLog (createEmptyBoard 3 3) 1 1 = some (res, pushed, shifts) ∧
      revealCascade (createEmptyBoard 3 3) 1 1 = some res ∧ pushed.Nodup ∧
      (∀ p ∈ pushed, ∃ x, cellAt (createEmptyBoard 3 3) p.1 p.2 = some x ∧
        x.isRevealed = false ∧
        cellAt res.nextBoard p.1 p.2 = some { x with isRevealed := true }) ∧
      shifts = pushed.length ∧ shifts ≤ (createEmptyBoard 3 3).flatten.length ∧
      ∀ rows cols, WellFormed rows cols (createEmptyBoard 3 3) → shifts ≤ rows * cols :=
  ⟨by decide, revealCascade_bounded (createEmptyBoard 3 3) 1 1 (makeCell 1 1) (by decide)⟩

end Minesweeper
